import Mathlib

/-!
Verification of the structured-listing extraction pipeline
(`app/listing_scraper.py`) against its natural-language specification.

The Python source is shallowly embedded: pure functions become Lean
functions, index-based scanning loops become recursion over `List Char`
suffixes (or fuel-based recursion where an iteration can jump forward),
Python dictionaries with fixed key sets become structures, and Python
exceptions become `Except`.  External collaborators (the HTTP client, the
headless renderer, CPython's `urllib.parse` and `json` standard-library
modules) are modelled explicitly where the code under verification calls
them; each such model carries a doc comment naming what it models.
-/

namespace ListingScraper

/-! ## String helpers (Python `str` operations used by the scraper) -/

/-- Lower-casing a string character by character, modelling Python
`str.lower` for the ASCII inputs the scraper compares. -/
def toLowerStr (s : String) : String := String.mk (s.toList.map Char.toLower)

/-- Drop characters satisfying `p` from both ends of a character list. -/
def trimCharsBy (p : Char → Bool) (cs : List Char) : List Char :=
  ((cs.dropWhile p).reverse.dropWhile p).reverse

/-- Split a character list into maximal runs not satisfying `p`, discarding
the separators and empty runs: Python `str.split()` with no argument (with
`p` the whitespace test). -/
def splitRuns (p : Char → Bool) : List Char → List (List Char)
  | [] => []
  | c :: rest =>
      if p c then splitRuns p rest
      else
        match splitRuns p rest with
        | [] => [[c]]
        | w :: ws =>
            match rest with
            | [] => [[c]]
            | d :: _ => if p d then [c] :: w :: ws else (c :: w) :: ws

/-- Interleave a separator between the elements of a list of lists
(Python `sep.join(parts)`). -/
def joinWith (sep : List Char) : List (List Char) → List Char
  | [] => []
  | [w] => w
  | w :: ws => w ++ sep ++ joinWith sep ws

/-- Model of the Python pattern `" ".join(text.split())`: split on runs of
whitespace, drop empty pieces, re-join with single spaces. -/
def normSpaceJoin (s : String) : String :=
  String.mk (joinWith [' '] (splitRuns Char.isWhitespace s.toList))

/-- Model of Python `str.strip()` with no arguments (strip whitespace at
both ends). -/
def pyStrip (s : String) : String :=
  String.mk (trimCharsBy Char.isWhitespace s.toList)

/-- Model of Python `str.lstrip("/")`: drop leading slash characters. -/
def lstripSlash (s : String) : String :=
  String.mk (s.toList.dropWhile (fun c => c = '/'))

/-- Model of Python `str.strip("/")`: drop slash characters at both ends. -/
def stripSlash (s : String) : String :=
  String.mk (trimCharsBy (fun c => c = '/') s.toList)

/-- Split a character list at every occurrence of a delimiter, keeping empty
pieces: Python `str.split(delim)` and Lean `String.splitOn` semantics. -/
def splitOnCh (delim : Char) : List Char → List (List Char)
  | [] => [[]]
  | c :: rest =>
      if c = delim then [] :: splitOnCh delim rest
      else
        match splitOnCh delim rest with
        | [] => [[c]]
        | w :: ws => (c :: w) :: ws

/-- Naive substring search on character lists: `findSubAfter pat s` returns
`some rest` where `rest` is the suffix of `s` immediately after the first
occurrence of `pat`, or `none` when `pat` does not occur.  Models Python
`str.find` (returning the suffix after the match rather than the index). -/
def findSubAfter (pat : List Char) : List Char → Option (List Char)
  | [] => if pat = [] then some [] else none
  | c :: rest =>
      if pat.isPrefixOf (c :: rest) then some ((c :: rest).drop pat.length)
      else findSubAfter pat rest

/-- Substring containment test, modelling Python `needle in haystack`. -/
def containsSub (hay pat : List Char) : Bool :=
  (findSubAfter pat hay).isSome

/-- Model of Python `"x" in s` on strings. -/
def strContains (s pat : String) : Bool :=
  containsSub s.toList pat.toList

/-! ## Model of CPython `urllib.parse.urlparse`

The scraper calls `urllib.parse.urlparse`, which is CPython standard-library
code.  The model below reproduces the parts the scraper depends on: scheme
recognition (letters, digits, `+`, `-`, `.`, starting with an ASCII letter,
lower-cased in the result), authority extraction after `//` up to the next
`/`, `?` or `#`, path extraction up to `?` or `#`, and the `ValueError`
("Invalid IPv6 URL") that CPython raises when the authority contains a
`[` without a `]` or vice versa.  (CPython additionally validates the
contents of a bracketed host; the theorems below that assume a bracket-free
authority are unaffected by that extra validation.) -/

structure URLParts where
  scheme : String
  netloc : String
  path : String
  params : String
  query : String
  fragment : String
deriving Repr, DecidableEq

def isSchemeChar (c : Char) : Bool :=
  c.isAlpha || c.isDigit || c = '+' || c = '-' || c = '.'

/-- Split a character list at the first occurrence of a delimiter, returning
the part before and the part after (delimiter dropped); the whole list and
`[]` when the delimiter is absent. -/
def splitAtFirst (delim : Char) : List Char → (List Char × List Char)
  | [] => ([], [])
  | c :: rest =>
      if c = delim then ([], rest)
      else
        let (a, b) := splitAtFirst delim rest
        (c :: a, b)

/-- Scheme recognition of CPython `urlsplit`: the text before the first `:`
is a scheme when it is nonempty, starts with an ASCII letter, and contains
only letters, digits and `+`/`-`/`.`; otherwise the caller-supplied default
scheme is kept (CPython's `scheme` parameter, used by `urljoin`). -/
def splitScheme (dscheme : String) (cs : List Char) : (String × List Char) :=
  if containsSub cs [':'] then
    let (pre, post) := splitAtFirst ':' cs
    match pre with
    | [] => (dscheme, cs)
    | c0 :: _ =>
        if c0.isAlpha && pre.all isSchemeChar then
          (toLowerStr (String.mk pre), post)
        else (dscheme, cs)
  else (dscheme, cs)

/-- CPython `_UNSAFE_URL_BYTES_TO_REMOVE`: `urlsplit` deletes every tab,
carriage return and line feed from its input before parsing. -/
def isUnsafeUrlByte (c : Char) : Bool :=
  c = '\t' || c = '\r' || c = '\n'

/-- CPython `urllib.parse.uses_relative` (Python 3.11). -/
def uses_relative : List String :=
  ["", "ftp", "http", "gopher", "nntp", "imap", "wais", "file", "https",
   "shttp", "mms", "prospero", "rtsp", "rtsps", "rtspu", "sftp", "svn",
   "svn+ssh", "ws", "wss"]

/-- CPython `urllib.parse.uses_netloc` (Python 3.11). -/
def uses_netloc : List String :=
  ["", "ftp", "http", "gopher", "nntp", "telnet", "imap", "wais", "file",
   "mms", "https", "shttp", "snews", "prospero", "rtsp", "rtsps", "rtspu",
   "rsync", "svn", "svn+ssh", "sftp", "nfs", "git", "git+ssh", "ws", "wss"]

/-- CPython `urllib.parse.uses_params` (Python 3.11). -/
def uses_params : List String :=
  ["", "ftp", "hdl", "prospero", "http", "imap", "https", "shttp", "rtsp",
   "rtsps", "rtspu", "sip", "sips", "mms", "sftp", "tel"]

/-- Model of CPython `urlsplit` with a caller-supplied default scheme; the
`params` field is always empty here (`urlparse` fills it in). -/
def urlsplitWith (dscheme : String) (s : String) : Except String URLParts :=
  let cs := s.toList.filter (fun c => !isUnsafeUrlByte c)
  let (scheme, rest) := splitScheme dscheme cs
  let (netloc, rest2) :=
    if ['/', '/'].isPrefixOf rest then
      let body := rest.drop 2
      (body.takeWhile (fun c => c ≠ '/' && c ≠ '?' && c ≠ '#'),
       body.dropWhile (fun c => c ≠ '/' && c ≠ '?' && c ≠ '#'))
    else ([], rest)
  if (netloc.contains '[' && !netloc.contains ']')
      || (netloc.contains ']' && !netloc.contains '[') then
    Except.error "Invalid IPv6 URL"
  else
    let (beforeFrag, frag) := splitAtFirst '#' rest2
    let (path, query) := splitAtFirst '?' beforeFrag
    Except.ok
      { scheme := scheme
        netloc := String.mk netloc
        path := String.mk path
        params := ""
        query := String.mk query
        fragment := String.mk frag }

/-- Index of the last occurrence of a character (Python `str.rfind`). -/
def rfindIdx (c : Char) (cs : List Char) : Option Nat :=
  (List.range cs.length).foldl
    (fun acc i => if cs.get? i = some c then some i else acc) none

/-- First occurrence of a character at or after a start index (Python
`str.find(c, start)`). -/
def findIdxFrom (c : Char) (start : Nat) (cs : List Char) : Option Nat :=
  match (cs.drop start).findIdx? (fun x => x = c) with
  | some j => some (start + j)
  | none => none

/-- Model of CPython `_splitparams`: split `;params` off the last path
segment (the `;` must come at or after the last `/` when the path has
one). -/
def splitparams (url : List Char) : (List Char × List Char) :=
  let iOpt :=
    if url.contains '/' then
      match rfindIdx '/' url with
      | some r => findIdxFrom ';' r url
      | none => none
    else url.findIdx? (fun x => x = ';')
  match iOpt with
  | none => (url, [])
  | some i => (url.take i, url.drop (i + 1))

/-- Model of CPython `urlparse` with a caller-supplied default scheme:
`urlsplit` followed by params splitting for schemes in `uses_params`. -/
def urlparseWith (dscheme : String) (s : String) : Except String URLParts :=
  match urlsplitWith dscheme s with
  | Except.error e => Except.error e
  | Except.ok p =>
      if p.path.toList.contains ';' && uses_params.contains p.scheme then
        let (pa, pr) := splitparams p.path.toList
        Except.ok
          { p with
            path := String.mk pa
            params := String.mk pr }
      else Except.ok p

/-- `urllib.parse.urlparse(s)` with the default empty scheme, as the scraper
calls it. -/
def urlparse (s : String) : Except String URLParts :=
  urlparseWith "" s

/-- Model of CPython `urlunsplit` (Python 3.11). -/
def urlunsplit (scheme netloc url query fragment : String) : String :=
  let u := url.toList
  let url1 :=
    if netloc ≠ "" ∨ (scheme ≠ "" ∧ uses_netloc.contains scheme ∧
        u.take 2 ≠ ['/', '/']) then
      (let url0 := if url ≠ "" ∧ u.head? ≠ some '/' then "/" ++ url else url
       "//" ++ netloc ++ url0)
    else url
  let url2 := if scheme ≠ "" then scheme ++ ":" ++ url1 else url1
  let url3 := if query ≠ "" then url2 ++ "?" ++ query else url2
  if fragment ≠ "" then url3 ++ "#" ++ fragment else url3

/-- Model of CPython `urlunparse`: re-attach `;params` to the path, then
`urlunsplit`. -/
def urlunparse (scheme netloc path params query fragment : String) : String :=
  let url := if params ≠ "" then path ++ ";" ++ params else path
  urlunsplit scheme netloc url query fragment

/-- The middle-segment cleanup of CPython `urljoin`:
`segments[1:-1] = filter(None, segments[1:-1])` — empty segments are removed
except in the first and last position. -/
def filterMiddle (segs : List (List Char)) : List (List Char) :=
  match segs with
  | [] => []
  | [s] => [s]
  | s :: rest => s :: (rest.dropLast.filter (fun x => x ≠ [])) ++ [rest.getLastD []]

/-- The dot-segment resolution loop of CPython `urljoin`: `..` pops (popping
an empty stack is ignored), `.` is skipped, anything else is pushed. -/
def resolveSegs (segs : List (List Char)) : List (List Char) :=
  segs.foldl
    (fun acc seg =>
      if seg = ['.', '.'] then acc.dropLast
      else if seg = ['.'] then acc
      else acc ++ [seg]) []

/-- Model of CPython `urljoin` (Python 3.11): parse base and url (the url
inheriting the base's scheme by default), keep the url alone when schemes
differ or the scheme is not relative-capable, inherit netloc/path/query from
the base as appropriate, and resolve `.`/`..` segments.  The internal
`urlparse` calls can raise (mismatched IPv6 brackets), hence `Except`. -/
def urljoin (base url : String) : Except String String :=
  if base = "" then Except.ok url
  else if url = "" then Except.ok base
  else
    match urlparseWith "" base with
    | Except.error e => Except.error e
    | Except.ok b =>
        match urlparseWith b.scheme url with
        | Except.error e => Except.error e
        | Except.ok p =>
            if p.scheme ≠ b.scheme ∨ ¬uses_relative.contains p.scheme then
              Except.ok url
            else if uses_netloc.contains p.scheme ∧ p.netloc ≠ "" then
              Except.ok (urlunparse p.scheme p.netloc p.path p.params
                p.query p.fragment)
            else
              let netloc :=
                if uses_netloc.contains p.scheme then b.netloc else p.netloc
              if p.path = "" ∧ p.params = "" then
                (let query := if p.query = "" then b.query else p.query
                 Except.ok (urlunparse p.scheme netloc b.path b.params
                   query p.fragment))
              else
                let base_parts0 := splitOnCh '/' b.path.toList
                let base_parts :=
                  if base_parts0.getLast? ≠ some ([] : List Char) then
                    base_parts0.dropLast
                  else base_parts0
                let segments :=
                  if p.path.toList.head? = some '/' then
                    splitOnCh '/' p.path.toList
                  else
                    filterMiddle (base_parts ++ splitOnCh '/' p.path.toList)
                let resolved := resolveSegs segments
                let resolved :=
                  if segments.getLast? = some ['.'] ∨
                      segments.getLast? = some ['.', '.'] then
                    resolved ++ [[]]
                  else resolved
                let rpath := joinWith ['/'] resolved
                let rpath := if rpath = [] then ['/'] else rpath
                Except.ok (urlunparse p.scheme netloc (String.mk rpath)
                  p.params p.query p.fragment)

/-! ## `_normalize_target` -/

/-- The distinct failure modes of `_normalize_target`.  In the source both
documented failures are `ValueError`s with distinct, fixed message texts
("Target URL or slug cannot be empty." and "Unsupported scheme in target:
..."), so a caller can tell them apart; `urllib.parse.urlparse` can
additionally raise its own `ValueError` ("Invalid IPv6 URL"). -/
inductive NormalizeError where
  | invalidTarget
  | unsupportedScheme (candidate : String)
  | urlParseError (msg : String)
deriving Repr, DecidableEq

/-- The candidate URL `_normalize_target` builds from the stripped input:
unchanged when a scheme separator is present, otherwise re-rooted under the
fixed canonical host (dropping a redundant `whop.com/` prefix). -/
def normalizeCandidate (candidate0 : String) : String :=
  if !strContains candidate0 "://" then
    let normalized := lstripSlash candidate0
    let normalized :=
      if "whop.com/".toList.isPrefixOf (toLowerStr normalized).toList then
        -- `normalized.split("/", 1)[1]`
        String.mk ((normalized.toList.dropWhile (fun c => c ≠ '/')).drop 1)
      else normalized
    "https://whop.com/" ++ lstripSlash normalized
  else candidate0

/-- The slug `_normalize_target` derives: the last path segment of the
parsed candidate, or the host when the path is empty. -/
def slugOf (parsed : URLParts) : String :=
  let path := stripSlash parsed.path
  if path ≠ "" then ((splitOnCh '/' path.toList).map String.mk).getLastD ""
  else parsed.netloc

/-- Embedding of `_normalize_target` (listing_scraper.py lines 47-61). -/
def normalize_target (target : String) : Except NormalizeError (String × String) := do
  let candidate0 := pyStrip target
  if candidate0 = "" then
    throw NormalizeError.invalidTarget
  let candidate := normalizeCandidate candidate0
  match urlparse candidate with
  | Except.error msg => throw (NormalizeError.urlParseError msg)
  | Except.ok parsed =>
      if parsed.scheme ≠ "http" && parsed.scheme ≠ "https" then
        throw (NormalizeError.unsupportedScheme candidate)
      else
        return (candidate, slugOf parsed)

/-! ## Document tree (`_DOMNode` / `_DOMTreeBuilder`)

The builder (`_DOMTreeBuilder`) constructs one synthetic root whose
descendants all carry lower-cased tag names and lower-cased attribute keys,
and records nodes per tag in document (start-tag, i.e. preorder) order.  The
tree is modelled as a pure rose tree; the `parent` back-reference of the
source is recovered by traversals that carry the ancestor chain (and, where
the source compares object identity against a parent's child list, the
child's position in that list). -/

inductive DOMNode where
  | mk (tag : String) (attrs : List (String × String)) (children : List DOMNode)
       (text_parts : List String)

def DOMNode.tag : DOMNode → String
  | .mk t _ _ _ => t

def DOMNode.attrs : DOMNode → List (String × String)
  | .mk _ a _ _ => a

def DOMNode.children : DOMNode → List DOMNode
  | .mk _ _ cs _ => cs

def DOMNode.text_parts : DOMNode → List String
  | .mk _ _ _ tx => tx

/-- Python `dict.get(key, default)` over an attribute association list; with
duplicate keys the later entry wins, as in Python dict construction. -/
def attrsGet (attrs : List (String × String)) (key dflt : String) : String :=
  match attrs.reverse.find? (fun p => p.1 = key) with
  | some p => p.2
  | none => dflt

mutual
/-- Number of nodes of a subtree (used as fuel for the stack traversal). -/
def domSize : DOMNode → Nat
  | .mk _ _ cs _ => 1 + domSizeL cs

/-- Number of nodes of a forest. -/
def domSizeL : List DOMNode → Nat
  | [] => 0
  | c :: cs => domSize c + domSizeL cs
end


mutual
/-- The text fragments of a subtree in document order: the node's own parts
followed by its children's, recursively (the `_collect` helper of
`_DOMNode.get_text`). -/
def collectTextParts : DOMNode → List String
  | .mk _ _ cs tx => tx ++ collectTextPartsL cs

def collectTextPartsL : List DOMNode → List String
  | [] => []
  | c :: cs => collectTextParts c ++ collectTextPartsL cs
end


/-- Embedding of `_DOMNode.get_text`: join all descendant text fragments
with spaces, collapse whitespace runs and trim. -/
def DOMNode.get_text (n : DOMNode) : String :=
  normSpaceJoin (String.mk (joinWith [' '] ((collectTextParts n).map String.toList)))

mutual
/-- Embedding of the module-level generator `_iter_dom_descendants`
(document-order traversal: each child followed by its own descendants). -/
def iter_dom_descendants : DOMNode → List DOMNode
  | .mk _ _ cs _ => iterDomDescL cs

def iterDomDescL : List DOMNode → List DOMNode
  | [] => []
  | c :: cs => c :: (iter_dom_descendants c ++ iterDomDescL cs)
end


/-- Embedding of `_DOMTreeBuilder.iter_tag`: all strict descendants of the
root carrying the (lower-cased) tag, in document order (the builder records
nodes in start-tag order, which is preorder). -/
def iter_tag (root : DOMNode) (tag : String) : List DOMNode :=
  (iter_dom_descendants root).filter (fun n => n.tag = toLowerStr tag)

mutual
/-- Document-order traversal of a node (itself included) that also carries
each visited node's chain of ancestors, nearest first — this recovers the
source's `parent` back-references. -/
def nodeCtx (anc : List DOMNode) : DOMNode → List (DOMNode × List DOMNode)
  | .mk t a cs tx =>
      (DOMNode.mk t a cs tx, anc) :: childCtx (DOMNode.mk t a cs tx :: anc) cs

def childCtx (anc : List DOMNode) : List DOMNode → List (DOMNode × List DOMNode)
  | [] => []
  | c :: cs => nodeCtx anc c ++ childCtx anc cs
end


/-- `iter_tag` paired with each hit's ancestor chain (nearest first, ending
with the synthetic root). -/
def iter_tag_ctx (root : DOMNode) (tag : String) : List (DOMNode × List DOMNode) :=
  (childCtx [root] root.children).filter (fun p => p.1.tag = toLowerStr tag)

/-- Embedding of `_DOMNode.find_ancestor` over an explicit ancestor chain
(nearest first): the nearest ancestor whose tag is in the set. -/
def find_ancestor (anc : List DOMNode) (tags : List String) : Option DOMNode :=
  anc.find? (fun a => tags.contains a.tag)

/-- One stack entry of the `_DOMNode.iter_descendants` loop: the node, its
parent, and its position in the parent's child list (standing in for Python
object identity). -/
abbrev DOMCtx := DOMNode × DOMNode × Nat

/-- The children of `n` annotated with parent `n` and child index. -/
def enumChildren (n : DOMNode) : List DOMCtx :=
  (n.children.enum).map (fun ei => (ei.2, n, ei.1))

/-- Embedding of the body of `_DOMNode.iter_descendants`: an explicit stack,
popping the most recently pushed entry and pushing the popped node's
children, so children are visited last-to-first.  The stack keeps its top at
the head; `stack.extend(node.children)` therefore pushes
`node.children.reverse` at the front.  Fuel-driven so that the definition
computes; `domSize` fuel is always sufficient. -/
def iter_descendants_go (fuel : Nat) (stack : List DOMCtx) : List DOMCtx :=
  match fuel, stack with
  | 0, _ => []
  | _, [] => []
  | fuel + 1, e :: rest =>
      e :: iter_descendants_go fuel ((enumChildren e.1).reverse ++ rest)

/-- `_DOMNode.iter_descendants` with ancestor/index context: all strict
descendants of `n` in reversed-DFS (stack) order. -/
def iter_descendants_ctx (n : DOMNode) : List DOMCtx :=
  iter_descendants_go (domSize n) (enumChildren n).reverse

/-- Embedding of `_DOMNode.iter_descendants(tags)`: the stack traversal,
optionally filtered by a tag-name set. -/
def DOMNode.iter_descendants (n : DOMNode) (tags : Option (List String)) :
    List DOMNode :=
  ((iter_descendants_ctx n).map (fun e => e.1)).filter
    (fun m => match tags with
      | none => true
      | some ts => ts.contains m.tag)

mutual
/-- Closed form of the reversed-DFS order: the descendants of a node,
visiting children last-to-first, each child before its own subtree. -/
def revDesc : DOMNode → List DOMNode
  | .mk _ _ cs _ => revDescL cs

/-- Closed form of the reversed-DFS order over a child list. -/
def revDescL : List DOMNode → List DOMNode
  | [] => []
  | c :: cs => revDescL cs ++ (c :: revDesc c)
end


mutual
/-- Context-annotated closed form of the reversed-DFS order. -/
def revCtxDesc : DOMNode → List DOMCtx
  | .mk t a cs tx => revCtxDescL (DOMNode.mk t a cs tx) 0 cs

/-- Context-annotated closed form over a child list starting at index `i`
of parent `p`. -/
def revCtxDescL (p : DOMNode) (i : Nat) : List DOMNode → List DOMCtx
  | [] => []
  | c :: cs => revCtxDescL p (i + 1) cs ++ ((c, p, i) :: revCtxDesc c)
end


/-! ## `_extract_pricing_options` -/

/-- Deduplicate a list keeping first occurrences, given already-seen
elements. -/
def dedupFrom (seen : List String) : List String → List String
  | [] => []
  | x :: xs => if seen.contains x then dedupFrom seen xs
               else x :: dedupFrom (x :: seen) xs

/-- Deduplicate a list keeping first occurrences. -/
def dedupKeepFirst (xs : List String) : List String := dedupFrom [] xs

/-- The loop body of `_extract_pricing_options`: walk the document-order
`div` nodes, keep those whose `role` attribute lower-cases to `radio` and
whose normalized text is non-empty, deduplicating by the normalized text. -/
def collectPricing (seen : List String) : List DOMNode → List String
  | [] => []
  | n :: rest =>
      let role := toLowerStr (attrsGet n.attrs "role" "")
      if role ≠ "radio" then collectPricing seen rest
      else
        let text := n.get_text
        if text = "" then collectPricing seen rest
        else
          let normalized := normSpaceJoin text
          if normalized = "" || seen.contains normalized then
            collectPricing seen rest
          else normalized :: collectPricing (normalized :: seen) rest

/-- Embedding of `_extract_pricing_options` (listing_scraper.py lines
1000-1017). -/
def extract_pricing_options (builder : Option DOMNode) : List String :=
  match builder with
  | none => []
  | some root => collectPricing [] (iter_tag root "div")

/-! ## `_extract_dom_faqs` -/

def FAQ_QUESTION_TAGS : List String := ["h3", "h4", "summary", "button", "dt"]

def FAQ_ANSWER_TAGS : List String :=
  ["p", "div", "span", "li", "dd", "ul", "ol", "section", "article", "blockquote"]

def FAQ_ANSWER_FALLBACK_MIN_LEN : Nat := 24

def FAQ_ENTRY_LIMIT : Nat := 12

/-- One FAQ entry: a question and an optional answer (`None` in the source
when the accumulated answer text is empty). -/
structure FaqEntry where
  question : String
  answer : Option String
deriving Repr, DecidableEq

/-- One FAQ section: the `h2` heading text plus its entries. -/
structure FaqSection where
  heading : String
  entries : List FaqEntry
deriving Repr, DecidableEq

/-- The mutable state of the `_extract_dom_faqs` section walk: collected
entries, their `(question, answer-text)` fingerprints, the pending question,
and the accumulated deduplicated answer fragments. -/
structure FaqState where
  entries : List FaqEntry
  fingerprints : List (String × String)
  currentQ : Option String
  answers : List String
  answerSeen : List String
deriving Repr, DecidableEq

def faqInit : FaqState :=
  { entries := [], fingerprints := [], currentQ := none, answers := [],
    answerSeen := [] }

/-- The `(question, answer-text)` fingerprint of a stored entry, matching
what `_flush_entry` records. -/
def entryFp (e : FaqEntry) : String × String :=
  (e.question, e.answer.getD "")

/-- Embedding of the `_flush_entry` closure: join the accumulated answers
with blank lines, record the entry unless its fingerprint repeats, and reset
the pending state. -/
def flushEntry (st : FaqState) : FaqState :=
  match st.currentQ with
  | none => { st with answers := [], answerSeen := [] }
  | some q =>
      let answerText :=
        pyStrip (String.mk (joinWith ['\n', '\n'] (st.answers.map String.toList)))
      let fp := (q, answerText)
      if st.fingerprints.contains fp then
        { entries := st.entries, fingerprints := st.fingerprints,
          currentQ := none, answers := [], answerSeen := [] }
      else
        { entries := st.entries ++
            [{ question := q,
               answer := if answerText = "" then none else some answerText }],
          fingerprints := fp :: st.fingerprints,
          currentQ := none, answers := [], answerSeen := [] }

/-- The characters of the Python `lstrip(" :.-\n\t")` set used when an
answer repeats its question as a prefix. -/
def isQuestionSep (c : Char) : Bool :=
  c = ' ' || c = ':' || c = '.' || c = '-' || c = '\n' || c = '\t'

/-- Embedding of one iteration of the `for node in
_iter_dom_descendants(container)` loop of `_extract_dom_faqs`.  The `break`
statements of the source fire exactly when twelve entries have been
collected, and every break leaves the pending question cleared, so they are
modelled as identity steps once the limit is reached. -/
def faqStep (pool : List String) (st : FaqState) (node : DOMNode) : FaqState :=
  if st.entries.length ≥ FAQ_ENTRY_LIMIT then st
  else if FAQ_QUESTION_TAGS.contains node.tag then
    let st1 := if st.currentQ.isSome then flushEntry st else st
    if st1.entries.length ≥ FAQ_ENTRY_LIMIT then st1
    else
      let questionText := node.get_text
      if questionText = "" then st1
      else { st1 with
               currentQ := some (pyStrip questionText)
               answers := []
               answerSeen := [] }
  else
    match st.currentQ with
    | none => st
    | some q =>
        let answerText0 := node.get_text
        if answerText0 = "" then st
        else
          let answerText1 := pyStrip answerText0
          if answerText1 = "" then st
          else if answerText1 = q then st
          else if pool.contains answerText1 then st
          else if !FAQ_ANSWER_TAGS.contains node.tag
              && answerText1.length < FAQ_ANSWER_FALLBACK_MIN_LEN then st
          else
            let answerText2 :=
              if (toLowerStr q).toList.isPrefixOf (toLowerStr answerText1).toList
              then
                let trimmed := String.mk
                  ((answerText1.toList.drop q.length).dropWhile isQuestionSep)
                if trimmed ≠ "" then trimmed else answerText1
              else answerText1
            if answerText2 = "" || st.answerSeen.contains answerText2 then st
            else { st with
                     answers := st.answers ++ [answerText2]
                     answerSeen := answerText2 :: st.answerSeen }

/-- The `question_text_pool` of a container: the stripped texts of its
question-tagged descendants with non-empty text. -/
def questionPool (container : DOMNode) : List String :=
  (((container.iter_descendants (some FAQ_QUESTION_TAGS)).map
    (fun n => n.get_text)).filter (fun t => t ≠ "")).map pyStrip

/-- The entries `_extract_dom_faqs` collects inside one container: run the
state machine over the document-order descendants, then flush a still
pending question if fewer than twelve entries were collected. -/
def faqSectionEntries (container : DOMNode) : List FaqEntry :=
  let final := (iter_dom_descendants container).foldl
    (faqStep (questionPool container)) faqInit
  let final2 :=
    if final.currentQ.isSome && final.entries.length < FAQ_ENTRY_LIMIT then
      flushEntry final
    else final
  final2.entries

/-- The section fingerprint `"|".join(f"{q}::{a or ...}")` used to drop
repeated sections. -/
def sectionFingerprint (entries : List FaqEntry) : String :=
  String.mk (joinWith ['|'] (((entries.filter (fun e => e.question ≠ "")).map
    (fun e => e.question.toList ++ [':', ':'] ++ (e.answer.getD "").toList))))

/-- The per-heading loop of `_extract_dom_faqs`: keep `h2` headings whose
text mentions "faq", find the section/article/div container (or the heading
itself), collect entries, and drop empty or repeated sections. -/
def faqLoop (seen : List String) : List (DOMNode × List DOMNode) → List FaqSection
  | [] => []
  | (h, anc) :: rest =>
      let headingText := h.get_text
      if headingText = "" || !strContains (toLowerStr headingText) "faq" then
        faqLoop seen rest
      else
        let container := (find_ancestor anc ["section", "article", "div"]).getD h
        let entries := faqSectionEntries container
        let fp := sectionFingerprint entries
        if entries.isEmpty || fp = "" || seen.contains fp then faqLoop seen rest
        else { heading := pyStrip headingText, entries := entries } ::
          faqLoop (fp :: seen) rest

/-- Embedding of `_extract_dom_faqs` (listing_scraper.py lines 306-399). -/
def extract_dom_faqs (builder : Option DOMNode) : List FaqSection :=
  match builder with
  | none => []
  | some root => (faqLoop [] (iter_tag_ctx root "h2")).take 3

/-- Verification-side invariant of the FAQ walk state: questions of stored
entries are non-empty, entry fingerprints are pairwise distinct and all
recorded in the fingerprint set, and a pending question is non-empty. -/
def FaqInvCore (st : FaqState) : Prop :=
  (∀ e ∈ st.entries, e.question ≠ "")
  ∧ st.entries.Pairwise (fun a b => entryFp a ≠ entryFp b)
  ∧ (∀ e ∈ st.entries, entryFp e ∈ st.fingerprints)
  ∧ (∀ q, st.currentQ = some q → q ≠ "")

/-! ## `_extract_dom_reviews`

The numeric patterns (`_NUMBER_PATTERN`, `_WIDTH_PATTERN`, the
total/average regexes and the star-label match) are embedded as explicit
character-level scanners over `List Char`.  Percentages and averages are
Python floats in the source; they are modelled as exact rationals, and
Python `round` (banker rounding, i.e. round-half-to-even) as
`roundHalfEven` on ℚ. -/

/-- Round half to even on rationals, modelling Python `round` to an int. -/
def roundHalfEven (q : ℚ) : ℤ :=
  if q - ⌊q⌋ < 1 / 2 then ⌊q⌋
  else if 1 / 2 < q - ⌊q⌋ then ⌊q⌋ + 1
  else if ⌊q⌋ % 2 = 0 then ⌊q⌋ else ⌊q⌋ + 1

/-- Numeric value of a digit run (commas already removed). -/
def digitsVal (ds : List Char) : Nat :=
  ds.foldl (fun acc c => acc * 10 + (c.toNat - 48)) 0

/-- Value of the regex group `\d[\d,]*(\.\d+)?` after Python removes the
commas and applies `float`: integer digits plus a decimal fraction. -/
def ratOfParts (intRun : List Char) (frac : List Char) : ℚ :=
  (digitsVal (intRun.filter Char.isDigit) : ℚ) +
    (digitsVal frac : ℚ) / ((10 : ℚ) ^ frac.length)

/-- Match `\d[\d,]*(?:\.\d+)?` anchored at the current position: a digit
followed by a greedy digit/comma run and an optional fraction.  Returns the
numeric value and the rest of the input. -/
def matchNumberAt : List Char → Option (ℚ × List Char)
  | [] => none
  | c :: rest =>
      if c.isDigit then
        let run := (c :: rest).takeWhile (fun x => x.isDigit || x = ',')
        let after := (c :: rest).drop run.length
        match after with
        | '.' :: d :: _ =>
            if d.isDigit then
              let frac := (after.drop 1).takeWhile Char.isDigit
              some (ratOfParts run frac, after.drop (1 + frac.length))
            else some (ratOfParts run [], after)
        | _ => some (ratOfParts run [], after)
      else none

/-- `re.search` of `_NUMBER_PATTERN`: try each position left to right. -/
def searchNumber : List Char → Option (ℚ × List Char)
  | [] => none
  | c :: rest =>
      match matchNumberAt (c :: rest) with
      | some r => some r
      | none => searchNumber rest

/-- Embedding of `_parse_numeric(text, as_int=True)`: the first number in
the text, rounded to an integer. -/
def parse_numeric_int (text : String) : Option ℤ :=
  (searchNumber text.toList).map (fun r => roundHalfEven r.1)

/-- Case-insensitive literal prefix test (for the `re.I` literals). -/
def ciPrefix (pat : List Char) (cs : List Char) : Bool :=
  pat.isPrefixOf (cs.map Char.toLower)

/-- Match `(\d[\d,]*)\s+total reviews?` (case-insensitive) anchored at the
current position, returning the integer group. -/
def matchTotalAt : List Char → Option Nat
  | [] => none
  | c :: rest =>
      if c.isDigit then
        let run := (c :: rest).takeWhile (fun x => x.isDigit || x = ',')
        let after := (c :: rest).drop run.length
        let ws := after.takeWhile Char.isWhitespace
        if ws.isEmpty then none
        else if ciPrefix "total review".toList (after.drop ws.length) then
          some (digitsVal (run.filter Char.isDigit))
        else none
      else none

/-- `re.search` of the total-reviews pattern. -/
def searchTotal : List Char → Option Nat
  | [] => none
  | c :: rest =>
      match matchTotalAt (c :: rest) with
      | some r => some r
      | none => searchTotal rest

/-- Match `(num)\s+out of\s+(num)` (case-insensitive) anchored at the
current position. -/
def matchOutOfAt (cs : List Char) : Option (ℚ × ℚ) :=
  match matchNumberAt cs with
  | none => none
  | some (a, rest1) =>
      let ws := rest1.takeWhile Char.isWhitespace
      if ws.isEmpty then none
      else
        let rest2 := rest1.drop ws.length
        if ciPrefix "out of".toList rest2 then
          let rest3 := rest2.drop 6
          let ws2 := rest3.takeWhile Char.isWhitespace
          if ws2.isEmpty then none
          else
            match matchNumberAt (rest3.drop ws2.length) with
            | none => none
            | some (b, _) => some (a, b)
        else none

/-- `re.search` of the average-rating pattern. -/
def searchOutOf : List Char → Option (ℚ × ℚ)
  | [] => none
  | c :: rest =>
      match matchOutOfAt (c :: rest) with
      | some r => some r
      | none => searchOutOf rest

/-- `re.match(r"([1-5])\s+star", label.strip(), re.I)`: leading star count
of a rating label. -/
def matchStarLabel (label : String) : Option Nat :=
  match (pyStrip label).toList with
  | [] => none
  | c :: rest =>
      if '1' ≤ c && c ≤ '5' then
        let ws := rest.takeWhile Char.isWhitespace
        if ws.isEmpty then none
        else if ciPrefix "star".toList (rest.drop ws.length) then
          some (c.toNat - 48)
        else none
      else none

/-- `re.search` of `_WIDTH_PATTERN` (`width:\s*([0-9]+(?:\.[0-9]+)?)%`,
case-sensitive) over a style string: find each `width:` occurrence, then
optional whitespace, a digit run, an optional fraction, and a literal `%`. -/
def widthFromStyleScan : List Char → Option ℚ
  | [] => none
  | c :: rest =>
      if "width:".toList.isPrefixOf (c :: rest) then
        let after := ((c :: rest).drop 6).dropWhile Char.isWhitespace
        let digits := after.takeWhile Char.isDigit
        let tail1 := after.drop digits.length
        if digits.isEmpty then widthFromStyleScan rest
        else
          match tail1 with
          | '.' :: d :: _ =>
              if d.isDigit then
                let frac := (tail1.drop 1).takeWhile Char.isDigit
                match tail1.drop (1 + frac.length) with
                | '%' :: _ => some (ratOfParts digits frac)
                | _ => widthFromStyleScan rest
              else widthFromStyleScan rest
          | '%' :: _ => some (ratOfParts digits [])
          | _ => widthFromStyleScan rest
      else widthFromStyleScan rest

mutual

/-- Embedding of `_extract_width_percentage`: a CSS width percentage from
the node's own `style` attribute, else the first found in its children,
depth-first in document order. -/
def extract_width_percentage : DOMNode → Option ℚ
  | .mk _t a cs _tx =>
      match widthFromStyleScan (attrsGet a "style" "").toList with
      | some v => some v
      | none => extract_width_percentage_list cs

def extract_width_percentage_list : List DOMNode → Option ℚ
  | [] => none
  | c :: cs =>
      match extract_width_percentage c with
      | some v => some v
      | none => extract_width_percentage_list cs

end

/-- One row of the fixed 5-to-1 review distribution. -/
structure DistEntry where
  stars : Nat
  percent : Option ℚ
  count : Option ℤ
deriving Repr, DecidableEq

/-- Embedding of the `ReviewSummary` record `_extract_dom_reviews` emits. -/
structure ReviewSummary where
  heading : String
  average_rating : Option ℚ
  rating_scale : Option ℚ
  total_reviews : Option ℤ
  distribution : List DistEntry
deriving Repr, DecidableEq

/-- State of the totals/average scan. -/
structure TotalsState where
  total : Option ℤ
  avg : Option ℚ
  scale : Option ℚ
deriving Repr, DecidableEq

/-- The total-reviews update of one scan iteration: the regex first, then
`_parse_numeric` as fallback. -/
def totalsUpdate (st : TotalsState) (text lower : String) : Option ℤ :=
  if st.total.isNone && strContains lower "total review" then
    match searchTotal text.toList with
    | some n => some (n : ℤ)
    | none =>
        match parse_numeric_int text with
        | some v => some v
        | none => none
  else st.total

/-- One iteration of the totals/average text scan of
`_extract_dom_reviews`. -/
def totalsStep (st : TotalsState) (node : DOMNode) : TotalsState :=
  let text := node.get_text
  if text = "" then st
  else
    let lower := toLowerStr text
    let st1 := { st with total := totalsUpdate st text lower }
    if st1.avg.isNone && strContains lower "out of" then
      match searchOutOf text.toList with
      | some (a, b) => { st1 with
                           avg := some a
                           scale := some b }
      | none => st1
    else st1

def siblingWidthGo (children : List DOMNode) (idx i : Nat) : Option ℚ :=
  match children with
  | [] => none
  | c :: cs =>
      if i = idx then siblingWidthGo cs idx (i + 1)
      else
        match extract_width_percentage c with
        | some v => some v
        | none => siblingWidthGo cs idx (i + 1)

/-- First width percentage among the other children of `parent` (skipping
the child at index `idx`, standing for Python object identity with the
current span). -/
def siblingWidth (children : List DOMNode) (idx : Nat) : Option ℚ :=
  siblingWidthGo children idx 0

/-- One iteration of the star-distribution span scan: match a star label,
find a width percentage among siblings (else from the parent), derive the
count from the total, and record the row (later rows for the same star
overwrite earlier ones, as in a Python dict). -/
def distStep (total : Option ℤ) (d : List (Nat × Option ℚ × Option ℤ))
    (e : DOMCtx) : List (Nat × Option ℚ × Option ℤ) :=
  let label := e.1.get_text
  if label = "" then d
  else
    match matchStarLabel label with
    | none => d
    | some star =>
        let percentage :=
          match siblingWidth e.2.1.children e.2.2 with
          | some v => some v
          | none => extract_width_percentage e.2.1
        let count :=
          match percentage, total with
          | some p, some t => some (roundHalfEven ((t : ℚ) * (p / 100)))
          | _, _ => none
        d ++ [(star, percentage, count)]

/-- Python dict lookup on the distribution rows: the last write wins. -/
def distLookup (d : List (Nat × Option ℚ × Option ℤ)) (k : Nat) :
    Option (Option ℚ × Option ℤ) :=
  (d.reverse.find? (fun e => e.1 = k)).map (fun e => e.2)

/-- The fixed 5-to-1 ordered distribution, unmeasured stars filled with
nulls. -/
def orderedDistribution (d : List (Nat × Option ℚ × Option ℤ)) :
    List DistEntry :=
  [5, 4, 3, 2, 1].map (fun r =>
    match distLookup d r with
    | none => { stars := r, percent := none, count := none }
    | some pc => { stars := r, percent := pc.1, count := pc.2 })

/-- The container-selection walk of `_extract_dom_reviews`: climb through
consecutive section/article/div ancestors, preferring the topmost that is a
`section` or mentions "review" in its id/class, else the nearest allowed
ancestor, else the heading itself. -/
def reviewContainer (heading : DOMNode) (anc : List DOMNode) : DOMNode :=
  let allowed := ["section", "article", "div"]
  let walk := anc.takeWhile (fun a => allowed.contains a.tag)
  let qualifies := fun (a : DOMNode) =>
    a.tag = "section" ||
      strContains (toLowerStr (String.mk (joinWith [' ']
        (([attrsGet a.attrs "id" "", attrsGet a.attrs "class" ""].filter
          (fun s => s ≠ "")).map String.toList)))) "review"
  match (walk.filter qualifies).getLast? with
  | some best => best
  | none => (find_ancestor anc allowed).getD heading

/-- The summary `_extract_dom_reviews` builds inside one container. -/
def reviewSummaryOf (headingText : String) (container : DOMNode) :
    Option ReviewSummary :=
  let st := (container.iter_descendants (some ["span", "div", "p"])).foldl
    totalsStep { total := none, avg := none, scale := none }
  let d := ((iter_descendants_ctx container).filter
    (fun e => e.1.tag = "span")).foldl (distStep st.total) []
  let totalTruthy := match st.total with | some t => t ≠ 0 | none => false
  let avgTruthy := match st.avg with | some a => a ≠ 0 | none => false
  if !(totalTruthy || avgTruthy || !d.isEmpty) then none
  else
    some { heading := pyStrip headingText
           average_rating := st.avg
           rating_scale := st.scale
           total_reviews := st.total
           distribution := orderedDistribution d }

/-- The per-heading loop of `_extract_dom_reviews`: return on the first
qualifying heading. -/
def reviewsLoop : List (DOMNode × List DOMNode) → Option ReviewSummary
  | [] => none
  | (h, anc) :: rest =>
      let ht := h.get_text
      if ht = "" || !strContains (toLowerStr ht) "review" then reviewsLoop rest
      else
        match reviewSummaryOf ht (reviewContainer h anc) with
        | some s => some s
        | none => reviewsLoop rest

/-- The count relation of one distribution row: derived from total and
percentage when both are known, null otherwise. -/
def rowCountSpec (total : Option ℤ) (row : Nat × Option ℚ × Option ℤ) : Prop :=
  row.2.2 = match row.2.1, total with
    | some p, some t => some (roundHalfEven ((t : ℚ) * (p / 100)))
    | _, _ => none

/-- The count relation of one emitted distribution entry. -/
def entryCountSpec (total : Option ℤ) (e : DistEntry) : Prop :=
  e.count = match e.percent, total with
    | some p, some t => some (roundHalfEven ((t : ℚ) * (p / 100)))
    | _, _ => none

/-- Embedding of `_extract_dom_reviews` (listing_scraper.py lines
859-962). -/
def extract_dom_reviews (builder : Option DOMNode) : Option ReviewSummary :=
  match builder with
  | none => none
  | some root => reviewsLoop (iter_tag_ctx root "h2")

/-! ## `_normalize_question`, flight FAQ entries and `_merge_faq_sections` -/

/-- Embedding of `_normalize_question`: collapse whitespace, strip, and
lower-case. -/
def normalize_question (text : String) : String :=
  toLowerStr (pyStrip (normSpaceJoin text))

/-- One scanner-sourced fallback FAQ entry (question and answer are plain
strings, produced by `_extract_flight_faq_entries`). -/
structure FlightEntry where
  question : String
  answer : String
deriving Repr, DecidableEq

/-- The `fallback_map` of `_merge_faq_sections`: a Python dict keyed by
normalized question (later entries overwrite earlier ones), then filtered
to non-empty keys and answers; `fallback_map.get` of a key. -/
def fallback_map_get (fallback : List FlightEntry) (key : String) :
    Option String :=
  match fallback.reverse.find?
      (fun e => normalize_question e.question = key) with
  | none => none
  | some e => if key ≠ "" && e.answer ≠ "" then some e.answer else none

/-- Embedding of `_merge_faq_sections` (listing_scraper.py lines 531-569). -/
def merge_faq_sections (dom_sections : List FaqSection)
    (fallback_entries : List FlightEntry) : List FaqSection :=
  if fallback_entries.isEmpty then dom_sections
  else if dom_sections.isEmpty then
    let new_entries := (fallback_entries.take FAQ_ENTRY_LIMIT).map
      (fun e => FaqEntry.mk (pyStrip e.question) (some (pyStrip e.answer)))
    if new_entries.isEmpty then dom_sections
    else [FaqSection.mk "FAQs" new_entries]
  else
    dom_sections.map (fun sec =>
      { sec with entries := sec.entries.map (fun entry =>
          if (entry.answer.getD "") ≠ "" then entry
          else
            match fallback_map_get fallback_entries
                (normalize_question entry.question) with
            | some a => { entry with answer := some a }
            | none => entry) })

/-- Specification-side form of the fill rule: an unanswered entry receives
the answer of the last fallback entry sharing its normalized question,
provided that question is non-empty and that answer is non-empty. -/
def fillFromLastMatch (fallback : List FlightEntry) (entry : FaqEntry) :
    FaqEntry :=
  if (entry.answer.getD "") ≠ "" then entry
  else
    match (fallback.filter (fun e =>
        normalize_question e.question = normalize_question entry.question)).getLast? with
    | some e =>
        if normalize_question entry.question ≠ "" && e.answer ≠ "" then
          { entry with answer := some e.answer }
        else entry
    | none => entry

/-! ## JSON model and the streamed-payload scanners

`_iter_next_flight_payloads` and `_extract_json_arrays_from_text` scan raw
HTML for `self.__next_f.push([...])` calls and JSON arrays, and feed the
results to CPython's `json.loads`.  JSON values are modelled by the `Json`
type below (numbers restricted to integers: the scraper's round-tripped
payloads only carry strings, objects, arrays and integral counts; CPython's
leading-zero rejection and float/exponent forms are out of scope and never
produced by the serializer).  `serializeJson` is the document side's
canonical encoder (it produces valid JSON text: quotes and backslashes
escaped, control characters as `\u00XX`); `parseJsonVal`/`json_loads`
model `json.loads` on that grammar. -/

mutual

inductive Json where
  | null : Json
  | bool (b : Bool) : Json
  | num (n : Int) : Json
  | str (s : List Char) : Json
  | arr (xs : List Json) : Json
  | obj (kvs : List JsonKV) : Json

inductive JsonKV where
  | mk (key : List Char) (val : Json) : JsonKV

end

/-- Decimal digits of a natural number, most significant first (the
`fuel` bounds the digit count; `natToChars` supplies enough). -/
def natToCharsGo : Nat → Nat → List Char
  | 0, _ => []
  | _, 0 => []
  | fuel + 1, n => natToCharsGo fuel (n / 10) ++ [Char.ofNat (48 + n % 10)]

/-- Decimal representation of a natural number. -/
def natToChars (n : Nat) : List Char :=
  if n = 0 then ['0'] else natToCharsGo (n + 1) n

/-- Decimal representation of an integer. -/
def intToChars (n : Int) : List Char :=
  if n < 0 then '-' :: natToChars n.natAbs else natToChars n.toNat

/-- Lower-case hex digit (for the encoder's `\u00XX` escapes). -/
def hexDigitChar (n : Nat) : Char :=
  if n < 10 then Char.ofNat (48 + n) else Char.ofNat (87 + n)

/-- JSON string-character encoding: backslash and quote are escaped,
control characters become `\u00XX`, everything else passes through. -/
def jsonEncChar (c : Char) : List Char :=
  if c = '\\' then ['\\', '\\']
  else if c = '"' then ['\\', '"']
  else if c.toNat < 32 then
    ['\\', 'u', '0', '0', hexDigitChar (c.toNat / 16), hexDigitChar (c.toNat % 16)]
  else [c]

/-- Body of a JSON string literal (no surrounding quotes). -/
def jsonEncStrBody (s : List Char) : List Char := s.flatMap jsonEncChar

/-- A complete JSON string literal. -/
def jsonEncStr (s : List Char) : List Char := '"' :: jsonEncStrBody s ++ ['"']

mutual

/-- Serializer for the JSON model (the document producer's encoding). -/
def serializeJson : Json → List Char
  | Json.null => ['n', 'u', 'l', 'l']
  | Json.bool b => if b then ['t', 'r', 'u', 'e'] else ['f', 'a', 'l', 's', 'e']
  | Json.num n => intToChars n
  | Json.str s => jsonEncStr s
  | Json.arr xs => '[' :: serializeJsonList xs ++ [']']
  | Json.obj kvs => '\x7b' :: serializeJsonObj kvs ++ ['\x7d']

def serializeJsonList : List Json → List Char
  | [] => []
  | [x] => serializeJson x
  | x :: y :: xs => serializeJson x ++ ',' :: serializeJsonList (y :: xs)

def serializeJsonKV : JsonKV → List Char
  | JsonKV.mk k v => jsonEncStr k ++ ':' :: serializeJson v

def serializeJsonObj : List JsonKV → List Char
  | [] => []
  | [kv] => serializeJsonKV kv
  | kv :: kv2 :: kvs => serializeJsonKV kv ++ ',' :: serializeJsonObj (kv2 :: kvs)

end

mutual

/-- Recursion budget sufficient for the fuel-indexed parser to consume a
serialized value (one unit per parser call). -/
def serFuel : Json → Nat
  | Json.null => 1
  | Json.bool _ => 1
  | Json.num _ => 1
  | Json.str _ => 1
  | Json.arr xs => 1 + serFuelList xs
  | Json.obj kvs => 1 + serFuelObj kvs

def serFuelList : List Json → Nat
  | [] => 1
  | x :: xs => 1 + serFuel x + serFuelList xs

def serFuelObj : List JsonKV → Nat
  | [] => 1
  | kv :: kvs => 1 + serFuelKV kv + serFuelObj kvs

def serFuelKV : JsonKV → Nat
  | JsonKV.mk _ v => 1 + serFuel v

end

/-- JSON whitespace (`json.loads` skips space, tab, newline, return). -/
def isJsonWs (c : Char) : Bool :=
  c = ' ' || c = '\t' || c = '\n' || c = '\r'

/-- Value of a hex digit character. -/
def hexVal? (c : Char) : Option Nat :=
  if '0' ≤ c ∧ c ≤ '9' then some (c.toNat - 48)
  else if 'a' ≤ c ∧ c ≤ 'f' then some (c.toNat - 87)
  else if 'A' ≤ c ∧ c ≤ 'F' then some (c.toNat - 55)
  else none

/-- The two-character escapes of JSON string literals. -/
def escChar? (e : Char) : Option Char :=
  if e = '"' then some '"'
  else if e = '\\' then some '\\'
  else if e = '/' then some '/'
  else if e = 'b' then some (Char.ofNat 8)
  else if e = 'f' then some (Char.ofNat 12)
  else if e = 'n' then some (Char.ofNat 10)
  else if e = 'r' then some (Char.ofNat 13)
  else if e = 't' then some (Char.ofNat 9)
  else none

/-- Prepend one decoded character to a string-decoder result. -/
def consStr (d : Char) : Option (List Char × List Char) →
    Option (List Char × List Char)
  | some (s, r) => some (d :: s, r)
  | none => none

mutual

/-- JSON string-literal body decoder (input starts after the opening
quote); returns the decoded content and the text after the closing quote.
Strict like `json.loads`: raw control characters and invalid escapes are
rejected; `\uXXXX` surrogate halves are out of scope (the encoder never
produces them). -/
def parseJsonString : List Char → Option (List Char × List Char)
  | [] => none
  | c :: rest =>
      if c = '"' then some ([], rest)
      else if c = '\\' then parseJsonStringEsc rest
      else if c.toNat < 32 then none
      else consStr c (parseJsonString rest)

/-- The character after a backslash: a two-character escape or `\uXXXX`. -/
def parseJsonStringEsc : List Char → Option (List Char × List Char)
  | [] => none
  | e :: rest2 =>
      match escChar? e with
      | some d => consStr d (parseJsonString rest2)
      | none => if e = 'u' then parseJsonStringU rest2 else none

/-- The four hex digits of a `\uXXXX` escape. -/
def parseJsonStringU : List Char → Option (List Char × List Char)
  | h1 :: h2 :: h3 :: h4 :: rest3 =>
      (match hexVal? h1, hexVal? h2, hexVal? h3, hexVal? h4 with
       | some a, some b, some c2, some d =>
           (if ((a * 16 + b) * 16 + c2) * 16 + d < 55296 ∨
               57344 ≤ ((a * 16 + b) * 16 + c2) * 16 + d then
             consStr (Char.ofNat (((a * 16 + b) * 16 + c2) * 16 + d))
               (parseJsonString rest3)
           else none)
       | _, _, _, _ => none)
  | _ => none

end

mutual

/-- Recursive-descent model of `json.loads` value parsing over the `Json`
grammar (fuel strictly decreases on every nested call; `json_loads`
supplies enough for any input it is given). -/
def parseJsonVal : Nat → List Char → Option (Json × List Char)
  | 0, _ => none
  | fuel + 1, cs0 =>
      let cs := cs0.dropWhile isJsonWs
      if ['n', 'u', 'l', 'l'].isPrefixOf cs then some (Json.null, cs.drop 4)
      else if ['t', 'r', 'u', 'e'].isPrefixOf cs then
        some (Json.bool true, cs.drop 4)
      else if ['f', 'a', 'l', 's', 'e'].isPrefixOf cs then
        some (Json.bool false, cs.drop 5)
      else
        match cs with
        | [] => none
        | c :: rest =>
            if c = '"' then
              match parseJsonString rest with
              | some (s, r) => some (Json.str s, r)
              | none => none
            else if c = '[' then
              (match rest.dropWhile isJsonWs with
               | ']' :: r2 => some (Json.arr [], r2)
               | _ =>
                  match parseJsonArrayLoop fuel rest with
                  | some (xs, r2) => some (Json.arr xs, r2)
                  | none => none)
            else if c = '\x7b' then
              (match rest.dropWhile isJsonWs with
               | '\x7d' :: r2 => some (Json.obj [], r2)
               | _ =>
                  match parseJsonObjLoop fuel rest with
                  | some (kvs, r2) => some (Json.obj kvs, r2)
                  | none => none)
            else if c = '-' then
              match rest.span Char.isDigit with
              | ([], _) => none
              | (ds, r) => some (Json.num (-(digitsVal ds : Int)), r)
            else if c.isDigit then
              match (c :: rest).span Char.isDigit with
              | ([], _) => none
              | (ds, r) => some (Json.num (digitsVal ds : Int), r)
            else none

def parseJsonArrayLoop : Nat → List Char → Option (List Json × List Char)
  | 0, _ => none
  | fuel + 1, cs =>
      match parseJsonVal fuel cs with
      | none => none
      | some (v, r) =>
          match r.dropWhile isJsonWs with
          | ',' :: r2 =>
              (match parseJsonArrayLoop fuel r2 with
               | some (xs, r3) => some (v :: xs, r3)
               | none => none)
          | ']' :: r2 => some ([v], r2)
          | _ => none

def parseJsonObjLoop : Nat → List Char → Option (List JsonKV × List Char)
  | 0, _ => none
  | fuel + 1, cs =>
      match cs.dropWhile isJsonWs with
      | '"' :: r =>
          (match parseJsonString r with
           | none => none
           | some (k, r1) =>
               match r1.dropWhile isJsonWs with
               | ':' :: r2 =>
                   (match parseJsonVal fuel r2 with
                    | none => none
                    | some (v, r3) =>
                        match r3.dropWhile isJsonWs with
                        | ',' :: r4 =>
                            (match parseJsonObjLoop fuel r4 with
                             | some (kvs, r5) => some (JsonKV.mk k v :: kvs, r5)
                             | none => none)
                        | '\x7d' :: r4 => some ([JsonKV.mk k v], r4)
                        | _ => none)
               | _ => none)
      | _ => none

end

/-- Model of `json.loads`: parse one value, require only whitespace after
it. -/
def json_loads (cs : List Char) : Option Json :=
  match parseJsonVal (2 * cs.length + 2) cs with
  | some (v, rest) => if rest.dropWhile isJsonWs = [] then some v else none
  | none => none

/-- The needle constant `NEXT_FLIGHT_NEEDLE` (listing_scraper.py line 44). -/
def NEXT_FLIGHT_NEEDLE : String := "self.__next_f.push(["

/-- The `self.__next_f.push(` text whose length sets `block_start` in
`_iter_next_flight_payloads`. -/
def pushCallText : List Char := "self.__next_f.push(".toList

mutual

/-- Core of `_skip_js_string`: given the characters after the opening
quote, the offset of the closing quote (a backslash skips the next
character), or `none` when the scan runs off the end. -/
def sjs : List Char → Option Nat
  | [] => none
  | c :: rest =>
      if c = '\\' then sjsEsc rest
      else if c = '"' then some 0
      else (sjs rest).map (fun k => k + 1)

/-- After a backslash: the next character (if any) is skipped. -/
def sjsEsc : List Char → Option Nat
  | [] => none
  | _ :: rest2 => (sjs rest2).map (fun k => k + 2)

end

/-- Embedding of `_skip_js_string` (listing_scraper.py lines 406-417):
index of the closing quote of the string starting at `start`, or
`length - 1` when unterminated. -/
def skip_js_string (source : List Char) (start : Nat) : Nat :=
  match sjs (source.drop (start + 1)) with
  | some k => start + 1 + k
  | none => source.length - 1

/-- First occurrence index of a pattern (Python `str.find`). -/
def findSubIdx (pat : List Char) : List Char → Option Nat
  | [] => if pat = [] then some 0 else none
  | c :: rest =>
      if pat.isPrefixOf (c :: rest) then some 0
      else (findSubIdx pat rest).map (fun k => k + 1)

/-- `str.find(pat, start)`: first occurrence at or after `start`. -/
def findSubIdxFrom (pat cs : List Char) (start : Nat) : Option Nat :=
  (findSubIdx pat (cs.drop start)).map (fun k => k + start)

/-- The bracket-depth loop of `_iter_next_flight_payloads` over the text
after the needle (initial depth 1): relative offset of the `]` that closes
the pushed array (string literals skipped via `sjs`), or `none` when the
scan runs off the end with the depth still positive.  Each step consumes at
least one character, so fuel = length + 1 suffices. -/
def depthScan : Nat → List Char → Int → Option Nat
  | 0, _, _ => none
  | fuel + 1, cs, depth =>
      match cs with
      | [] => none
      | c :: rest =>
          if c = '"' then
            match sjs rest with
            | none => none
            | some k =>
                (depthScan fuel (rest.drop (k + 1)) depth).map
                  (fun m => m + k + 2)
          else if c = '[' then
            (depthScan fuel rest (depth + 1)).map (fun m => m + 1)
          else if c = ']' then
            (if depth - 1 = 0 then some 0
             else (depthScan fuel rest (depth - 1)).map (fun m => m + 1))
          else (depthScan fuel rest depth).map (fun m => m + 1)

/-- The literal-extraction loop of `_iter_next_flight_payloads` (`j` from
`block_start` to `block_end` inclusive): every `"..."` literal is cut out
with `_skip_js_string` and kept when `json.loads` decodes it to a string.
`cs` is the text from position `j` on and `rem = block_end - j + 1`; an
unterminated literal swallows the rest of the document and ends the
loop. -/
def flightKeep (j : Option Json) (tail : List (List Char)) : List (List Char) :=
  match j with
  | some (Json.str s) => s :: tail
  | _ => tail

mutual

def flightJGo : Nat → List Char → Nat → List (List Char)
  | 0, _, _ => []
  | fuel + 1, cs, rem =>
      if rem = 0 then []
      else
        match cs with
        | [] => []
        | c :: rest =>
            if c = '"' then
              match sjs rest with
              | some k => flightLit fuel (c :: rest) rem k
              | none => flightKeep (json_loads (c :: rest)) []
            else flightJGo fuel rest (rem - 1)

def flightLit (fuel : Nat) (cs : List Char) (rem k : Nat) : List (List Char) :=
  flightKeep (json_loads (cs.take (k + 2)))
    (flightJGo fuel (cs.drop (k + 2)) (rem - (k + 2)))

end

/-- Outer loop of `_iter_next_flight_payloads`: find the needle, close the
bracket block, extract its string literals, continue after the block. -/
def flightOuter (html needle : List Char) : Nat → Nat → List (List Char)
  | 0, _ => []
  | fuel + 1, pos =>
      match findSubIdxFrom needle html pos with
      | none => []
      | some start =>
          match depthScan (html.length + 1)
              (html.drop (start + needle.length)) 1 with
          | none => []
          | some k =>
              let iEnd := start + needle.length + k
              let blockStart := start + pushCallText.length
              flightJGo (html.length + 2) (html.drop blockStart)
                  (iEnd + 1 - blockStart)
                ++ flightOuter html needle fuel (iEnd + 1)

/-- Embedding of `_iter_next_flight_payloads` (listing_scraper.py lines
420-460). -/
def iter_next_flight_payloads (html : String) : List String :=
  if containsSub html.toList NEXT_FLIGHT_NEEDLE.toList then
    (flightOuter html.toList NEXT_FLIGHT_NEEDLE.toList
      (html.toList.length + 2) 0).map String.mk
  else []

/-- Length of the run of backslashes ending a character list. -/
def trailRun (cs : List Char) : Nat :=
  (cs.reverse.takeWhile (fun x => x = '\\')).length

/-- The backward escape check of `_extract_json_arrays_from_text`: walking
back from position `i - 1` while seeing backslashes and toggling a flag
computes the parity of the backslash run ending just before `i`. -/
def escapedAt (payload : List Char) (i : Nat) : Bool :=
  trailRun (payload.take i) % 2 == 1

/-- The bracket scan of `_extract_json_arrays_from_text` from position `i`
(depth and in-string state as in the source): position of the `]` that
brings the depth back to zero, or `none` when the scan runs off the end. -/
def arrScanGo (payload : List Char) : Nat → Nat → Int → Bool → Option Nat
  | 0, _, _, _ => none
  | fuel + 1, i, depth, inString =>
      match payload.get? i with
      | none => none
      | some c =>
          if c = '"' then
            arrScanGo payload fuel (i + 1) depth
              (if escapedAt payload i then inString else !inString)
          else if inString = false ∧ c = '[' then
            arrScanGo payload fuel (i + 1) (depth + 1) inString
          else if inString = false ∧ c = ']' then
            (if depth - 1 = 0 then some i
             else arrScanGo payload fuel (i + 1) (depth - 1) inString)
          else arrScanGo payload fuel (i + 1) depth inString

/-- Outer loop of `_extract_json_arrays_from_text`: find the key, find the
next `[`, scan to the matching `]`, yield the slice, continue after it. -/
def extractArraysOuter (payload key : List Char) : Nat → Nat → List (List Char)
  | 0, _ => []
  | fuel + 1, idx =>
      match findSubIdxFrom key payload idx with
      | none => []
      | some kidx =>
          match findSubIdxFrom ['['] payload (kidx + key.length) with
          | none => []
          | some start =>
              match arrScanGo payload (payload.length + 1) start 0 false with
              | some i =>
                  ((payload.take (i + 1)).drop start) ::
                    extractArraysOuter payload key fuel (i + 1)
              | none => extractArraysOuter payload key fuel (payload.length + 1)

/-- Embedding of `_extract_json_arrays_from_text` (listing_scraper.py lines
463-496). -/
def extract_json_arrays_from_text (payload key : String) : List String :=
  (extractArraysOuter payload.toList key.toList
    (payload.toList.length + 2) 0).map String.mk

/-- Forward-automaton form of the bracket scan: instead of re-counting the
backslash run behind every quote, carry the run parity (`esc`) through the
scan.  Proven equivalent to `arrScanGo`. -/
def arrForward : List Char → Int → Bool → Bool → Option Nat
  | [], _, _, _ => none
  | c :: rest, depth, inString, esc =>
      if c = '"' then
        (arrForward rest depth (if esc then inString else !inString)
          (if c = '\\' then !esc else false)).map (fun m => m + 1)
      else if inString = false ∧ c = '[' then
        (arrForward rest (depth + 1) inString
          (if c = '\\' then !esc else false)).map (fun m => m + 1)
      else if inString = false ∧ c = ']' then
        (if depth - 1 = 0 then some 0
         else (arrForward rest (depth - 1) inString
           (if c = '\\' then !esc else false)).map (fun m => m + 1))
      else
        (arrForward rest depth inString
          (if c = '\\' then !esc else false)).map (fun m => m + 1)

/-- The inner decoded payload the round-trip embeds: an object text whose
`"faq":` key carries the serialized array. -/
def flightPayloadOf (A : List Json) : List Char :=
  '\x7b' :: ("\"faq\":".toList ++ serializeJson (Json.arr A) ++ ['\x7d'])

/-- The HTML document of the round-trip: a script that pushes
`[1,"<encoded payload>"]` through `self.__next_f.push`. -/
def flightDocOf (A : List Json) : List Char :=
  "<script>".toList ++ NEXT_FLIGHT_NEEDLE.toList ++
    ('1' :: ',' :: jsonEncStr (flightPayloadOf A)) ++
    (']' :: ')' :: "</script>".toList)

/-! ## `_extract_profile_product_paths` -/

/-- The segment list `[s for s in path.strip("/").split("/") if s]` used
twice by `_extract_profile_product_paths`. -/
def pathSegments (path : String) : List String :=
  ((splitOnCh '/' (stripSlash path).toList).map String.mk).filter
    (fun s => s ≠ "")

/-- The anchor loop of `_extract_profile_product_paths`.  In the source
`seen` is a set and `results` the ordered output; every element added to one
is added to the other, so a single ordered list (with a membership test
standing in for the set) represents both. -/
def profileLoop (parsed : URLParts) (username : String)
    (results : List String) : List DOMNode → Except String (List String)
  | [] => Except.ok results
  | anchor :: restA =>
      let href := attrsGet anchor.attrs "href" ""
      if href = "" then profileLoop parsed username results restA
      else
        match urljoin (parsed.scheme ++ "://" ++ parsed.netloc ++ "/") href with
        | Except.error e => Except.error e
        | Except.ok absolute =>
            match urlparse absolute with
            | Except.error e => Except.error e
            | Except.ok ph =>
                if ph.netloc ≠ "" ∧
                    toLowerStr ph.netloc ≠ toLowerStr parsed.netloc then
                  profileLoop parsed username results restA
                else
                  match pathSegments ph.path with
                  | s0 :: s1 :: _ =>
                      if toLowerStr s0 ≠ username then
                        profileLoop parsed username results restA
                      else
                        let normalized := parsed.scheme ++ "://" ++
                          parsed.netloc ++ "/" ++ s0 ++ "/" ++ s1
                        if results.contains normalized then
                          profileLoop parsed username results restA
                        else
                          profileLoop parsed username
                            (results ++ [normalized]) restA
                  | _ => profileLoop parsed username results restA

/-- Embedding of `_extract_profile_product_paths` (listing_scraper.py lines
572-601): same-host product links of a profile page, normalized to the
profile's scheme and host with the path truncated to its first two
segments, deduplicated in discovery order.  `urlparse`/`urljoin` errors
propagate, hence `Except`. -/
def extract_profile_product_paths (builder : Option DOMNode)
    (final_url : String) : Except String (List String) :=
  match builder with
  | none => Except.ok []
  | some root =>
      match urlparse final_url with
      | Except.error e => Except.error e
      | Except.ok parsed =>
          match pathSegments parsed.path with
          | [] => Except.ok []
          | p0 :: _ =>
              profileLoop parsed (toLowerStr p0) [] (iter_tag root "a")

/-- What holds of every URL the profile product-link extractor returns:
it is the profile's scheme and netloc followed by exactly two nonempty
slash-free path segments, the first of which lower-cases to the profile's
first path segment lower-cased, and the two segments are the first two
path segments of some anchor's resolved `href`. -/
def ProfileUrlSpec (root : DOMNode) (parsed : URLParts) (p0 : String)
    (u : String) : Prop :=
  ∃ s0 s1,
    u = parsed.scheme ++ "://" ++ parsed.netloc ++ "/" ++ s0 ++ "/" ++ s1
    ∧ s0 ≠ "" ∧ s1 ≠ ""
    ∧ s0.toList.contains '/' = false ∧ s1.toList.contains '/' = false
    ∧ toLowerStr s0 = toLowerStr p0
    ∧ ∃ a ∈ iter_tag root "a", ∃ abs ph tail,
        urljoin (parsed.scheme ++ "://" ++ parsed.netloc ++ "/")
            (attrsGet a.attrs "href" "") = Except.ok abs
        ∧ urlparse abs = Except.ok ph
        ∧ pathSegments ph.path = s0 :: s1 :: tail

/-- Concrete single-text leaf node, for witness documents. -/
def mkLeaf (tag : String) (txt : String) : DOMNode := DOMNode.mk tag [] [] [txt]

/-- A profile page whose one anchor link differs from the profile's first
path segment in letter case only. -/
def profileCexTree : DOMNode :=
  DOMNode.mk "_root" []
    [DOMNode.mk "a" [("href", "/ALICE/p1")] [] []] []

/-- A profile page with a deep same-owner link, an off-host link, a
duplicate link and a different-owner link. -/
def profileWitnessTree : DOMNode :=
  DOMNode.mk "_root" []
    [DOMNode.mk "a" [("href", "/alice/prod1/extra")] [] [],
     DOMNode.mk "a" [("href", "https://other.com/alice/p2")] [] [],
     DOMNode.mk "a" [("href", "/alice/prod1")] [] [],
     DOMNode.mk "a" [("href", "/bob/p3")] [] []] []

/-- Concrete witness document: a `div` with a FAQ heading, two question
nodes and two answer paragraphs. -/
def faqWitnessTree : DOMNode :=
  DOMNode.mk "_root" []
    [DOMNode.mk "div" []
      [mkLeaf "h2" "FAQ",
       mkLeaf "h3" "Is it good?",
       mkLeaf "p" "Yes it is, definitely.",
       mkLeaf "h3" "Price?",
       mkLeaf "p" "Ten dollars and zero cents."] []] []

/-- The section the FAQ extractor recovers from `faqWitnessTree`. -/
def faqWitnessSection : FaqSection where
  heading := "FAQ"
  entries :=
    [{ question := "Is it good?", answer := some "Yes it is, definitely." },
     { question := "Price?", answer := some "Ten dollars and zero cents." }]

/-- Concrete witness document for the review extractor: a review section
with a total, an average, and two measured star rows. -/
def revWitnessTree : DOMNode :=
  DOMNode.mk "_root" []
    [DOMNode.mk "section" []
      [mkLeaf "h2" "Reviews",
       mkLeaf "span" "128 total reviews",
       mkLeaf "p" "4.5 out of 5",
       DOMNode.mk "div" [] [mkLeaf "span" "5 star",
         DOMNode.mk "div" [("style", "width: 62.5%")] [] []] [],
       DOMNode.mk "div" [] [mkLeaf "span" "4 star",
         DOMNode.mk "div" [("style", "width:25%")] [] []] []] []] []

/-- Concrete counterexample document for the review extractor: a single
star row whose CSS width is 300%, overshooting the total. -/
def revCexTree : DOMNode :=
  DOMNode.mk "_root" []
    [DOMNode.mk "section" []
      [mkLeaf "h2" "Reviews",
       mkLeaf "span" "10 total reviews",
       DOMNode.mk "div" [] [mkLeaf "span" "5 star",
         DOMNode.mk "span" [("style", "width:300%")] [] []] []] []] []

/-- The summary the review extractor recovers from `revWitnessTree`. -/
def revWitnessSummary : ReviewSummary where
  heading := "Reviews"
  average_rating := some (9 / 2)
  rating_scale := some 5
  total_reviews := some 128
  distribution :=
    [{ stars := 5, percent := some (125 / 2), count := some 80 },
     { stars := 4, percent := some 25, count := some 32 },
     { stars := 3, percent := none, count := none },
     { stars := 2, percent := none, count := none },
     { stars := 1, percent := none, count := none }]

/-! ## `_extract_flight_faq_entries` -/

/-- Python `dict` built by `json.loads` from a JSON object: later duplicate
keys overwrite earlier ones, so lookup returns the LAST binding. -/
def jsonObjGet : List JsonKV → String → Option Json
  | [], _ => none
  | JsonKV.mk k v :: rest, key =>
      match jsonObjGet rest key with
      | some r => some r
      | none => if String.mk k = key then some v else none

/-- One entry of the inner loop of `_extract_flight_faq_entries`: a dict
with string `question` and `answer` whose normalized question is new and
non-empty is appended (stripped); everything else is skipped. -/
def flightEntryStep (st : List String × List FlightEntry) (entry : Json) :
    List String × List FlightEntry :=
  match entry with
  | Json.obj kvs =>
      match jsonObjGet kvs "question", jsonObjGet kvs "answer" with
      | some (Json.str q), some (Json.str a) =>
          let normalized := normalize_question (String.mk q)
          if normalized ≠ "" ∧ ¬ st.1.contains normalized then
            (st.1 ++ [normalized],
             st.2 ++ [FlightEntry.mk (pyStrip (String.mk q))
               (pyStrip (String.mk a))])
          else st
      | _, _ => st
  | _ => st

/-- The `for entry in data` loop. -/
def flightEntriesArr (st : List String × List FlightEntry) :
    List Json → List String × List FlightEntry
  | [] => st
  | e :: rest => flightEntriesArr (flightEntryStep st e) rest

/-- The `for array_text in _extract_json_arrays_from_text(...)` loop:
texts that fail to decode or do not decode to a list are skipped. -/
def flightEntriesTexts (st : List String × List FlightEntry) :
    List String → List String × List FlightEntry
  | [] => st
  | t :: rest =>
      match json_loads t.toList with
      | some (Json.arr xs) =>
          flightEntriesTexts (flightEntriesArr st xs) rest
      | _ => flightEntriesTexts st rest

/-- The `for payload in _iter_next_flight_payloads(html)` loop. -/
def flightEntriesPayloads (st : List String × List FlightEntry) :
    List String → List String × List FlightEntry
  | [] => st
  | p :: rest =>
      if strContains p "\"faq\":" then
        flightEntriesPayloads
          (flightEntriesTexts st (extract_json_arrays_from_text p "\"faq\":"))
          rest
      else flightEntriesPayloads st rest

/-- Embedding of `_extract_flight_faq_entries` (listing_scraper.py lines
499-528). -/
def extract_flight_faq_entries (html : String) : List FlightEntry :=
  (flightEntriesPayloads ([], []) (iter_next_flight_payloads html)).2

/-! ## `fetch_listing_snapshot`

The entry point talks to three external collaborators, modelled as an
explicit environment:

* `render` models `_render_listing_with_playwright` (listing_scraper.py
  lines 226-259).  That helper catches every Playwright error and every
  other exception and returns `(None, None)`, so it is total: `some (html,
  final_url)` on success, `none` for any swallowed failure.
* `rawGet` models `client.get(url)` (line 1201).  httpx transport errors
  are exceptions, and this call site is NOT wrapped in any `except`, hence
  `Except`; the response carries the status code, the final URL after
  redirects (`str(response.url)`) and the body text.
* `dataGet` models `client.get(next_data_url, params=params)` together
  with `data_resp.json()` (lines 1261-1266): `Except.error` is a raised
  `httpx.HTTPError` (caught by the source), and a successful response
  carries the status code and `some` parsed JSON body, or `none` when
  `.json()` raises a decode error (NOT caught by the source, which handles
  only `httpx.HTTPError`).  The query params forwarded from the original
  response URL do not affect this model's control flow and are folded into
  the oracle.
* `buildTree` models `_build_dom_tree` (lines 218-224), which catches
  every exception of the underlying `html.parser` feed and returns `None`,
  hence a total `Option`.
* `nextDataScript` models the `__NEXT_DATA__` script body collected by
  `_HTMLSnapshotParser.feed`, a tolerant `html.parser` subclass that does
  not raise on arbitrary input.

The snapshot dict is modelled by the fields the claims depend on.  The
omitted flat fields (JSON-LD product summaries, flattened features and
descriptions) are produced from the same inputs by total pure Python
(dict/list traversals with `.get`/`isinstance`); they cannot raise and do
not influence which branch returns. -/

structure RawResponse where
  status : Int
  url : String
  text : String

structure FetchEnv where
  render : String → Option (String × String)
  rawGet : String → Except String RawResponse
  dataGet : String → Except String (Int × Option Json)
  buildTree : String → Option DOMNode
  nextDataScript : String → Option String

/-- The errors `fetch_listing_snapshot` can let escape: the validation
errors of `_normalize_target`, a `ValueError` raised by
`urllib.parse`/`urljoin` on exotic URLs, an uncaught httpx transport error
from the unprotected `client.get(url)`, and an uncaught JSON decode error
from `data_resp.json()`. -/
inductive FetchErr where
  | validation (e : NormalizeError)
  | parseErr (msg : String)
  | transport (msg : String)
  | jsonDecode
deriving Repr, DecidableEq

/-- A snapshot: either the flat listing dict built by
`_build_flat_snapshot`, or the profile fan-out dict returned by the
profile-hop branch (lines 1226-1233). -/
inductive Snapshot where
  | flat (final_url : String) (faq_sections : List FaqSection)
      (pricing : List String) (page_payload : Option Json)
  | profile (requested_url : String) (profile_url : String)
      (profile_username : Option String) (product_count : Nat)
      (product_urls : List String) (products : List Snapshot)

/-- `final_url = rendered_final_url or str(response.url)` (line 1203):
Python `or` falls through on an empty rendered URL as well as on `None`. -/
def pickFinal (rendered : Option (String × String)) (respUrl : String) :
    String :=
  match rendered with
  | some (_, f) => if f = "" then respUrl else f
  | none => respUrl

/-- Embedding of `_build_next_data_url` (listing_scraper.py lines
1166-1176).  It re-parses `final_url`, so a parse failure would propagate;
callers reach it only after the same string already parsed successfully. -/
def build_next_data_url (final_url build_id : String) :
    Except String (Option String) :=
  match urlparse final_url with
  | Except.error e => Except.error e
  | Except.ok parsed =>
      if parsed.scheme = "" ∨ parsed.netloc = "" then Except.ok none
      else
        let path := if parsed.path = "" then "/" else parsed.path
        let path := if path.endsWith "/" ∧ path ≠ "/" then
            String.mk path.toList.dropLast
          else path
        let suffix := if path = "" ∨ path = "/" then "index"
          else lstripSlash path
        let base := urlunparse parsed.scheme parsed.netloc "" "" "" ""
        Except.ok (some (base ++ "/_next/data/" ++ build_id ++ "/" ++
          suffix ++ ".json"))

/-- Python truthiness of a JSON value, for
`payload_candidate.get("pageProps") or payload_candidate` (line 1265). -/
def jsonTruthy : Json → Bool
  | Json.null => false
  | Json.bool b => b
  | Json.num n => n ≠ 0
  | Json.str s => !s.isEmpty
  | Json.arr xs => !xs.isEmpty
  | Json.obj kvs => !kvs.isEmpty

/-- `next_data = _safe_json_loads(parser.next_data_script) if
parser.next_data_script else None` (line 1252): `_safe_json_loads` absorbs
decode errors. -/
def nextDataOf (env : FetchEnv) (html_text : String) : Option Json :=
  match env.nextDataScript html_text with
  | none => none
  | some script => json_loads script.toList

/-- `build_id = next_data.get("buildId") if isinstance(next_data, dict)
else None`, kept only when it is a string (line 1253-1254). -/
def buildIdOf : Option Json → Option String
  | some (Json.obj kvs) =>
      match jsonObjGet kvs "buildId" with
      | some (Json.str s) => some (String.mk s)
      | _ => none
  | _ => none

/-- `payload_candidate.get("pageProps") or payload_candidate` on a decoded
dict body (line 1265). -/
def pagePayloadOf (kvs : List JsonKV) : Option Json :=
  match jsonObjGet kvs "pageProps" with
  | some p => if jsonTruthy p then some p else some (Json.obj kvs)
  | none => some (Json.obj kvs)

/-- The hydration request itself (lines 1261-1267): a transport error
(`httpx.HTTPError`) is absorbed, but a 200 body that fails to decode
raises, and a non-dict 200 body leaves the payload empty. -/
def hydrationReq (env : FetchEnv) (ndu : String) :
    Except FetchErr (Option Json) :=
  match env.dataGet ndu with
  | Except.error _ => Except.ok none
  | Except.ok (st, body) =>
      if st = 200 then
        match body with
        | none => Except.error FetchErr.jsonDecode
        | some (Json.obj kvs) => Except.ok (pagePayloadOf kvs)
        | some _ => Except.ok none
      else Except.ok none

/-- The hydration-data block (listing_scraper.py lines 1252-1268). -/
def hydrationPayload (env : FetchEnv) (html_text final_url : String) :
    Except FetchErr (Option Json) :=
  match buildIdOf (nextDataOf env html_text) with
  | none => Except.ok none
  | some bid =>
      match build_next_data_url final_url bid with
      | Except.error e => Except.error (FetchErr.parseErr e)
      | Except.ok none => Except.ok none
      | Except.ok (some ndu) => hydrationReq env ndu

/-- The flat tail of `fetch_listing_snapshot` (lines 1235-1295): flight
fallback FAQ entries, DOM extraction, the hydration request, and the flat
snapshot. -/
def fetchFlat (env : FetchEnv) (final_url html_text : String)
    (dom_builder rendered_dom_builder : Option DOMNode) :
    Except FetchErr Snapshot :=
  let flight_faq_entries := extract_flight_faq_entries html_text
  let dom_faq_sections :=
    merge_faq_sections (extract_dom_faqs dom_builder) flight_faq_entries
  let pricing_builder :=
    match rendered_dom_builder with
    | some b => some b
    | none => dom_builder
  let pricing_options := extract_pricing_options pricing_builder
  match hydrationPayload env html_text final_url with
  | Except.error e => Except.error e
  | Except.ok page_payload =>
      Except.ok
        (Snapshot.flat final_url dom_faq_sections pricing_options
          page_payload)

/-- `for product_url in product_links[:8]: snapshots.append(...)`: the
children are fetched sequentially in list order and the first raised error
propagates. -/
def mapChildren (f : String → Except FetchErr Snapshot) :
    List String → Except FetchErr (List Snapshot)
  | [] => Except.ok []
  | u :: rest =>
      match f u with
      | Except.error e => Except.error e
      | Except.ok s =>
          match mapChildren f rest with
          | Except.error e => Except.error e
          | Except.ok ss => Except.ok (s :: ss)

/-- The body of `fetch_listing_snapshot` (listing_scraper.py lines
1179-1295), with the recursive child call abstracted as `child`; when
`allowHop = false` the guard `allowHop = true ∧ …` is false and `child` is
never reached. -/
def fetchAux (env : FetchEnv) (child : String → Except FetchErr Snapshot)
    (allowHop : Bool) (target : String) : Except FetchErr Snapshot :=
  match normalize_target target with
  | Except.error e => Except.error (FetchErr.validation e)
  | Except.ok (url, _slug) =>
      let rendered := env.render url
      match env.rawGet url with
      | Except.error msg => Except.error (FetchErr.transport msg)
      | Except.ok resp =>
          let final_url := pickFinal rendered resp.url
          match urlparse final_url with
          | Except.error msg => Except.error (FetchErr.parseErr msg)
          | Except.ok parsed_final =>
              let path_segments := pathSegments parsed_final.path
              let html_text := resp.text
              let dom_builder := env.buildTree html_text
              let rendered_dom_builder :=
                match rendered with
                | some (rhtml, _) =>
                    if rhtml = "" then none else env.buildTree rhtml
                | none => none
              if allowHop = true ∧ path_segments.length ≤ 1 then
                match extract_profile_product_paths dom_builder final_url with
                | Except.error msg => Except.error (FetchErr.parseErr msg)
                | Except.ok product_links =>
                    if product_links.isEmpty then
                      fetchFlat env final_url html_text dom_builder
                        rendered_dom_builder
                    else
                      match mapChildren child (product_links.take 8) with
                      | Except.error e => Except.error e
                      | Except.ok snaps =>
                          Except.ok
                            (Snapshot.profile url final_url
                              path_segments.head? product_links.length
                              product_links snaps)
              else
                fetchFlat env final_url html_text dom_builder
                  rendered_dom_builder

/-- A child invocation: the same body with `_allow_profile_hop=False`.  The
hop guard is then false, so the child argument is unreachable and one level
of the abstraction suffices to model the bounded recursion. -/
def fetch_nohop (env : FetchEnv) (target : String) :
    Except FetchErr Snapshot :=
  fetchAux env (fun _ => Except.error (FetchErr.transport "")) false target

/-- Embedding of `fetch_listing_snapshot` (listing_scraper.py lines
1179-1295): the top-level call with the recursive children running with
the hop disabled. -/
def fetch_listing_snapshot (env : FetchEnv) (target : String)
    (allowProfileHop : Bool) : Except FetchErr Snapshot :=
  fetchAux env (fetch_nohop env) allowProfileHop target

/-- Whether a snapshot is the profile fan-out dict. -/
def isProfileSnap : Snapshot → Bool
  | Snapshot.profile _ _ _ _ _ _ => true
  | Snapshot.flat _ _ _ _ => false

/-- The environment facts under which no failure escapes: every raw GET
succeeds, every resulting final URL parses with an http/https scheme,
profile-link extraction never hits a URL-parse error and yields
normalizable links, and no 200 hydration body fails to decode. -/
def EnvOk (env : FetchEnv) : Prop :=
  (∀ u, ∃ r, env.rawGet u = Except.ok r) ∧
  (∀ u r, env.rawGet u = Except.ok r →
    ∃ p, urlparse (pickFinal (env.render u) r.url) = Except.ok p ∧
      (p.scheme = "http" ∨ p.scheme = "https")) ∧
  (∀ u r, env.rawGet u = Except.ok r →
    ∃ links, extract_profile_product_paths (env.buildTree r.text)
        (pickFinal (env.render u) r.url) = Except.ok links ∧
      ∀ v ∈ links, ∃ uu ss, normalize_target v = Except.ok (uu, ss)) ∧
  (∀ u st body, env.dataGet u = Except.ok (st, body) → st = 200 →
    body ≠ none)

/-- An environment whose raw HTTP GET always raises a transport error. -/
def envCex : FetchEnv where
  render := fun _ => none
  rawGet := fun _ => Except.error "httpx.ConnectError"
  dataGet := fun _ => Except.error ""
  buildTree := fun _ => none
  nextDataScript := fun _ => none

/-- A benign environment: every GET succeeds with a two-segment final URL,
no tree, no hydration. -/
def envOkW : FetchEnv where
  render := fun _ => none
  rawGet := fun _ =>
    Except.ok { status := 200, url := "https://whop.com/a/b", text := "" }
  dataGet := fun _ => Except.error "down"
  buildTree := fun _ => none
  nextDataScript := fun _ => none

/-- An environment that serves a profile page with one same-owner product
link, triggering the fan-out branch. -/
def envProf : FetchEnv where
  render := fun _ => none
  rawGet := fun u => Except.ok { status := 200, url := u, text := "profile" }
  dataGet := fun _ => Except.error "down"
  buildTree := fun h =>
    if h = "profile" then some profileWitnessTree else none
  nextDataScript := fun _ => none

/-! ## Theorems: the streamed-payload round trip (claim C2) -/

/-! ## Theorems: streamed-payload round trip (claim C2) -/

theorem toNat_ofNat_small (n : Nat) (h : n < 55296) : (Char.ofNat n).toNat = n := by
  have hv : n.isValidChar := Or.inl h
  rw [Char.ofNat, dif_pos hv]
  simp [Char.ofNatAux, Char.toNat, UInt32.toNat, BitVec.toNat_ofNatLt]

theorem isDigit_ofNat_digit (d : Nat) (h : d < 10) :
    (Char.ofNat (48 + d)).isDigit = true := by
  interval_cases d <;> decide

theorem digitsVal_append_one (xs : List Char) (c : Char) :
    digitsVal (xs ++ [c]) = digitsVal xs * 10 + (c.toNat - 48) := by
  simp [digitsVal, List.foldl_append, Nat.mul_comm]

theorem natToCharsGo_val (fuel : Nat) :
    ∀ n, n < fuel → digitsVal (natToCharsGo fuel n) = n := by
  induction fuel with
  | zero => intro n h; omega
  | succ f ih =>
      intro n h
      cases n with
      | zero => simp [natToCharsGo, digitsVal]
      | succ m =>
          have heq : natToCharsGo (f + 1) (m + 1) =
              natToCharsGo f ((m + 1) / 10) ++ [Char.ofNat (48 + (m + 1) % 10)] := by
            rw [natToCharsGo]
            simp
          rw [heq, digitsVal_append_one]
          have hd : (m + 1) / 10 < f := by omega
          rw [ih _ hd]
          have h10 : (m + 1) % 10 < 10 := Nat.mod_lt _ (by omega)
          rw [toNat_ofNat_small (48 + (m + 1) % 10) (by omega)]
          omega

theorem natToChars_val (n : Nat) : digitsVal (natToChars n) = n := by
  unfold natToChars
  by_cases h : n = 0
  · subst h; simp [digitsVal]
  · rw [if_neg h, natToCharsGo_val (n + 1) n (by omega)]

theorem natToCharsGo_digits (fuel : Nat) :
    ∀ n c, c ∈ natToCharsGo fuel n → c.isDigit = true := by
  induction fuel with
  | zero => intro n c h; simp [natToCharsGo] at h
  | succ f ih =>
      intro n c h
      cases n with
      | zero => simp [natToCharsGo] at h
      | succ m =>
          have heq : natToCharsGo (f + 1) (m + 1) =
              natToCharsGo f ((m + 1) / 10) ++ [Char.ofNat (48 + (m + 1) % 10)] := by
            rw [natToCharsGo]
            simp
          rw [heq] at h
          rcases List.mem_append.mp h with h1 | h1
          · exact ih _ c h1
          · rw [List.mem_singleton.mp h1]
            exact isDigit_ofNat_digit ((m + 1) % 10) (Nat.mod_lt _ (by omega))

theorem natToChars_digits (n : Nat) :
    ∀ c ∈ natToChars n, c.isDigit = true := by
  intro c h
  unfold natToChars at h
  by_cases h0 : n = 0
  · rw [if_pos h0] at h
    rw [List.mem_singleton.mp h]
    decide
  · rw [if_neg h0] at h
    exact natToCharsGo_digits (n + 1) n c h

theorem natToChars_ne_nil' (n : Nat) : natToChars n ≠ [] := by
  unfold natToChars
  by_cases h0 : n = 0
  · rw [if_pos h0]; simp
  · rw [if_neg h0]
    cases n with
    | zero => exact absurd rfl h0
    | succ m =>
        have heq : natToCharsGo (m + 2) (m + 1) =
            natToCharsGo (m + 1) ((m + 1) / 10) ++
              [Char.ofNat (48 + (m + 1) % 10)] := by
          rw [natToCharsGo]
          simp
        rw [heq]
        simp

theorem natToChars_cons (n : Nat) :
    ∃ c cs, natToChars n = c :: cs := by
  match hh : natToChars n with
  | [] => exact absurd hh (natToChars_ne_nil' n)
  | c :: cs => exact ⟨c, cs, rfl⟩

theorem takeWhile_all_append (p : Char → Bool) (xs rest : List Char)
    (hx : ∀ c ∈ xs, p c = true)
    (hr : ∀ d, rest.head? = some d → p d = false) :
    (xs ++ rest).takeWhile p = xs := by
  induction xs with
  | nil =>
      match rest with
      | [] => rfl
      | d :: rest2 => simp [List.takeWhile_cons, hr d rfl]
  | cons x xs2 ih =>
      have hx0 : p x = true := hx x (List.mem_cons_self _ _)
      simp [List.takeWhile_cons, hx0,
        ih (fun c hc => hx c (List.mem_cons_of_mem _ hc))]

theorem dropWhile_all_append (p : Char → Bool) (xs rest : List Char)
    (hx : ∀ c ∈ xs, p c = true)
    (hr : ∀ d, rest.head? = some d → p d = false) :
    (xs ++ rest).dropWhile p = rest := by
  induction xs with
  | nil =>
      match rest with
      | [] => rfl
      | d :: rest2 => simp [List.dropWhile_cons, hr d rfl]
  | cons x xs2 ih =>
      have hx0 : p x = true := hx x (List.mem_cons_self _ _)
      simp [List.dropWhile_cons, hx0,
        ih (fun c hc => hx c (List.mem_cons_of_mem _ hc))]

theorem span_digits (xs rest : List Char) (hx : ∀ c ∈ xs, c.isDigit = true)
    (hr : ∀ d, rest.head? = some d → d.isDigit = false) :
    (xs ++ rest).span Char.isDigit = (xs, rest) := by
  rw [List.span_eq_take_drop, takeWhile_all_append _ _ _ hx hr,
    dropWhile_all_append _ _ _ hx hr]

theorem hexVal_digitChar (m : Nat) (h : m < 16) :
    hexVal? (hexDigitChar m) = some m := by
  interval_cases m <;> decide

theorem hexDigitChar_plain (m : Nat) (h : m < 16) :
    hexDigitChar m ≠ '\\' ∧ hexDigitChar m ≠ '"' := by
  interval_cases m <;> exact ⟨by decide, by decide⟩

theorem pjs_close (tl : List Char) : parseJsonString ('"' :: tl) = some ([], tl) := by
  rw [parseJsonString]
  simp

theorem pjs_esc (e d : Char) (hd : escChar? e = some d) (tl : List Char) :
    parseJsonString ('\\' :: e :: tl) = consStr d (parseJsonString tl) := by
  rw [parseJsonString]
  simp only [if_neg (by decide : ¬('\\' : Char) = '"'), if_pos rfl]
  rw [parseJsonStringEsc, hd]
  simp

theorem pjs_u00 (hi lo : Nat) (hhi : hi < 16) (hlo : lo < 16)
    (hval : 16 * hi + lo < 32) (tl : List Char) :
    parseJsonString ('\\' :: 'u' :: '0' :: '0' ::
        hexDigitChar hi :: hexDigitChar lo :: tl) =
      consStr (Char.ofNat (16 * hi + lo)) (parseJsonString tl) := by
  rw [parseJsonString]
  simp only [if_neg (by decide : ¬('\\' : Char) = '"'), if_pos rfl]
  rw [parseJsonStringEsc]
  have hu : escChar? 'u' = none := by decide
  rw [hu, if_pos rfl, parseJsonStringU]
  have h0 : hexVal? '0' = some 0 := by decide
  rw [h0, hexVal_digitChar _ hhi, hexVal_digitChar _ hlo]
  have harith : ((0 * 16 + 0) * 16 + hi) * 16 + lo = 16 * hi + lo := by omega
  simp only [harith]
  rw [if_pos (Or.inl (by omega) : 16 * hi + lo < 55296 ∨ 57344 ≤ 16 * hi + lo)]
  simp

theorem pjs_plain (c : Char) (hb : c ≠ '\\') (hq : c ≠ '"')
    (hc : ¬c.toNat < 32) (tl : List Char) :
    parseJsonString (c :: tl) = consStr c (parseJsonString tl) := by
  rw [parseJsonString]
  rw [if_neg hq, if_neg hb, if_neg hc]

theorem parseJsonString_enc (s : List Char) :
    ∀ rest, parseJsonString (jsonEncStrBody s ++ '"' :: rest) = some (s, rest) := by
  induction s with
  | nil => intro rest; exact pjs_close rest
  | cons c s2 ih =>
      intro rest
      have hbody : jsonEncStrBody (c :: s2) = jsonEncChar c ++ jsonEncStrBody s2 := by
        simp [jsonEncStrBody]
      rw [hbody, List.append_assoc]
      by_cases hb : c = '\\'
      · subst hb
        have henc : jsonEncChar '\\' = ['\\', '\\'] := rfl
        rw [henc, List.cons_append, List.cons_append, List.nil_append,
          pjs_esc '\\' '\\' (by decide), ih rest]
        rfl
      · by_cases hq : c = '"'
        · subst hq
          have henc : jsonEncChar '"' = ['\\', '"'] := rfl
          rw [henc, List.cons_append, List.cons_append, List.nil_append,
            pjs_esc '"' '"' (by decide), ih rest]
          rfl
        · by_cases hc : c.toNat < 32
          · have henc : jsonEncChar c =
                ['\\', 'u', '0', '0', hexDigitChar (c.toNat / 16),
                 hexDigitChar (c.toNat % 16)] := by
              simp [jsonEncChar, hb, hq, hc]
            rw [henc]
            simp only [List.cons_append, List.nil_append]
            rw [pjs_u00 (c.toNat / 16) (c.toNat % 16) (by omega)
              (Nat.mod_lt _ (by omega)) (by omega), ih rest]
            have hchar : Char.ofNat (16 * (c.toNat / 16) + c.toNat % 16) = c := by
              have h16 : 16 * (c.toNat / 16) + c.toNat % 16 = c.toNat := by omega
              rw [h16, Char.ofNat_toNat]
            rw [hchar]
            rfl
          · have henc : jsonEncChar c = [c] := by
              simp [jsonEncChar, hb, hq, hc]
            rw [henc, List.singleton_append, pjs_plain c hb hq hc, ih rest]
            rfl

theorem sjs_quote (tl : List Char) : sjs ('"' :: tl) = some 0 := by
  rw [sjs]
  simp

theorem sjs_bs (e : Char) (tl : List Char) :
    sjs ('\\' :: e :: tl) = (sjs tl).map (fun k => k + 2) := by
  rw [sjs]
  simp [sjsEsc]

theorem sjs_plain (c : Char) (hb : c ≠ '\\') (hq : c ≠ '"') (tl : List Char) :
    sjs (c :: tl) = (sjs tl).map (fun k => k + 1) := by
  rw [sjs]
  simp [hb, hq]

theorem sjs_enc (s : List Char) :
    ∀ rest, sjs (jsonEncStrBody s ++ '"' :: rest) =
      some (jsonEncStrBody s).length := by
  induction s with
  | nil => intro rest; exact sjs_quote rest
  | cons c s2 ih =>
      intro rest
      have hbody : jsonEncStrBody (c :: s2) = jsonEncChar c ++ jsonEncStrBody s2 := by
        simp [jsonEncStrBody]
      rw [hbody, List.append_assoc]
      by_cases hb : c = '\\'
      · subst hb
        have henc : jsonEncChar '\\' = ['\\', '\\'] := rfl
        rw [henc, List.cons_append, List.cons_append, List.nil_append,
          sjs_bs '\\', ih rest]
        simp [hbody]
      · by_cases hq : c = '"'
        · subst hq
          have henc : jsonEncChar '"' = ['\\', '"'] := rfl
          rw [henc, List.cons_append, List.cons_append, List.nil_append,
            sjs_bs '"', ih rest]
          simp [hbody]
        · by_cases hc : c.toNat < 32
          · have henc : jsonEncChar c =
                ['\\', 'u', '0', '0', hexDigitChar (c.toNat / 16),
                 hexDigitChar (c.toNat % 16)] := by
              simp [jsonEncChar, hb, hq, hc]
            have hdiv := hexDigitChar_plain (c.toNat / 16) (by omega)
            have hmod := hexDigitChar_plain (c.toNat % 16) (Nat.mod_lt _ (by omega))
            rw [henc]
            simp only [List.cons_append, List.nil_append]
            rw [sjs_bs 'u', sjs_plain '0' (by decide) (by decide),
              sjs_plain '0' (by decide) (by decide),
              sjs_plain _ hdiv.1 hdiv.2, sjs_plain _ hmod.1 hmod.2, ih rest]
            simp [hbody]
          · have henc : jsonEncChar c = [c] := by
              simp [jsonEncChar, hb, hq, hc]
            rw [henc, List.singleton_append, sjs_plain c hb hq, ih rest]
            simp [hbody]

theorem isPrefixOf_cons_ne (a b : Char) (pat l : List Char) (h : a ≠ b) :
    (a :: pat).isPrefixOf (b :: l) = false := by
  simp [List.isPrefixOf_cons₂, h]

theorem isPrefixOf_append_self (pat ys : List Char) :
    pat.isPrefixOf (pat ++ ys) = true := by
  induction pat with
  | nil => simp
  | cons a as ih => simp [List.isPrefixOf_cons₂, ih]

theorem digit_ne (c x : Char) (h : c.isDigit = true) (hx : x.isDigit = false) :
    c ≠ x := by
  intro heq
  subst heq
  rw [h] at hx
  exact Bool.noConfusion hx

theorem digit_not_ws (c : Char) (h : c.isDigit = true) : isJsonWs c = false := by
  have h1 := digit_ne c ' ' h (by decide)
  have h2 := digit_ne c '\t' h (by decide)
  have h3 := digit_ne c '\n' h (by decide)
  have h4 := digit_ne c '\r' h (by decide)
  simp [isJsonWs, h1, h2, h3, h4]

theorem dropWhile_ws_cons (c : Char) (l : List Char) (h : isJsonWs c = false) :
    (c :: l).dropWhile isJsonWs = c :: l := by
  simp [List.dropWhile_cons, h]

theorem serFuel_pos (v : Json) : 1 ≤ serFuel v := by
  cases v <;> simp [serFuel] <;> omega

theorem serFuelList_pos (xs : List Json) : 1 ≤ serFuelList xs := by
  cases xs <;> simp [serFuelList] <;> omega

theorem serFuelObj_pos (kvs : List JsonKV) : 1 ≤ serFuelObj kvs := by
  cases kvs <;> simp [serFuelObj] <;> omega

theorem ser_head (v : Json) :
    ∃ c tail, serializeJson v = c :: tail ∧ isJsonWs c = false ∧
      c ≠ ']' ∧ c ≠ '\x7d' := by
  cases v with
  | null => exact ⟨'n', _, rfl, by decide, by decide, by decide⟩
  | bool b =>
      cases b
      · exact ⟨'f', _, rfl, by decide, by decide, by decide⟩
      · exact ⟨'t', _, rfl, by decide, by decide, by decide⟩
  | num n =>
      show ∃ c tail, intToChars n = c :: tail ∧ _
      unfold intToChars
      by_cases hn : n < 0
      · rw [if_pos hn]
        exact ⟨'-', _, rfl, by decide, by decide, by decide⟩
      · rw [if_neg hn]
        obtain ⟨c, cs, hc⟩ := natToChars_cons n.toNat
        have hd : c.isDigit = true :=
          natToChars_digits n.toNat c (hc ▸ List.mem_cons_self c cs)
        exact ⟨c, cs, hc, digit_not_ws c hd, digit_ne c ']' hd (by decide),
          digit_ne c '\x7d' hd (by decide)⟩
  | str s => exact ⟨'"', _, rfl, by decide, by decide, by decide⟩
  | arr xs => exact ⟨'[', _, rfl, by decide, by decide, by decide⟩
  | obj kvs => exact ⟨'\x7b', _, rfl, by decide, by decide, by decide⟩

theorem noDig_cons (c : Char) (l : List Char) (h : c.isDigit = false) :
    ∀ d, (c :: l).head? = some d → d.isDigit = false := by
  intro d hd
  injection hd with h2
  subst h2
  exact h

theorem hexDigitChar_ne_brackets (m : Nat) (h : m < 16) :
    hexDigitChar m ≠ '[' ∧ hexDigitChar m ≠ ']' := by
  interval_cases m <;> exact ⟨by decide, by decide⟩


theorem parse_ser_all (fuel : Nat) :
    (∀ v rest, serFuel v ≤ fuel →
      (∀ d, rest.head? = some d → d.isDigit = false) →
      parseJsonVal fuel (serializeJson v ++ rest) = some (v, rest))
    ∧ (∀ xs rest, xs ≠ [] → serFuelList xs ≤ fuel →
      parseJsonArrayLoop fuel (serializeJsonList xs ++ ']' :: rest) =
        some (xs, rest))
    ∧ (∀ kvs rest, kvs ≠ [] → serFuelObj kvs ≤ fuel →
      parseJsonObjLoop fuel (serializeJsonObj kvs ++ '\x7d' :: rest) =
        some (kvs, rest)) := by
  induction fuel with
  | zero =>
      refine ⟨fun v rest hf _ => ?_, fun xs rest hne hf => ?_,
        fun kvs rest hne hf => ?_⟩
      · have := serFuel_pos v
        omega
      · have := serFuelList_pos xs
        omega
      · have := serFuelObj_pos kvs
        omega
  | succ f ih =>
      obtain ⟨ihv, iha, iho⟩ := ih
      refine ⟨?_, ?_, ?_⟩
      · intro v rest hf hnd
        cases v with
        | null =>
            rw [parseJsonVal]
            have hser : serializeJson Json.null = ['n', 'u', 'l', 'l'] := rfl
            rw [hser]
            simp only [List.cons_append, List.nil_append]
            rw [dropWhile_ws_cons _ _ (by decide)]
            simp [List.isPrefixOf_cons₂]
        | bool b =>
            rw [parseJsonVal]
            cases b
            · have hser : serializeJson (Json.bool false) =
                  ['f', 'a', 'l', 's', 'e'] := rfl
              rw [hser]
              simp only [List.cons_append, List.nil_append]
              rw [dropWhile_ws_cons _ _ (by decide)]
              simp [List.isPrefixOf_cons₂]
            · have hser : serializeJson (Json.bool true) =
                  ['t', 'r', 'u', 'e'] := rfl
              rw [hser]
              simp only [List.cons_append, List.nil_append]
              rw [dropWhile_ws_cons _ _ (by decide)]
              simp [List.isPrefixOf_cons₂]
        | num n =>
            rw [parseJsonVal]
            by_cases hn : n < 0
            · have hser : serializeJson (Json.num n) = '-' :: natToChars n.natAbs := by
                show intToChars n = _
                unfold intToChars
                rw [if_pos hn]
              rw [hser]
              simp only [List.cons_append]
              rw [dropWhile_ws_cons _ _ (by decide)]
              obtain ⟨c0, cs0, hc0⟩ := natToChars_cons n.natAbs
              have htake : (c0 :: (cs0 ++ rest)).takeWhile Char.isDigit =
                  c0 :: cs0 := by
                rw [show c0 :: (cs0 ++ rest) = natToChars n.natAbs ++ rest by
                  rw [hc0, List.cons_append]]
                rw [takeWhile_all_append _ _ _ (natToChars_digits _) hnd, hc0]
              have hdrop : (c0 :: (cs0 ++ rest)).dropWhile Char.isDigit = rest := by
                rw [show c0 :: (cs0 ++ rest) = natToChars n.natAbs ++ rest by
                  rw [hc0, List.cons_append]]
                exact dropWhile_all_append _ _ _ (natToChars_digits _) hnd
              have hval : digitsVal (c0 :: cs0) = n.natAbs := by
                rw [← hc0]
                exact natToChars_val _
              have hneg : -(n.natAbs : Int) = n := by omega
              simp [hc0, htake, hdrop, hval, hneg]
              rw [abs_of_neg hn]
              ring
            · have hser : serializeJson (Json.num n) = natToChars n.toNat := by
                show intToChars n = _
                unfold intToChars
                rw [if_neg hn]
              obtain ⟨c0, cs0, hc0⟩ := natToChars_cons n.toNat
              have hd : c0.isDigit = true :=
                natToChars_digits n.toNat c0 (hc0 ▸ List.mem_cons_self c0 cs0)
              rw [hser, hc0]
              simp only [List.cons_append]
              rw [dropWhile_ws_cons _ _ (digit_not_ws c0 hd)]
              have hasm : c0 :: (cs0 ++ rest) = natToChars n.toNat ++ rest := by
                rw [hc0, List.cons_append]
              have htake : (c0 :: (cs0 ++ rest)).takeWhile Char.isDigit =
                  c0 :: cs0 := by
                rw [hasm, takeWhile_all_append _ _ _ (natToChars_digits _) hnd, hc0]
              have hdrop : (c0 :: (cs0 ++ rest)).dropWhile Char.isDigit = rest := by
                rw [hasm]
                exact dropWhile_all_append _ _ _ (natToChars_digits _) hnd
              have hval : digitsVal (c0 :: cs0) = n.toNat := by
                rw [← hc0]
                exact natToChars_val _
              have hcast : (n.toNat : Int) = n := by omega
              simp [(digit_ne c0 'n' hd (by decide)).symm,
                (digit_ne c0 't' hd (by decide)).symm,
                (digit_ne c0 'f' hd (by decide)).symm,
                digit_ne c0 '"' hd (by decide),
                digit_ne c0 '[' hd (by decide), digit_ne c0 '\x7b' hd (by decide),
                digit_ne c0 '-' hd (by decide), hd, htake, hdrop, hval, hcast]
        | str s =>
            rw [parseJsonVal]
            have hser : serializeJson (Json.str s) =
                '"' :: (jsonEncStrBody s ++ ['"']) := rfl
            rw [hser]
            simp only [List.cons_append, List.append_assoc, List.singleton_append]
            rw [dropWhile_ws_cons _ _ (by decide)]
            simp [List.isPrefixOf_cons₂, parseJsonString_enc s rest]
        | arr xs =>
            rw [parseJsonVal]
            have hser : serializeJson (Json.arr xs) =
                '[' :: (serializeJsonList xs ++ [']']) := rfl
            rw [hser]
            simp only [List.cons_append, List.append_assoc,
              List.singleton_append, List.nil_append]
            rw [dropWhile_ws_cons _ _ (by decide)]
            cases xs with
            | nil =>
                have hL : serializeJsonList ([] : List Json) = [] := rfl
                rw [hL]
                simp only [List.nil_append]
                simp [List.isPrefixOf_cons₂,
                  dropWhile_ws_cons ']' rest (by decide)]
            | cons x xs2 =>
                obtain ⟨c1, t1, hch, hcw, hcrb, hcob⟩ := ser_head x
                have hfl : serFuelList (x :: xs2) ≤ f := by
                  simp only [serFuel] at hf
                  omega
                have hshape : ∃ t2, serializeJsonList (x :: xs2) =
                    c1 :: (t1 ++ t2) := by
                  cases xs2 with
                  | nil => exact ⟨[], by simp [serializeJsonList, hch]⟩
                  | cons y ys =>
                      exact ⟨',' :: serializeJsonList (y :: ys), by
                        show serializeJson x ++ _ = _
                        rw [hch]
                        simp⟩
                obtain ⟨t2, ht2⟩ := hshape
                have hdw2 : (serializeJsonList (x :: xs2) ++ ']' :: rest).dropWhile
                    isJsonWs = serializeJsonList (x :: xs2) ++ ']' :: rest := by
                  rw [ht2, List.cons_append]
                  exact dropWhile_ws_cons _ _ hcw
                have harr := iha (x :: xs2) rest (by simp) hfl
                simp [List.isPrefixOf_cons₂, hdw2, harr]
                rw [ht2]
                simp only [List.cons_append]
                split
                · rename_i r2 heq
                  injection heq with h1 h2
                  exact absurd h1 hcrb
                · simp
        | obj kvs =>
            rw [parseJsonVal]
            have hser : serializeJson (Json.obj kvs) =
                '\x7b' :: (serializeJsonObj kvs ++ ['\x7d']) := rfl
            rw [hser]
            simp only [List.cons_append, List.append_assoc,
              List.singleton_append, List.nil_append]
            rw [dropWhile_ws_cons _ _ (by decide)]
            cases kvs with
            | nil =>
                have hL : serializeJsonObj ([] : List JsonKV) = [] := rfl
                rw [hL]
                simp only [List.nil_append]
                simp [List.isPrefixOf_cons₂,
                  dropWhile_ws_cons '\x7d' rest (by decide)]
            | cons kv kvs2 =>
                have hfo : serFuelObj (kv :: kvs2) ≤ f := by
                  simp only [serFuel] at hf
                  omega
                obtain ⟨k, v⟩ := kv
                have hshape : ∃ t2, serializeJsonObj (JsonKV.mk k v :: kvs2) =
                    '"' :: ((jsonEncStrBody k ++ '"' :: (':' :: serializeJson v))
                      ++ t2) := by
                  cases kvs2 with
                  | nil =>
                      refine ⟨[], ?_⟩
                      show serializeJsonKV (JsonKV.mk k v) = _
                      show jsonEncStr k ++ ':' :: serializeJson v = _
                      simp [jsonEncStr]
                  | cons kv2 kvs3 =>
                      refine ⟨',' :: serializeJsonObj (kv2 :: kvs3), ?_⟩
                      show serializeJsonKV (JsonKV.mk k v) ++ _ = _
                      show (jsonEncStr k ++ ':' :: serializeJson v) ++ _ = _
                      simp [jsonEncStr]
                obtain ⟨t2, ht2⟩ := hshape
                have hdw2 : (serializeJsonObj (JsonKV.mk k v :: kvs2) ++
                    '\x7d' :: rest).dropWhile isJsonWs =
                    serializeJsonObj (JsonKV.mk k v :: kvs2) ++ '\x7d' :: rest := by
                  rw [ht2, List.cons_append]
                  exact dropWhile_ws_cons _ _ (by decide)
                have hobj := iho (JsonKV.mk k v :: kvs2) rest (by simp) hfo
                simp [List.isPrefixOf_cons₂, hdw2, hobj]
                rw [ht2]
                simp only [List.cons_append]
                split
                · rename_i r2 heq
                  injection heq with h1 h2
                  exact absurd h1 (by decide)
                · simp
      · intro xs rest hne hf
        match xs, hne with
        | x :: xs2, _ =>
            rw [parseJsonArrayLoop]
            cases xs2 with
            | nil =>
                have hL : serializeJsonList [x] = serializeJson x := rfl
                have hfx : serFuel x ≤ f := by
                  simp only [serFuelList] at hf
                  omega
                simp [hL, ihv x (']' :: rest) hfx (noDig_cons _ _ (by decide)),
                  dropWhile_ws_cons, isJsonWs]
            | cons y ys =>
                have hL : serializeJsonList (x :: y :: ys) =
                    serializeJson x ++ ',' :: serializeJsonList (y :: ys) := rfl
                have hfx : serFuel x ≤ f := by
                  simp only [serFuelList] at hf
                  omega
                have hfl2 : serFuelList (y :: ys) ≤ f := by
                  simp only [serFuelList] at hf ⊢
                  omega
                rw [hL]
                simp only [List.append_assoc, List.cons_append]
                simp [ihv x (',' :: (serializeJsonList (y :: ys) ++ ']' :: rest))
                    hfx (noDig_cons _ _ (by decide)),
                  iha (y :: ys) rest (by simp) hfl2,
                  dropWhile_ws_cons, isJsonWs]
      · intro kvs rest hne hf
        match kvs, hne with
        | JsonKV.mk k v :: kvs2, _ =>
            rw [parseJsonObjLoop]
            have hkv : serializeJsonKV (JsonKV.mk k v) =
                '"' :: (jsonEncStrBody k ++ '"' :: ':' :: serializeJson v) := by
              show jsonEncStr k ++ ':' :: serializeJson v = _
              simp [jsonEncStr]
            have hfv : serFuel v ≤ f := by
              simp only [serFuelObj, serFuelKV] at hf
              omega
            cases kvs2 with
            | nil =>
                have hL : serializeJsonObj [JsonKV.mk k v] =
                    serializeJsonKV (JsonKV.mk k v) := rfl
                rw [hL, hkv]
                simp only [List.cons_append, List.append_assoc]
                simp [parseJsonString_enc k,
                  ihv v ('\x7d' :: rest) hfv (noDig_cons _ _ (by decide)),
                  dropWhile_ws_cons, isJsonWs]
            | cons kv2 kvs3 =>
                have hL : serializeJsonObj (JsonKV.mk k v :: kv2 :: kvs3) =
                    serializeJsonKV (JsonKV.mk k v) ++ ',' ::
                      serializeJsonObj (kv2 :: kvs3) := rfl
                have hfo2 : serFuelObj (kv2 :: kvs3) ≤ f := by
                  simp only [serFuelObj] at hf ⊢
                  omega
                rw [hL, hkv]
                simp only [List.cons_append, List.append_assoc]
                simp [parseJsonString_enc k,
                  ihv v (',' :: (serializeJsonObj (kv2 :: kvs3) ++ '\x7d' :: rest))
                    hfv (noDig_cons _ _ (by decide)),
                  iho (kv2 :: kvs3) rest (by simp) hfo2,
                  dropWhile_ws_cons, isJsonWs]

theorem ser_length_pos (v : Json) : 1 ≤ (serializeJson v).length := by
  obtain ⟨c, tail, hc, -⟩ := ser_head v
  rw [hc]
  simp

mutual

theorem serFuel_le_twice (v : Json) : serFuel v ≤ 2 * (serializeJson v).length := by
  cases v with
  | null => decide
  | bool b => cases b <;> decide
  | num n =>
      have := ser_length_pos (Json.num n)
      simp only [serFuel]
      omega
  | str s =>
      have := ser_length_pos (Json.str s)
      simp only [serFuel]
      omega
  | arr xs =>
      have h := serFuelList_le_twice xs
      show 1 + serFuelList xs ≤ 2 * ('[' :: (serializeJsonList xs ++ [']'])).length
      simp only [List.length_cons, List.length_append, List.length_singleton]
      omega
  | obj kvs =>
      have h := serFuelObj_le_twice kvs
      show 1 + serFuelObj kvs ≤ 2 * ('\x7b' :: (serializeJsonObj kvs ++ ['\x7d'])).length
      simp only [List.length_cons, List.length_append, List.length_singleton]
      omega

theorem serFuelList_le_twice (xs : List Json) :
    serFuelList xs ≤ 2 * (serializeJsonList xs).length + 2 := by
  cases xs with
  | nil => decide
  | cons x xs2 =>
      cases xs2 with
      | nil =>
          have h := serFuel_le_twice x
          show 1 + serFuel x + 1 ≤ 2 * (serializeJson x).length + 2
          omega
      | cons y ys =>
          have h1 := serFuel_le_twice x
          have h2 := serFuelList_le_twice (y :: ys)
          show 1 + serFuel x + serFuelList (y :: ys) ≤
            2 * (serializeJson x ++ ',' :: serializeJsonList (y :: ys)).length + 2
          simp only [List.length_append, List.length_cons]
          omega

theorem serFuelKV_le_twice (kv : JsonKV) :
    serFuelKV kv ≤ 2 * (serializeJsonKV kv).length := by
  cases kv with
  | mk k v =>
      have h := serFuel_le_twice v
      show 1 + serFuel v ≤ 2 * (jsonEncStr k ++ ':' :: serializeJson v).length
      simp only [List.length_append, List.length_cons, jsonEncStr]
      omega

theorem serFuelObj_le_twice (kvs : List JsonKV) :
    serFuelObj kvs ≤ 2 * (serializeJsonObj kvs).length + 2 := by
  cases kvs with
  | nil => decide
  | cons kv kvs2 =>
      cases kvs2 with
      | nil =>
          have h := serFuelKV_le_twice kv
          show 1 + serFuelKV kv + 1 ≤ 2 * (serializeJsonKV kv).length + 2
          omega
      | cons kv2 kvs3 =>
          have h1 := serFuelKV_le_twice kv
          have h2 := serFuelObj_le_twice (kv2 :: kvs3)
          show 1 + serFuelKV kv + serFuelObj (kv2 :: kvs3) ≤
            2 * (serializeJsonKV kv ++ ',' :: serializeJsonObj (kv2 :: kvs3)).length + 2
          simp only [List.length_append, List.length_cons]
          omega

end

theorem json_loads_ser (v : Json) : json_loads (serializeJson v) = some v := by
  unfold json_loads
  have h := (parse_ser_all (2 * (serializeJson v).length + 2)).1 v []
    (le_trans (serFuel_le_twice v) (by omega))
    (by intro d hd; simp at hd)
  rw [List.append_nil] at h
  rw [h]
  simp

theorem trailRun_append (xs : List Char) (c : Char) :
    trailRun (xs ++ [c]) = if c = '\\' then trailRun xs + 1 else 0 := by
  unfold trailRun
  rw [List.reverse_append]
  simp only [List.reverse_singleton, List.singleton_append, List.takeWhile_cons]
  by_cases hc : c = '\\'
  · simp [hc]
  · simp [hc]

theorem parity_succ (n : Nat) : (((n + 1) % 2 == 1) : Bool) = !(n % 2 == 1) := by
  rcases Nat.mod_two_eq_zero_or_one n with h | h
  · have h2 : (n + 1) % 2 = 1 := by omega
    simp [h, h2]
  · have h2 : (n + 1) % 2 = 0 := by omega
    simp [h, h2]

theorem escapedAt_succ (payload : List Char) (i : Nat) (c : Char)
    (h : payload.get? i = some c) :
    escapedAt payload (i + 1) =
      (if c = '\\' then !escapedAt payload i else false) := by
  unfold escapedAt
  have h' : payload[i]? = some c := by
    rw [← List.get?_eq_getElem?]
    exact h
  have htake : payload.take (i + 1) = payload.take i ++ [c] := by
    rw [List.take_succ, h']
    rfl
  rw [htake, trailRun_append]
  by_cases hc : c = '\\'
  · simp only [hc, if_pos rfl]
    exact parity_succ _
  · simp [hc]

theorem arrForward_step_default (c : Char) (rest : List Char) (d : Int)
    (inString esc : Bool) (h1 : c ≠ '"')
    (h2 : ¬(inString = false ∧ c = '[')) (h3 : ¬(inString = false ∧ c = ']')) :
    arrForward (c :: rest) d inString esc =
      (arrForward rest d inString (if c = '\\' then !esc else false)).map
        (fun m => m + 1) := by
  rw [arrForward, if_neg h1, if_neg h2, if_neg h3]

theorem arrForward_step_quote (rest : List Char) (d : Int) (inString esc : Bool) :
    arrForward ('"' :: rest) d inString esc =
      (arrForward rest d (if esc then inString else !inString) false).map
        (fun m => m + 1) := by
  rw [arrForward, if_pos rfl]
  simp

theorem arrForward_step_open (rest : List Char) (d : Int) (esc : Bool) :
    arrForward ('[' :: rest) d false esc =
      (arrForward rest (d + 1) false false).map (fun m => m + 1) := by
  rw [arrForward, if_neg (by decide), if_pos ⟨rfl, rfl⟩]
  simp

theorem arrForward_step_close (rest : List Char) (d : Int) (esc : Bool)
    (hd : ¬d - 1 = 0) :
    arrForward (']' :: rest) d false esc =
      (arrForward rest (d - 1) false false).map (fun m => m + 1) := by
  rw [arrForward, if_neg (by decide), if_neg (by simp), if_pos ⟨rfl, rfl⟩,
    if_neg hd]
  simp

theorem arrForward_close_zero (rest : List Char) (d : Int) (esc : Bool)
    (hd : d - 1 = 0) :
    arrForward (']' :: rest) d false esc = some 0 := by
  rw [arrForward, if_neg (by decide), if_neg (by simp), if_pos ⟨rfl, rfl⟩,
    if_pos hd]

theorem arrForward_plain (cs : List Char)
    (h : ∀ c ∈ cs, c ≠ '"' ∧ c ≠ '\\' ∧ c ≠ '[' ∧ c ≠ ']') :
    ∀ (rest : List Char) (d : Int) (inString : Bool),
      arrForward (cs ++ rest) d inString false =
        (arrForward rest d inString false).map
          (fun m => m + cs.length) := by
  induction cs with
  | nil =>
      intro rest d inString
      simp
  | cons c cs2 ih =>
      intro rest d inString
      obtain ⟨h1, h2, h3, h4⟩ := h c (List.mem_cons_self _ _)
      have ih2 := ih (fun x hx => h x (List.mem_cons_of_mem _ hx))
      rw [List.cons_append,
        arrForward_step_default c _ d inString false h1
          (fun hc => h3 hc.2) (fun hc => h4 hc.2)]
      rw [if_neg h2, ih2 rest d inString]
      rcases arrForward rest d inString false with - | m
      · rfl
      · simp
        omega

theorem scanStrBody (s : List Char) :
    ∀ (rest : List Char) (d : Int),
      arrForward (jsonEncStrBody s ++ '"' :: rest) d true false =
        (arrForward rest d false false).map
          (fun m => m + ((jsonEncStrBody s).length + 1)) := by
  induction s with
  | nil =>
      intro rest d
      show arrForward ('"' :: rest) d true false = _
      rw [arrForward_step_quote]
      simp [jsonEncStrBody]
  | cons c s2 ih =>
      intro rest d
      have hbody : jsonEncStrBody (c :: s2) = jsonEncChar c ++ jsonEncStrBody s2 := by
        simp [jsonEncStrBody]
      rw [hbody, List.append_assoc]
      by_cases hb : c = '\\'
      · subst hb
        have henc : jsonEncChar '\\' = ['\\', '\\'] := rfl
        rw [henc]
        simp only [List.cons_append, List.nil_append]
        rw [arrForward_step_default _ _ _ _ _ (by decide) (by simp) (by simp)]
        rw [arrForward_step_default _ _ _ _ _ (by decide) (by simp) (by simp)]
        simp only [reduceIte, ite_self, Bool.not_false, Bool.not_true]
        rw [ih rest d]
        rcases arrForward rest d false false with - | m
        · rfl
        · simp [hbody]
          omega
      · by_cases hq : c = '"'
        · subst hq
          have henc : jsonEncChar '"' = ['\\', '"'] := rfl
          rw [henc]
          simp only [List.cons_append, List.nil_append]
          rw [arrForward_step_default _ _ _ _ _ (by decide) (by simp) (by simp)]
          rw [arrForward_step_quote]
          simp only [reduceIte, ite_self, Bool.not_false, Bool.not_true]
          rw [ih rest d]
          rcases arrForward rest d false false with - | m
          · rfl
          · simp [hbody]
            omega
        · by_cases hc : c.toNat < 32
          · have henc : jsonEncChar c =
                ['\\', 'u', '0', '0', hexDigitChar (c.toNat / 16),
                 hexDigitChar (c.toNat % 16)] := by
              simp [jsonEncChar, hb, hq, hc]
            rw [henc]
            simp only [List.cons_append, List.nil_append]
            rw [arrForward_step_default _ _ _ _ _ (by decide) (by simp) (by simp)]
            rw [arrForward_step_default _ _ _ _ _ (by decide) (by simp) (by simp)]
            simp only [reduceIte, ite_self, Bool.not_false, Bool.not_true]
            have hdiv := hexDigitChar_plain (c.toNat / 16) (by omega)
            have hmod := hexDigitChar_plain (c.toNat % 16) (Nat.mod_lt _ (by omega))
            have hdivb := hexDigitChar_ne_brackets (c.toNat / 16) (by omega)
            have hmodb := hexDigitChar_ne_brackets (c.toNat % 16)
              (Nat.mod_lt _ (by omega))
            have hplain := arrForward_plain
              ['0', '0', hexDigitChar (c.toNat / 16), hexDigitChar (c.toNat % 16)]
              (by
                intro x hx
                simp only [List.mem_cons, List.not_mem_nil, or_false] at hx
                rcases hx with rfl | rfl | rfl | rfl
                · exact ⟨by decide, by decide, by decide, by decide⟩
                · exact ⟨by decide, by decide, by decide, by decide⟩
                · exact ⟨hdiv.2, hdiv.1, hdivb.1, hdivb.2⟩
                · exact ⟨hmod.2, hmod.1, hmodb.1, hmodb.2⟩)
            rw [show ('0' :: '0' :: hexDigitChar (c.toNat / 16) ::
                hexDigitChar (c.toNat % 16) :: (jsonEncStrBody s2 ++ '"' :: rest)) =
                ['0', '0', hexDigitChar (c.toNat / 16), hexDigitChar (c.toNat % 16)]
                  ++ (jsonEncStrBody s2 ++ '"' :: rest) from rfl]
            rw [hplain _ d true, ih rest d]
            rcases arrForward rest d false false with - | m
            · rfl
            · simp [hbody]
              omega
          · have henc : jsonEncChar c = [c] := by
              simp [jsonEncChar, hb, hq, hc]
            rw [henc, List.singleton_append]
            rw [arrForward_step_default _ _ _ _ _ hq (by simp) (by simp)]
            rw [if_neg hb]
            rw [ih rest d]
            rcases arrForward rest d false false with - | m
            · rfl
            · simp [hbody]
              omega

theorem intToChars_plain (n : Int) :
    ∀ c ∈ intToChars n, c ≠ '"' ∧ c ≠ '\\' ∧ c ≠ '[' ∧ c ≠ ']' := by
  intro c hc
  unfold intToChars at hc
  have hdig : ∀ m (c2 : Char), c2 ∈ natToChars m →
      c2 ≠ '"' ∧ c2 ≠ '\\' ∧ c2 ≠ '[' ∧ c2 ≠ ']' := by
    intro m c2 hc2
    have hd := natToChars_digits m c2 hc2
    exact ⟨digit_ne c2 '"' hd (by decide), digit_ne c2 '\\' hd (by decide),
      digit_ne c2 '[' hd (by decide), digit_ne c2 ']' hd (by decide)⟩
  by_cases hn : n < 0
  · rw [if_pos hn] at hc
    rcases List.mem_cons.mp hc with rfl | h
    · exact ⟨by decide, by decide, by decide, by decide⟩
    · exact hdig _ c h
  · rw [if_neg hn] at hc
    exact hdig _ c hc

mutual

theorem scanSer (v : Json) :
    ∀ (rest : List Char) (d : Int), 1 ≤ d →
      arrForward (serializeJson v ++ rest) d false false =
        (arrForward rest d false false).map
          (fun m => m + (serializeJson v).length) := by
  cases v with
  | null =>
      intro rest d hd
      exact arrForward_plain _ (by decide) rest d false
  | bool b =>
      intro rest d hd
      cases b
      · exact arrForward_plain _ (by decide) rest d false
      · exact arrForward_plain _ (by decide) rest d false
  | num n =>
      intro rest d hd
      exact arrForward_plain _ (intToChars_plain n) rest d false
  | str s =>
      intro rest d hd
      show arrForward (('"' :: (jsonEncStrBody s ++ ['"'])) ++ rest) d false false = _
      simp only [List.cons_append, List.append_assoc, List.singleton_append,
        List.nil_append]
      rw [arrForward_step_quote]
      simp only [reduceIte, ite_self, Bool.not_false, Bool.not_true,
        Bool.false_eq_true, Bool.true_eq_false, if_false, if_true, List.nil_append,
        (by decide : ¬('\x7b' : Char) = '\\'), (by decide : ¬(',' : Char) = '\\'),
        (by decide : ¬('\x7d' : Char) = '\\'), (by decide : ¬(':' : Char) = '\\')]
      rw [scanStrBody s rest d]
      have hlen : (serializeJson (Json.str s)).length =
          (jsonEncStrBody s).length + 2 := by
        show (jsonEncStr s).length = _
        simp [jsonEncStr]
      rcases arrForward rest d false false with - | m
      · rfl
      · show _ = Option.map _ (some m)
        simp [hlen]
        omega
  | arr xs =>
      intro rest d hd
      show arrForward (('[' :: (serializeJsonList xs ++ [']'])) ++ rest) d false false = _
      simp only [List.cons_append, List.append_assoc, List.singleton_append,
        List.nil_append]
      rw [arrForward_step_open]
      rw [scanSerList xs (']' :: rest) (d + 1) (by omega)]
      rw [arrForward_step_close _ _ _ (by omega)]
      have hdd : d + 1 - 1 = d := by omega
      rw [hdd]
      have hlen : (serializeJson (Json.arr xs)).length =
          (serializeJsonList xs).length + 2 := by
        show ('[' :: (serializeJsonList xs ++ [']'])).length = _
        simp
      rcases arrForward rest d false false with - | m
      · rfl
      · show _ = Option.map _ (some m)
        simp [hlen]
        omega
  | obj kvs =>
      intro rest d hd
      show arrForward (('\x7b' :: (serializeJsonObj kvs ++ ['\x7d'])) ++ rest) d false false = _
      simp only [List.cons_append, List.append_assoc, List.singleton_append,
        List.nil_append]
      rw [arrForward_step_default _ _ _ _ _ (by decide) (by simp) (by simp)]
      simp only [reduceIte, ite_self, Bool.not_false, Bool.not_true,
        Bool.false_eq_true, Bool.true_eq_false, if_false, if_true, List.nil_append,
        (by decide : ¬('\x7b' : Char) = '\\'), (by decide : ¬(',' : Char) = '\\'),
        (by decide : ¬('\x7d' : Char) = '\\'), (by decide : ¬(':' : Char) = '\\')]
      rw [scanSerObj kvs ('\x7d' :: rest) d hd]
      rw [arrForward_step_default _ _ _ _ _ (by decide) (by simp) (by simp)]
      have hlen : (serializeJson (Json.obj kvs)).length =
          (serializeJsonObj kvs).length + 2 := by
        show ('\x7b' :: (serializeJsonObj kvs ++ ['\x7d'])).length = _
        simp
      simp only [reduceIte, ite_self, Bool.not_false, Bool.not_true,
        Bool.false_eq_true, Bool.true_eq_false, if_false, if_true, List.nil_append,
        (by decide : ¬('\x7b' : Char) = '\\'), (by decide : ¬(',' : Char) = '\\'),
        (by decide : ¬('\x7d' : Char) = '\\'), (by decide : ¬(':' : Char) = '\\')]
      rcases arrForward rest d false false with - | m
      · rfl
      · show _ = Option.map _ (some m)
        simp [hlen]
        omega

theorem scanSerList (xs : List Json) :
    ∀ (rest : List Char) (d : Int), 1 ≤ d →
      arrForward (serializeJsonList xs ++ rest) d false false =
        (arrForward rest d false false).map
          (fun m => m + (serializeJsonList xs).length) := by
  cases xs with
  | nil =>
      intro rest d hd
      show arrForward rest d false false = _
      rcases arrForward rest d false false with - | m
      · rfl
      · show _ = Option.map _ (some m)
        simp [serializeJsonList]
  | cons x xs2 =>
      cases xs2 with
      | nil =>
          intro rest d hd
          show arrForward (serializeJson x ++ rest) d false false = _
          rw [scanSer x rest d hd]
          rfl
      | cons y ys =>
          intro rest d hd
          show arrForward ((serializeJson x ++ ',' ::
            serializeJsonList (y :: ys)) ++ rest) d false false = _
          simp only [List.append_assoc, List.cons_append, List.nil_append]
          rw [scanSer x _ d hd]
          rw [arrForward_step_default _ _ _ _ _ (by decide) (by simp) (by simp)]
          simp only [reduceIte, ite_self, Bool.not_false, Bool.not_true,
        Bool.false_eq_true, Bool.true_eq_false, if_false, if_true, List.nil_append,
        (by decide : ¬('\x7b' : Char) = '\\'), (by decide : ¬(',' : Char) = '\\'),
        (by decide : ¬('\x7d' : Char) = '\\'), (by decide : ¬(':' : Char) = '\\')]
          rw [scanSerList (y :: ys) rest d hd]
          have hlen : (serializeJsonList (x :: y :: ys)).length =
              (serializeJson x).length + 1 + (serializeJsonList (y :: ys)).length := by
            show (serializeJson x ++ ',' :: serializeJsonList (y :: ys)).length = _
            simp
            omega
          rcases arrForward rest d false false with - | m
          · rfl
          · show _ = Option.map _ (some m)
            simp [hlen]
            omega

theorem scanSerKV (kv : JsonKV) :
    ∀ (rest : List Char) (d : Int), 1 ≤ d →
      arrForward (serializeJsonKV kv ++ rest) d false false =
        (arrForward rest d false false).map
          (fun m => m + (serializeJsonKV kv).length) := by
  cases kv with
  | mk k v =>
      intro rest d hd
      show arrForward ((jsonEncStr k ++ ':' :: serializeJson v) ++ rest)
        d false false = _
      simp only [jsonEncStr, List.append_assoc, List.cons_append, List.nil_append]
      rw [arrForward_step_quote]
      simp only [reduceIte, ite_self, Bool.not_false, Bool.not_true,
        Bool.false_eq_true, Bool.true_eq_false, if_false, if_true, List.nil_append,
        (by decide : ¬('\x7b' : Char) = '\\'), (by decide : ¬(',' : Char) = '\\'),
        (by decide : ¬('\x7d' : Char) = '\\'), (by decide : ¬(':' : Char) = '\\')]
      rw [show (jsonEncStrBody k ++ '"' :: ':' :: (serializeJson v ++ rest)) =
        (jsonEncStrBody k ++ '"' :: (':' :: (serializeJson v ++ rest))) from rfl]
      rw [scanStrBody k _ d]
      rw [arrForward_step_default _ _ _ _ _ (by decide) (by simp) (by simp)]
      simp only [reduceIte, ite_self, Bool.not_false, Bool.not_true,
        Bool.false_eq_true, Bool.true_eq_false, if_false, if_true, List.nil_append,
        (by decide : ¬('\x7b' : Char) = '\\'), (by decide : ¬(',' : Char) = '\\'),
        (by decide : ¬('\x7d' : Char) = '\\'), (by decide : ¬(':' : Char) = '\\')]
      rw [scanSer v rest d hd]
      have hlen : (serializeJsonKV (JsonKV.mk k v)).length =
          (jsonEncStrBody k).length + 3 + (serializeJson v).length := by
        show (jsonEncStr k ++ ':' :: serializeJson v).length = _
        simp [jsonEncStr]
        omega
      rcases arrForward rest d false false with - | m
      · rfl
      · show _ = Option.map _ (some m)
        simp [hlen]
        omega

theorem scanSerObj (kvs : List JsonKV) :
    ∀ (rest : List Char) (d : Int), 1 ≤ d →
      arrForward (serializeJsonObj kvs ++ rest) d false false =
        (arrForward rest d false false).map
          (fun m => m + (serializeJsonObj kvs).length) := by
  cases kvs with
  | nil =>
      intro rest d hd
      show arrForward rest d false false = _
      rcases arrForward rest d false false with - | m
      · rfl
      · show _ = Option.map _ (some m)
        simp [serializeJsonObj]
  | cons kv kvs2 =>
      cases kvs2 with
      | nil =>
          intro rest d hd
          show arrForward (serializeJsonKV kv ++ rest) d false false = _
          rw [scanSerKV kv rest d hd]
          rfl
      | cons kv2 kvs3 =>
          intro rest d hd
          show arrForward ((serializeJsonKV kv ++ ',' ::
            serializeJsonObj (kv2 :: kvs3)) ++ rest) d false false = _
          simp only [List.append_assoc, List.cons_append, List.nil_append]
          rw [scanSerKV kv _ d hd]
          rw [arrForward_step_default _ _ _ _ _ (by decide) (by simp) (by simp)]
          simp only [reduceIte, ite_self, Bool.not_false, Bool.not_true,
        Bool.false_eq_true, Bool.true_eq_false, if_false, if_true, List.nil_append,
        (by decide : ¬('\x7b' : Char) = '\\'), (by decide : ¬(',' : Char) = '\\'),
        (by decide : ¬('\x7d' : Char) = '\\'), (by decide : ¬(':' : Char) = '\\')]
          rw [scanSerObj (kv2 :: kvs3) rest d hd]
          have hlen : (serializeJsonObj (kv :: kv2 :: kvs3)).length =
              (serializeJsonKV kv).length + 1 +
                (serializeJsonObj (kv2 :: kvs3)).length := by
            show (serializeJsonKV kv ++ ',' :: serializeJsonObj (kv2 :: kvs3)).length = _
            simp
            omega
          rcases arrForward rest d false false with - | m
          · rfl
          · show _ = Option.map _ (some m)
            simp [hlen]
            omega

end

theorem drop_eq_cons_of_get (payload : List Char) (i : Nat) (c : Char)
    (h : payload.get? i = some c) :
    payload.drop i = c :: payload.drop (i + 1) := by
  have hi : i < payload.length := List.get?_eq_some.mp h |>.1
  rw [List.drop_eq_getElem_cons hi]
  have h2 : payload[i]? = some c := by
    rw [← List.get?_eq_getElem?]
    exact h
  have h3 : payload[i]? = some payload[i] := List.getElem?_eq_getElem hi
  rw [h3] at h2
  injection h2 with h4
  rw [h4]

theorem arrScan_eq_forward (payload : List Char) :
    ∀ (fuel i : Nat) (depth : Int) (inString : Bool),
      payload.length - i < fuel →
      arrScanGo payload fuel i depth inString =
        (arrForward (payload.drop i) depth inString (escapedAt payload i)).map
          (fun m => m + i) := by
  intro fuel
  induction fuel with
  | zero => intro i depth inString h; omega
  | succ f ih =>
      intro i depth inString h
      rcases hg : payload.get? i with - | c
      · simp only [arrScanGo, hg]
        have hlen : payload.length ≤ i := List.get?_eq_none.mp hg
        rw [List.drop_eq_nil_of_le hlen]
        rfl
      · simp only [arrScanGo, hg]
        have hi : i < payload.length := (List.get?_eq_some.mp hg).1
        have hdrop := drop_eq_cons_of_get payload i c hg
        rw [hdrop]
        have hfl : payload.length - (i + 1) < f := by omega
        by_cases hq : c = '"'
        · subst hq
          rw [arrForward_step_quote]
          rw [ih (i + 1) depth _ hfl]
          rw [escapedAt_succ payload i '"' hg]
          simp only [reduceIte, ite_self, Bool.not_false, Bool.not_true,
            Bool.false_eq_true, Bool.true_eq_false, if_false, if_true,
            (by decide : ¬('"' : Char) = '\\')]
          rcases arrForward (payload.drop (i + 1)) depth
              (if escapedAt payload i then inString else !inString) false with - | m
          · rfl
          · simp
            omega
        · by_cases hb : inString = false ∧ c = '['
          · obtain ⟨his, hc⟩ := hb
            subst his
            subst hc
            rw [if_neg hq, if_pos ⟨rfl, rfl⟩]
            rw [arrForward_step_open]
            rw [ih (i + 1) (depth + 1) false hfl]
            rw [escapedAt_succ payload i '[' hg]
            simp only [(by decide : ¬('[' : Char) = '\\'), if_false]
            rcases arrForward (payload.drop (i + 1)) (depth + 1) false false with - | m
            · rfl
            · simp
              omega
          · by_cases hcl : inString = false ∧ c = ']'
            · obtain ⟨his, hc⟩ := hcl
              subst his
              subst hc
              rw [if_neg hq, if_neg hb, if_pos ⟨rfl, rfl⟩]
              by_cases hdz : depth - 1 = 0
              · rw [if_pos hdz, arrForward_close_zero _ _ _ hdz]
                simp
              · rw [if_neg hdz, arrForward_step_close _ _ _ hdz]
                rw [ih (i + 1) (depth - 1) false hfl]
                rw [escapedAt_succ payload i ']' hg]
                simp only [(by decide : ¬(']' : Char) = '\\'), if_false]
                rcases arrForward (payload.drop (i + 1)) (depth - 1) false false with - | m
                · rfl
                · simp
                  omega
            · rw [if_neg hq, if_neg hb, if_neg hcl]
              rw [arrForward_step_default c _ depth inString _ hq hb hcl]
              rw [ih (i + 1) depth inString hfl]
              rw [escapedAt_succ payload i c hg]
              rcases arrForward (payload.drop (i + 1)) depth inString
                  (if c = '\\' then !escapedAt payload i else false) with - | m
              · rfl
              · simp
                omega

theorem findSubIdx_self (pat ys : List Char) :
    findSubIdx pat (pat ++ ys) = some 0 := by
  cases pat with
  | nil =>
      cases ys with
      | nil => rfl
      | cons y ys2 =>
          show findSubIdx [] (y :: ys2) = some 0
          rw [findSubIdx, if_pos (by simp)]
  | cons p ps =>
      have hp : (p :: ps).isPrefixOf (p :: (ps ++ ys)) = true :=
        isPrefixOf_append_self (p :: ps) ys
      show findSubIdx (p :: ps) (p :: (ps ++ ys)) = some 0
      rw [findSubIdx, if_pos hp]

theorem arrForward_ser_arr (A : List Json) (rest : List Char) :
    arrForward (serializeJson (Json.arr A) ++ rest) 0 false false =
      some ((serializeJsonList A).length + 1) := by
  show arrForward (('[' :: (serializeJsonList A ++ [']'])) ++ rest) 0 false false = _
  simp only [List.cons_append, List.append_assoc, List.singleton_append,
    List.nil_append]
  rw [arrForward_step_open]
  rw [scanSerList A (']' :: rest) (0 + 1) (by omega)]
  rw [arrForward_close_zero _ _ _ (by omega)]
  simp

theorem extract_faq_head (A : List Json) :
    (extract_json_arrays_from_text (String.mk (flightPayloadOf A)) "\"faq\":").head?
      = some (String.mk (serializeJson (Json.arr A))) := by
  have hkey : "\"faq\":".toList = ['"', 'f', 'a', 'q', '"', ':'] := rfl
  have hshape : flightPayloadOf A =
      (('\x7b' :: "\"faq\":".toList) ++ serializeJson (Json.arr A)) ++ ['\x7d'] := by
    show '\x7b' :: ("\"faq\":".toList ++ serializeJson (Json.arr A) ++ ['\x7d']) = _
    simp
  have hlen7 : ('\x7b' :: "\"faq\":".toList).length = 7 := rfl
  have hlenpre : (('\x7b' :: "\"faq\":".toList) ++
      serializeJson (Json.arr A)).length =
      (serializeJsonList A).length + 9 := by
    simp only [List.length_append, hlen7]
    show 7 + ('[' :: (serializeJsonList A ++ [']'])).length = _
    simp
    omega
  have hfind1 : findSubIdxFrom "\"faq\":".toList (flightPayloadOf A) 0 = some 1 := by
    unfold findSubIdxFrom
    rw [List.drop_zero]
    have hne : ¬("\"faq\":".toList.isPrefixOf
        ('\x7b' :: ("\"faq\":".toList ++ serializeJson (Json.arr A) ++ ['\x7d']))
          = true) := by
      rw [hkey, isPrefixOf_cons_ne '"' '\x7b' _ _ (by decide)]
      simp
    have hstep : findSubIdx "\"faq\":".toList (flightPayloadOf A) = some 1 := by
      show findSubIdx "\"faq\":".toList
        ('\x7b' :: ("\"faq\":".toList ++ serializeJson (Json.arr A) ++ ['\x7d'])) = _
      rw [findSubIdx, if_neg hne, List.append_assoc, findSubIdx_self]
      rfl
    rw [hstep]
    rfl
  have hfind2 : findSubIdxFrom ['['] (flightPayloadOf A)
      (1 + ("\"faq\":".toList).length) = some 7 := by
    unfold findSubIdxFrom
    have h16 : 1 + ("\"faq\":".toList).length = 7 := rfl
    rw [h16, hshape, List.append_assoc, List.drop_left' hlen7]
    have hstep : findSubIdx ['['] (serializeJson (Json.arr A) ++ ['\x7d']) =
        some 0 := by
      have hp : (['['] : List Char).isPrefixOf
          ('[' :: ((serializeJsonList A ++ [']']) ++ ['\x7d'])) = true := by
        simp [List.isPrefixOf_cons₂]
      show findSubIdx ['['] (('[' :: (serializeJsonList A ++ [']'])) ++ ['\x7d']) = _
      rw [List.cons_append, findSubIdx, if_pos hp]
    rw [hstep]
    rfl
  have hescape : escapedAt (flightPayloadOf A) 7 = false := by
    unfold escapedAt
    rw [hshape, List.append_assoc, List.take_left' hlen7]
    rfl
  have hdrop7 : (flightPayloadOf A).drop 7 =
      serializeJson (Json.arr A) ++ ['\x7d'] := by
    rw [hshape, List.append_assoc, List.drop_left' hlen7]
  have hscan : arrScanGo (flightPayloadOf A) ((flightPayloadOf A).length + 1)
      7 0 false = some ((serializeJsonList A).length + 8) := by
    rw [arrScan_eq_forward (flightPayloadOf A) _ 7 0 false (by omega)]
    rw [hdrop7, hescape, arrForward_ser_arr]
    show some ((serializeJsonList A).length + 1 + 7) = _
    norm_num
  have hslice : ((flightPayloadOf A).take
      ((serializeJsonList A).length + 8 + 1)).drop 7
      = serializeJson (Json.arr A) := by
    rw [hshape]
    have h9 : (serializeJsonList A).length + 8 + 1 =
        (('\x7b' :: "\"faq\":".toList) ++ serializeJson (Json.arr A)).length := by
      rw [hlenpre]
    rw [h9, List.take_left']
    · rw [List.drop_left' hlen7]
    · rfl
  unfold extract_json_arrays_from_text
  have htl : (String.mk (flightPayloadOf A)).toList = flightPayloadOf A := rfl
  rw [htl]
  rw [show (flightPayloadOf A).length + 2 =
    ((flightPayloadOf A).length + 1) + 1 from rfl]
  rw [extractArraysOuter]
  simp only [hfind1, hfind2, hscan, hslice]
  simp

theorem findSubIdx_cons_neg (pat : List Char) (c : Char) (l : List Char)
    (h : pat.isPrefixOf (c :: l) = false) :
    findSubIdx pat (c :: l) = (findSubIdx pat l).map (fun k => k + 1) := by
  rw [findSubIdx, if_neg (by simp [h])]

theorem findSubAfter_isSome (pat : List Char) :
    ∀ (xs ys : List Char), (findSubAfter pat (xs ++ (pat ++ ys))).isSome = true := by
  intro xs
  induction xs with
  | nil =>
      intro ys
      cases hp : pat with
      | nil =>
          cases ys with
          | nil => rfl
          | cons y ys2 => rfl
      | cons p ps =>
          have h : (p :: ps).isPrefixOf (p :: (ps ++ ys)) = true := by
            have h2 := isPrefixOf_append_self (p :: ps) ys
            simpa using h2
          show (findSubAfter (p :: ps) (p :: (ps ++ ys))).isSome = true
          rw [findSubAfter, if_pos h]
          rfl
  | cons x xs2 ih =>
      intro ys
      show (findSubAfter pat (x :: (xs2 ++ (pat ++ ys)))).isSome = true
      rw [findSubAfter]
      by_cases hp : pat.isPrefixOf (x :: (xs2 ++ (pat ++ ys))) = true
      · rw [if_pos hp]
        rfl
      · rw [if_neg hp]
        exact ih ys

theorem depthScan_plain (fuel : Nat) (c : Char) (cs : List Char) (d : Int)
    (h1 : c ≠ '"') (h2 : c ≠ '[') (h3 : c ≠ ']') :
    depthScan (fuel + 1) (c :: cs) d =
      (depthScan fuel cs d).map (fun m => m + 1) := by
  rw [depthScan, if_neg h1, if_neg h2, if_neg h3]

theorem depthScan_quote_some (fuel : Nat) (cs : List Char) (d : Int) (k : Nat)
    (h : sjs cs = some k) :
    depthScan (fuel + 1) ('"' :: cs) d =
      (depthScan fuel (cs.drop (k + 1)) d).map (fun m => m + k + 2) := by
  rw [depthScan, if_pos rfl, h]

theorem depthScan_close_zero (fuel : Nat) (cs : List Char) (d : Int)
    (h : d - 1 = 0) :
    depthScan (fuel + 1) (']' :: cs) d = some 0 := by
  rw [depthScan, if_neg (by decide), if_neg (by decide), if_pos rfl, if_pos h]

theorem flightJGo_rem_zero (fuel : Nat) (cs : List Char) :
    flightJGo fuel cs 0 = [] := by
  cases fuel with
  | zero => rw [flightJGo]
  | succ f =>
      cases cs with
      | nil => simp [flightJGo]
      | cons c rest => simp [flightJGo]

theorem flightJGo_plain (fuel : Nat) (c : Char) (cs : List Char) (rem : Nat)
    (h : c ≠ '"') (hr : ¬rem = 0) :
    flightJGo (fuel + 1) (c :: cs) rem = flightJGo fuel cs (rem - 1) := by
  simp only [flightJGo, if_neg hr, if_neg h]

theorem flightJGo_quote_str (fuel : Nat) (cs : List Char) (rem : Nat) (k : Nat)
    (s : List Char) (h : sjs cs = some k) (hr : ¬rem = 0)
    (hj : json_loads (('"' :: cs).take (k + 2)) = some (Json.str s)) :
    flightJGo (fuel + 1) ('"' :: cs) rem =
      s :: flightJGo fuel (('"' :: cs).drop (k + 2)) (rem - (k + 2)) := by
  simp only [flightJGo, if_neg hr, if_pos rfl, h, flightLit, hj, flightKeep,
    reduceIte]

theorem flightDoc_shape (A : List Json) :
    flightDocOf A =
      ['<','s','c','r','i','p','t','>'] ++
        (NEXT_FLIGHT_NEEDLE.toList ++
          ('1' :: ',' :: '"' ::
            (jsonEncStrBody (flightPayloadOf A) ++
              ('"' :: ']' :: ')' :: "</script>".toList)))) := by
  unfold flightDocOf
  rw [jsonEncStr]
  simp [List.cons_append, List.append_assoc]

theorem findSubIdx_needle (A : List Json) :
    findSubIdx NEXT_FLIGHT_NEEDLE.toList (flightDocOf A) = some 8 := by
  have hN : NEXT_FLIGHT_NEEDLE.toList =
      ['s', 'e', 'l', 'f', '.', '_', '_', 'n', 'e', 'x', 't', '_', 'f', '.',
       'p', 'u', 's', 'h', '(', '['] := rfl
  rw [flightDoc_shape]
  simp only [List.cons_append, List.nil_append]
  iterate 8
    rw [findSubIdx_cons_neg _ _ _
      (by rw [hN]; simp [List.isPrefixOf_cons₂])]
  rw [findSubIdx_self]
  rfl

theorem flightDoc_len (A : List Json) :
    (flightDocOf A).length =
      (jsonEncStrBody (flightPayloadOf A)).length + 43 := by
  rw [flightDoc_shape]
  have hNlen : NEXT_FLIGHT_NEEDLE.toList.length = 20 := rfl
  have hSlen : "</script>".toList.length = 9 := rfl
  have hNlen2 : NEXT_FLIGHT_NEEDLE.length = 20 := rfl
  simp [List.length_append, hNlen, hSlen, hNlen2]
  omega

theorem flightDoc_drop28 (A : List Json) :
    (flightDocOf A).drop 28 =
      '1' :: ',' :: '"' ::
        (jsonEncStrBody (flightPayloadOf A) ++
          ('"' :: ']' :: ')' :: "</script>".toList)) := by
  rw [flightDoc_shape, ← List.append_assoc]
  exact List.drop_left' rfl

theorem flightDoc_depthScan (A : List Json) :
    depthScan ((flightDocOf A).length + 1) ((flightDocOf A).drop 28) 1 =
      some ((jsonEncStrBody (flightPayloadOf A)).length + 4) := by
  have hfu : (flightDocOf A).length + 1 =
      ((jsonEncStrBody (flightPayloadOf A)).length + 40) + 1 + 1 + 1 + 1 := by
    rw [flightDoc_len]
  rw [hfu, flightDoc_drop28]
  rw [depthScan_plain _ _ _ _ (by decide) (by decide) (by decide)]
  rw [depthScan_plain _ _ _ _ (by decide) (by decide) (by decide)]
  rw [depthScan_quote_some _ _ _ _
    (sjs_enc (flightPayloadOf A) (']' :: ')' :: "</script>".toList))]
  have hd : (jsonEncStrBody (flightPayloadOf A) ++
        ('"' :: ']' :: ')' :: "</script>".toList)).drop
      ((jsonEncStrBody (flightPayloadOf A)).length + 1) =
      ']' :: ')' :: "</script>".toList := by
    rw [show jsonEncStrBody (flightPayloadOf A) ++
        ('"' :: ']' :: ')' :: "</script>".toList) =
        (jsonEncStrBody (flightPayloadOf A) ++ ['"']) ++
          (']' :: ')' :: "</script>".toList) by simp]
    exact List.drop_left' (by simp)
  rw [hd]
  rw [depthScan_close_zero _ _ _ (by decide)]
  simp

theorem flightDoc_drop27 (A : List Json) :
    (flightDocOf A).drop 27 =
      '[' :: '1' :: ',' :: '"' ::
        (jsonEncStrBody (flightPayloadOf A) ++
          ('"' :: ']' :: ')' :: "</script>".toList)) := by
  rw [flightDoc_shape]
  rw [show (['<','s','c','r','i','p','t','>'] ++
      (NEXT_FLIGHT_NEEDLE.toList ++
        ('1' :: ',' :: '"' ::
          (jsonEncStrBody (flightPayloadOf A) ++
            ('"' :: ']' :: ')' :: "</script>".toList))))) =
      (['<','s','c','r','i','p','t','>','s','e','l','f','.','_','_','n',
        'e','x','t','_','f','.','p','u','s','h','('] ++
        ('[' :: '1' :: ',' :: '"' ::
          (jsonEncStrBody (flightPayloadOf A) ++
            ('"' :: ']' :: ')' :: "</script>".toList)))) from rfl]
  exact List.drop_left' rfl

theorem flightDoc_jgo (A : List Json) :
    flightJGo ((flightDocOf A).length + 2) ((flightDocOf A).drop 27)
      ((jsonEncStrBody (flightPayloadOf A)).length + 6) =
      [flightPayloadOf A] := by
  have hfu : (flightDocOf A).length + 2 =
      ((jsonEncStrBody (flightPayloadOf A)).length + 40) + 1 + 1 + 1 + 1 + 1 := by
    rw [flightDoc_len]
  rw [hfu, flightDoc_drop27]
  rw [flightJGo_plain _ _ _ _ (by decide) (by omega)]
  rw [flightJGo_plain _ _ _ _ (by decide) (by omega)]
  rw [flightJGo_plain _ _ _ _ (by decide) (by omega)]
  have htake : ('"' :: (jsonEncStrBody (flightPayloadOf A) ++
        ('"' :: ']' :: ')' :: "</script>".toList))).take
      ((jsonEncStrBody (flightPayloadOf A)).length + 1 + 1) =
      jsonEncStr (flightPayloadOf A) := by
    rw [List.take_succ_cons]
    rw [show jsonEncStrBody (flightPayloadOf A) ++
        ('"' :: ']' :: ')' :: "</script>".toList) =
        (jsonEncStrBody (flightPayloadOf A) ++ ['"']) ++
          (']' :: ')' :: "</script>".toList) by simp]
    rw [show (jsonEncStrBody (flightPayloadOf A)).length + 1 =
        (jsonEncStrBody (flightPayloadOf A) ++ ['"']).length by simp]
    rw [List.take_left]
    rfl
  have hjson : json_loads (('"' :: (jsonEncStrBody (flightPayloadOf A) ++
        ('"' :: ']' :: ')' :: "</script>".toList))).take
      ((jsonEncStrBody (flightPayloadOf A)).length + 2)) =
      some (Json.str (flightPayloadOf A)) := by
    rw [show (jsonEncStrBody (flightPayloadOf A)).length + 2 =
        (jsonEncStrBody (flightPayloadOf A)).length + 1 + 1 from rfl]
    rw [htake]
    exact json_loads_ser (Json.str (flightPayloadOf A))
  rw [flightJGo_quote_str _ _ _ _ _
    (sjs_enc (flightPayloadOf A) (']' :: ')' :: "</script>".toList))
    (by omega) hjson]
  have hdropq : ('"' :: (jsonEncStrBody (flightPayloadOf A) ++
        ('"' :: ']' :: ')' :: "</script>".toList))).drop
      ((jsonEncStrBody (flightPayloadOf A)).length + 2) =
      ']' :: ')' :: "</script>".toList := by
    rw [show (jsonEncStrBody (flightPayloadOf A)).length + 2 =
        (jsonEncStrBody (flightPayloadOf A)).length + 1 + 1 from rfl]
    rw [List.drop_succ_cons]
    rw [show jsonEncStrBody (flightPayloadOf A) ++
        ('"' :: ']' :: ')' :: "</script>".toList) =
        (jsonEncStrBody (flightPayloadOf A) ++ ['"']) ++
          (']' :: ')' :: "</script>".toList) by simp]
    exact List.drop_left' (by simp)
  rw [hdropq]
  rw [flightJGo_plain _ _ _ _ (by decide) (by omega)]
  rw [show (jsonEncStrBody (flightPayloadOf A)).length + 6 - 1 - 1 - 1 -
      ((jsonEncStrBody (flightPayloadOf A)).length + 2) - 1 = 0 by omega]
  rw [flightJGo_rem_zero]

theorem flightDoc_drop33 (A : List Json) :
    (flightDocOf A).drop ((jsonEncStrBody (flightPayloadOf A)).length + 33) =
      ')' :: "</script>".toList := by
  rw [flightDoc_shape]
  rw [show (['<','s','c','r','i','p','t','>'] ++
      (NEXT_FLIGHT_NEEDLE.toList ++
        ('1' :: ',' :: '"' ::
          (jsonEncStrBody (flightPayloadOf A) ++
            ('"' :: ']' :: ')' :: "</script>".toList))))) =
      ((['<','s','c','r','i','p','t','>'] ++
        (NEXT_FLIGHT_NEEDLE.toList ++
          ('1' :: ',' :: '"' ::
            (jsonEncStrBody (flightPayloadOf A) ++ ['"', ']'])))) ++
        (')' :: "</script>".toList)) by
    simp [List.cons_append, List.append_assoc]]
  refine List.drop_left' ?h
  have hNlen : NEXT_FLIGHT_NEEDLE.toList.length = 20 := rfl
  have hNlen2 : NEXT_FLIGHT_NEEDLE.length = 20 := rfl
  simp [List.length_append, hNlen, hNlen2]
  omega

theorem flightDoc_find33 (A : List Json) :
    findSubIdxFrom NEXT_FLIGHT_NEEDLE.toList (flightDocOf A)
      ((jsonEncStrBody (flightPayloadOf A)).length + 33) = none := by
  unfold findSubIdxFrom
  rw [flightDoc_drop33]
  rw [show findSubIdx NEXT_FLIGHT_NEEDLE.toList
      (')' :: "</script>".toList) = none from rfl]
  rfl

theorem flight_outer_doc (A : List Json) :
    flightOuter (flightDocOf A) NEXT_FLIGHT_NEEDLE.toList
      ((flightDocOf A).length + 2) 0 = [flightPayloadOf A] := by
  have hNlen : NEXT_FLIGHT_NEEDLE.toList.length = 20 := rfl
  have hplen : pushCallText.length = 19 := rfl
  have hfind0 : findSubIdxFrom NEXT_FLIGHT_NEEDLE.toList (flightDocOf A) 0 =
      some 8 := by
    unfold findSubIdxFrom
    rw [List.drop_zero, findSubIdx_needle]
    rfl
  rw [show (flightDocOf A).length + 2 = ((flightDocOf A).length + 1) + 1
    from rfl]
  rw [flightOuter]
  rw [hfind0]
  simp only [hNlen, Nat.reduceAdd]
  rw [flightDoc_depthScan]
  simp only [hplen, Nat.reduceAdd]
  rw [show 28 + ((jsonEncStrBody (flightPayloadOf A)).length + 4) + 1 - 27 =
      (jsonEncStrBody (flightPayloadOf A)).length + 6 by omega]
  rw [show (flightDocOf A).length + 1 + 1 = (flightDocOf A).length + 2
    from rfl]
  rw [flightDoc_jgo]
  rw [show 28 + ((jsonEncStrBody (flightPayloadOf A)).length + 4) + 1 =
      (jsonEncStrBody (flightPayloadOf A)).length + 33 by omega]
  rw [show (flightDocOf A).length + 1 =
      ((flightDocOf A).length) + 1 from rfl]
  rw [flightOuter]
  rw [flightDoc_find33]
  simp

theorem iter_flight_doc (A : List Json) :
    iter_next_flight_payloads (String.mk (flightDocOf A)) =
      [String.mk (flightPayloadOf A)] := by
  unfold iter_next_flight_payloads
  have htl : (String.mk (flightDocOf A)).toList = flightDocOf A := rfl
  rw [htl]
  have hc : containsSub (flightDocOf A) NEXT_FLIGHT_NEEDLE.toList = true := by
    unfold containsSub
    unfold flightDocOf
    exact findSubAfter_isSome NEXT_FLIGHT_NEEDLE.toList "<script>".toList
      (('1' :: ',' :: jsonEncStr (flightPayloadOf A)) ++
        (']' :: ')' :: "</script>".toList))
  rw [if_pos hc]
  rw [flight_outer_doc]
  rfl

/-- Claim C2: round trip of the streamed-payload scanner.  For every JSON
array `A`, embedding the doubly-encoded payload `\x7b"faq":A\x7d` as the
string argument of a `self.__next_f.push([1,"..."])` call inside an HTML
document makes `_iter_next_flight_payloads` yield exactly the decoded
payload (escaped quotes inside the literal do not terminate the scan
early), `_extract_json_arrays_from_text` applied to that payload after the
`"faq":` key marker returns the serialized form of `A` as its first hit,
and JSON parsing recovers `A` unchanged.  The instance with the string
value `a"b` — an escaped quote inside the inner literal — is included as
the final conjunct. -/
theorem claim_C2 (A : List Json) :
    iter_next_flight_payloads (String.mk (flightDocOf A)) =
      [String.mk (flightPayloadOf A)] ∧
    (extract_json_arrays_from_text (String.mk (flightPayloadOf A))
        "\"faq\":").head? = some (String.mk (serializeJson (Json.arr A))) ∧
    json_loads (serializeJson (Json.arr A)) = some (Json.arr A) ∧
    iter_next_flight_payloads
        (String.mk (flightDocOf [Json.str ['a', '"', 'b']])) =
      [String.mk (flightPayloadOf [Json.str ['a', '"', 'b']])] :=
  ⟨iter_flight_doc A, extract_faq_head A, json_loads_ser (Json.arr A),
    iter_flight_doc [Json.str ['a', '"', 'b']]⟩

/-! ## Theorems: claim C4 (target-normalization error kinds) -/

/-- Claim C4, counterexample to the claim as stated: the claim says the two
documented error kinds are the only failures `_normalize_target` raises, but
the input `"http://["` makes `urllib.parse.urlparse` raise its own
`ValueError` ("Invalid IPv6 URL"), a third failure distinct from both
documented kinds. -/
theorem claim_C4_counterexample :
    normalize_target "http://[" =
      Except.error (NormalizeError.urlParseError "Invalid IPv6 URL")
    ∧ (∀ c, NormalizeError.urlParseError "Invalid IPv6 URL" ≠
        NormalizeError.unsupportedScheme c)
    ∧ NormalizeError.urlParseError "Invalid IPv6 URL" ≠
        NormalizeError.invalidTarget := by
  refine ⟨rfl, fun c => by simp, by simp⟩

/-- Claim C4 as amended: normalization fails with the `InvalidTargetError`
kind exactly on inputs that are empty after stripping, fails with the
`UnsupportedSchemeError` kind exactly on inputs whose parsed candidate URL
has a scheme other than http/https, succeeds otherwise — provided URL
parsing itself succeeds (it can additionally raise its own error on a
mismatched-bracket IPv6 authority, see the counterexample) — and the two
documented error kinds are distinguishable from each other by the caller. -/
theorem claim_C4 (target : String) :
    (pyStrip target = "" →
      normalize_target target = Except.error NormalizeError.invalidTarget)
    ∧ (∀ parsed : URLParts, pyStrip target ≠ "" →
        urlparse (normalizeCandidate (pyStrip target)) = Except.ok parsed →
        ((parsed.scheme ≠ "http" ∧ parsed.scheme ≠ "https") →
          normalize_target target = Except.error
            (NormalizeError.unsupportedScheme (normalizeCandidate (pyStrip target))))
        ∧ ((parsed.scheme = "http" ∨ parsed.scheme = "https") →
          ∃ slug, normalize_target target =
            Except.ok (normalizeCandidate (pyStrip target), slug)))
    ∧ (∀ c, NormalizeError.invalidTarget ≠ NormalizeError.unsupportedScheme c) := by
  refine ⟨fun h => ?_, fun parsed hne hok => ?_, fun c => by simp⟩
  · simp [normalize_target, h, throw, throwThe, MonadExceptOf.throw, bind, Except.bind]
  · constructor
    · rintro ⟨h1, h2⟩
      simp [normalize_target, hne, hok, h1, h2, throw, throwThe, MonadExceptOf.throw,
        bind, Except.bind, pure, Except.pure]
    · rintro (h | h) <;>
        exact ⟨slugOf parsed, by simp [normalize_target, hne, hok, h, pure, Except.pure,
          bind, Except.bind, throw, throwThe, MonadExceptOf.throw]⟩

/-- Witness for claim C4 at concrete inputs: an all-whitespace target, a
target with an unsupported scheme, and a well-formed target. -/
theorem claim_C4_witness :
    normalize_target "  " = Except.error NormalizeError.invalidTarget
    ∧ normalize_target "ftp://x" =
        Except.error (NormalizeError.unsupportedScheme "ftp://x")
    ∧ (∃ slug, normalize_target "https://whop.com/a/b" =
        Except.ok ("https://whop.com/a/b", slug)) := by
  refine ⟨(claim_C4 "  ").1 rfl, ?_, ?_⟩
  · have h := ((claim_C4 "ftp://x").2.1
      { scheme := "ftp", netloc := "x", path := "", params := "", query := "",
        fragment := "" }
      (by decide) rfl).1 (by decide)
    exact h
  · have h := ((claim_C4 "https://whop.com/a/b").2.1
      { scheme := "https", netloc := "whop.com", path := "/a/b", params := "",
        query := "", fragment := "" }
      (by decide) rfl).2 (Or.inr rfl)
    exact h

/-! ## Theorems: traversal order (claim C9) and pricing options (claim C8) -/

theorem revDescL_append (xs ys : List DOMNode) :
    revDescL (xs ++ ys) = revDescL ys ++ revDescL xs := by
  induction xs with
  | nil => simp [revDescL]
  | cons c cs ih => simp [revDescL, ih]

mutual

theorem revCtxDesc_proj (n : DOMNode) :
    (revCtxDesc n).map (fun e => e.1) = revDesc n := by
  match n with
  | .mk t a cs tx =>
      simp only [revCtxDesc, revDesc]
      exact revCtxDescL_proj (DOMNode.mk t a cs tx) 0 cs

theorem revCtxDescL_proj (p : DOMNode) (i : Nat) (cs : List DOMNode) :
    (revCtxDescL p i cs).map (fun e => e.1) = revDescL cs := by
  match cs with
  | [] => rfl
  | c :: rest =>
      simp only [revCtxDescL, revDescL, List.map_append, List.map_cons]
      rw [revCtxDescL_proj p (i + 1) rest, revCtxDesc_proj c]

end

theorem revCtxDescL_enum (p : DOMNode) (cs : List DOMNode) (i : Nat) :
    (((cs.enumFrom i).map (fun ei => ((ei.2 : DOMNode), p, ei.1))).reverse).flatMap
        (fun e => e :: revCtxDesc e.1) =
      revCtxDescL p i cs := by
  induction cs generalizing i with
  | nil => rfl
  | cons c rest ih =>
      simp only [List.enumFrom, List.map_cons, List.reverse_cons, List.flatMap_append]
      rw [ih (i + 1)]
      simp [revCtxDescL]

/-- Total subtree size of the entries on the traversal stack. -/
def ctxStackSize (stack : List DOMCtx) : Nat :=
  (stack.map (fun e => domSize e.1)).sum

theorem ctxStackSize_append (a b : List DOMCtx) :
    ctxStackSize (a ++ b) = ctxStackSize a + ctxStackSize b := by
  simp [ctxStackSize]

theorem ctxStackSize_cons (e : DOMCtx) (rest : List DOMCtx) :
    ctxStackSize (e :: rest) = domSize e.1 + ctxStackSize rest := by
  simp [ctxStackSize]

theorem domSize_eq (n : DOMNode) : domSize n = 1 + domSizeL n.children := by
  match n with
  | .mk t a cs tx => rfl

theorem enumChildren_size (n : DOMNode) :
    ctxStackSize (enumChildren n).reverse = domSizeL n.children := by
  have h : ∀ (cs : List DOMNode) (p : DOMNode) (i : Nat),
      ctxStackSize (((cs.enumFrom i).map
        (fun ei => ((ei.2 : DOMNode), p, ei.1))).reverse) = domSizeL cs := by
    intro cs
    induction cs with
    | nil => intro p i; rfl
    | cons c rest ih =>
        intro p i
        simp only [List.enumFrom, List.map_cons, List.reverse_cons]
        rw [ctxStackSize_append, ih p (i + 1)]
        simp [ctxStackSize, domSizeL, Nat.add_comm]
  exact h n.children n 0

theorem enumChildren_flatMap (n : DOMNode) :
    (enumChildren n).reverse.flatMap (fun e => e :: revCtxDesc e.1) =
      revCtxDesc n := by
  match n with
  | .mk t a cs tx =>
      simp only [enumChildren, DOMNode.children, List.enum, revCtxDesc]
      exact revCtxDescL_enum (DOMNode.mk t a cs tx) cs 0

theorem iter_descendants_go_closed (fuel : Nat) :
    ∀ stack : List DOMCtx, ctxStackSize stack ≤ fuel →
      iter_descendants_go fuel stack =
        stack.flatMap (fun e => e :: revCtxDesc e.1) := by
  induction fuel with
  | zero =>
      intro stack h
      match stack with
      | [] => rfl
      | e :: rest =>
          exfalso
          rw [ctxStackSize_cons, domSize_eq] at h
          omega
  | succ fuel ih =>
      intro stack h
      match stack with
      | [] => rfl
      | e :: rest =>
          have hsz : ctxStackSize ((enumChildren e.1).reverse ++ rest) ≤ fuel := by
            rw [ctxStackSize_append, enumChildren_size]
            rw [ctxStackSize_cons, domSize_eq] at h
            omega
          simp only [iter_descendants_go]
          rw [ih _ hsz, List.flatMap_append, List.flatMap_cons]
          rw [enumChildren_flatMap]
          rfl

theorem iter_descendants_ctx_closed (n : DOMNode) :
    iter_descendants_ctx n = revCtxDesc n := by
  unfold iter_descendants_ctx
  have h : ctxStackSize (enumChildren n).reverse ≤ domSize n := by
    rw [enumChildren_size, domSize_eq]
    omega
  rw [iter_descendants_go_closed (domSize n) _ h, enumChildren_flatMap]

/-- Claim C9: `_DOMNode.iter_descendants` is the reversed depth-first
traversal — it equals the closed form that walks the child list
last-to-first (each child before its own subtree), so for a node with
children `c1..cn`, all of the subtree of a later child is yielded before
any of the subtree of an earlier child (the take/drop split below), and the
feature extractor therefore sees sibling hits in reverse document order;
`_iter_dom_descendants` (used by the FAQ walker) instead yields each child
followed by its own descendants, i.e. document order. -/
theorem claim_C9 (n : DOMNode) (tags : Option (List String)) :
    DOMNode.iter_descendants n tags = (revDesc n).filter
        (fun m => match tags with
          | none => true
          | some ts => ts.contains m.tag)
    ∧ (∀ i : Nat, revDesc n =
        revDescL (n.children.drop (i + 1)) ++ revDescL (n.children.take (i + 1)))
    ∧ iter_dom_descendants n = n.children.flatMap
        (fun c => c :: iter_dom_descendants c) := by
  refine ⟨?_, ?_, ?_⟩
  · unfold DOMNode.iter_descendants
    rw [iter_descendants_ctx_closed, revCtxDesc_proj]
  · intro i
    match n with
    | .mk t a cs tx =>
        simp only [revDesc, DOMNode.children]
        calc revDescL cs = revDescL (cs.take (i + 1) ++ cs.drop (i + 1)) := by
              rw [List.take_append_drop]
          _ = revDescL (cs.drop (i + 1)) ++ revDescL (cs.take (i + 1)) :=
              revDescL_append _ _
  · match n with
    | .mk t a cs tx =>
        simp only [iter_dom_descendants, DOMNode.children]
        induction cs with
        | nil => rfl
        | cons c rest ih => simp_all [iterDomDescL, List.flatMap_cons]


theorem collectPricing_eq (xs : List DOMNode) : ∀ seen : List String,
    collectPricing seen xs =
      dedupFrom seen (((xs.filter
          (fun n => toLowerStr (attrsGet n.attrs "role" "") = "radio")).map
        (fun n => normSpaceJoin n.get_text)).filter (fun t => t ≠ "")) := by
  induction xs with
  | nil => intro seen; rfl
  | cons n rest ih =>
      intro seen
      by_cases hrole : toLowerStr (attrsGet n.attrs "role" "") = "radio"
      · by_cases htext : n.get_text = ""
        · have hnorm : normSpaceJoin n.get_text = "" := by rw [htext]; rfl
          simp only [collectPricing, hrole, htext]
          simp [hrole, hnorm, ih]
        · by_cases hnormE : normSpaceJoin n.get_text = ""
          · simp only [collectPricing, hrole, htext]
            simp [hrole, hnormE, htext, ih]
          · by_cases hseen : seen.contains (normSpaceJoin n.get_text)
            · simp only [collectPricing, hrole, htext]
              simp [hrole, hnormE, htext, hseen, ih, dedupFrom]
            · simp only [collectPricing, hrole, htext]
              simp [hrole, hnormE, htext, hseen, ih, dedupFrom]
      · simp [collectPricing, hrole, ih]

/-- Claim C8 as amended: with no tree available the pricing extractor
returns the empty list, and on a tree it returns the whitespace-normalized
texts of exactly the `div` nodes whose ARIA role attribute lower-cases to
"radio" (so the comparison is case-insensitive, and other role values are
excluded), skipping nodes whose normalized text is empty, in document order
with duplicates removed keeping the first occurrence. -/
theorem claim_C8 :
    extract_pricing_options none = []
    ∧ ∀ root : DOMNode,
        extract_pricing_options (some root) =
          dedupKeepFirst ((((iter_tag root "div").filter
              (fun n => toLowerStr (attrsGet n.attrs "role" "") = "radio")).map
            (fun n => normSpaceJoin n.get_text)).filter (fun t => t ≠ "")) := by
  refine ⟨rfl, fun root => ?_⟩
  unfold extract_pricing_options dedupKeepFirst
  exact collectPricing_eq (iter_tag root "div") []

/-- Claim C8, counterexample to the claim as stated: the role comparison is
case-insensitive, so a `div` with `role="RADIO"` — not exactly `"radio"` —
is still collected, while the claim says divs with any other role value are
excluded (which would make the result empty here). -/
theorem claim_C8_counterexample :
    extract_pricing_options (some (DOMNode.mk "_root" []
        [DOMNode.mk "div" [("role", "RADIO")] [] ["Monthly plan"]] [])) =
      ["Monthly plan"]
    ∧ (iter_tag (DOMNode.mk "_root" []
        [DOMNode.mk "div" [("role", "RADIO")] [] ["Monthly plan"]] []) "div").filter
        (fun n => attrsGet n.attrs "role" "" = "radio") = [] := by
  exact ⟨rfl, rfl⟩

/-! ## Theorems: DOM FAQ extraction invariants (claim C3) -/

theorem splitRuns_good (p : Char → Bool) :
    ∀ cs : List Char, ∀ w ∈ splitRuns p cs, w ≠ [] ∧ ∀ c ∈ w, p c = false := by
  intro cs
  induction cs with
  | nil => intro w hw; simp [splitRuns] at hw
  | cons c rest ih =>
      intro w hw
      by_cases hc : p c
      · rw [splitRuns, if_pos hc] at hw
        exact ih w hw
      · rw [splitRuns, if_neg hc] at hw
        rcases hsplit : splitRuns p rest with _ | ⟨w1, ws⟩
        · rw [hsplit] at hw
          simp at hw
          subst hw
          refine ⟨by simp, ?_⟩
          intro d hd
          simp at hd
          subst hd
          simpa using hc
        · rw [hsplit] at hw
          rcases rest with _ | ⟨d, rest2⟩
          · simp at hw
            subst hw
            exact ⟨by simp, by intro x hx; simp at hx; subst hx; simpa using hc⟩
          · by_cases hd : p d
            · simp only [if_pos hd] at hw
              rcases List.mem_cons.mp hw with hw1 | hw1
              · subst hw1
                exact ⟨by simp, by intro x hx; simp at hx; subst hx; simpa using hc⟩
              · exact ih w (by rw [hsplit]; exact hw1)
            · simp only [if_neg hd] at hw
              rcases List.mem_cons.mp hw with hw1 | hw1
              · subst hw1
                have h1 := ih w1 (by rw [hsplit]; exact List.mem_cons_self w1 ws)
                refine ⟨by simp, ?_⟩
                intro x hx
                rcases List.mem_cons.mp hx with hx1 | hx1
                · subst hx1; simpa using hc
                · exact h1.2 x hx1
              · exact ih w (by rw [hsplit]; exact List.mem_cons_of_mem w1 hw1)

/-- Auxiliary: the last element of a list is a member. -/
theorem mem_of_getLast_opt {α : Type} {l : List α} {c : α}
    (h : l.getLast? = some c) : c ∈ l := by
  induction l with
  | nil => simp at h
  | cons x t ih =>
      match t with
      | [] => simp at h; subst h; simp
      | y :: t2 =>
          rw [List.getLast?_cons_cons] at h
          exact List.mem_cons_of_mem _ (ih h)

/-- Heads of joined good words are non-separator characters. -/
theorem joinWith_head (p : Char → Bool) (sep : List Char)
    (ws : List (List Char))
    (hws : ∀ w ∈ ws, w ≠ [] ∧ ∀ c ∈ w, p c = false) :
    ∀ c, (joinWith sep ws).head? = some c → p c = false := by
  intro c hc
  match ws with
  | [] => simp [joinWith] at hc
  | w :: rest =>
      have hw := hws w (List.mem_cons_self _ _)
      obtain ⟨x, t, rfl⟩ : ∃ x t, w = x :: t := by
        match w, hw.1 with
        | x :: t, _ => exact ⟨x, t, rfl⟩
      have hx : (joinWith sep ((x :: t) :: rest)).head? = some x := by
        match rest with
        | [] => rfl
        | w2 :: ws2 => rfl
      rw [hx] at hc
      have : x = c := by injection hc
      subst this
      exact hw.2 x (List.mem_cons_self _ _)

theorem joinWith_ne_nil (sep : List Char) (w : List Char) (ws : List (List Char))
    (hw : w ≠ []) : joinWith sep (w :: ws) ≠ [] := by
  match ws with
  | [] => simpa [joinWith] using hw
  | w2 :: ws =>
      have heq : joinWith sep (w :: w2 :: ws) = w ++ sep ++ joinWith sep (w2 :: ws) :=
        rfl
      rw [heq]
      intro h
      rcases List.append_eq_nil.mp h with ⟨h1, -⟩
      rcases List.append_eq_nil.mp h1 with ⟨h2, -⟩
      exact hw h2

/-- Last characters of joined good words are non-separator characters. -/
theorem joinWith_last (p : Char → Bool) (sep : List Char) :
    ∀ ws : List (List Char),
      (∀ w ∈ ws, w ≠ [] ∧ ∀ c ∈ w, p c = false) →
      ∀ c, (joinWith sep ws).getLast? = some c → p c = false := by
  intro ws
  induction ws with
  | nil => intro h c hc; simp [joinWith] at hc
  | cons w ws ih =>
      intro hws c hc
      match ws with
      | [] =>
          have hw := hws w (List.mem_cons_self _ _)
          rw [joinWith] at hc
          exact hw.2 c (mem_of_getLast_opt hc)
      | w2 :: ws2 =>
          have heq : joinWith sep (w :: w2 :: ws2) =
              w ++ sep ++ joinWith sep (w2 :: ws2) := rfl
          rw [heq] at hc
          have hne : joinWith sep (w2 :: ws2) ≠ [] :=
            joinWith_ne_nil sep w2 ws2 (hws w2 (by simp)).1
          rw [List.getLast?_append_of_ne_nil _ hne] at hc
          exact ih (fun w hw => hws w (List.mem_cons_of_mem _ hw)) c hc

theorem dropWhile_eq_self_of_head (p : Char → Bool) (l : List Char)
    (h : ∀ c, l.head? = some c → p c = false) : l.dropWhile p = l := by
  match l with
  | [] => rfl
  | c :: t =>
      have := h c rfl
      simp [List.dropWhile, this]

/-- `str.strip()` is the identity on the output of the whitespace
normalizer: normalized text has non-whitespace edges (or is empty). -/
theorem pyStrip_normSpaceJoin (s : String) :
    pyStrip (normSpaceJoin s) = normSpaceJoin s := by
  have hgood := splitRuns_good Char.isWhitespace s.toList
  have h1 : ∀ c, (joinWith [' '] (splitRuns Char.isWhitespace s.toList)).head? =
      some c → Char.isWhitespace c = false :=
    joinWith_head _ _ _ hgood
  have h2 : ∀ c,
      (joinWith [' '] (splitRuns Char.isWhitespace s.toList)).getLast? = some c →
      Char.isWhitespace c = false :=
    joinWith_last _ _ _ hgood
  have e1 : List.dropWhile Char.isWhitespace
      (joinWith [' '] (splitRuns Char.isWhitespace s.toList)) =
      joinWith [' '] (splitRuns Char.isWhitespace s.toList) :=
    dropWhile_eq_self_of_head _ _ h1
  have e2 : List.dropWhile Char.isWhitespace
      (joinWith [' '] (splitRuns Char.isWhitespace s.toList)).reverse =
      (joinWith [' '] (splitRuns Char.isWhitespace s.toList)).reverse :=
    dropWhile_eq_self_of_head _ _ (by
      intro c hc
      rw [List.head?_reverse] at hc
      exact h2 c hc)
  show String.mk (trimCharsBy Char.isWhitespace
      (String.mk (joinWith [' '] (splitRuns Char.isWhitespace s.toList))).toList) =
    String.mk (joinWith [' '] (splitRuns Char.isWhitespace s.toList))
  have e0 : (String.mk (joinWith [' ']
      (splitRuns Char.isWhitespace s.toList))).toList =
      joinWith [' '] (splitRuns Char.isWhitespace s.toList) := rfl
  rw [e0]
  unfold trimCharsBy
  rw [e1, e2, List.reverse_reverse]

/-- `get_text` output is already stripped. -/
theorem pyStrip_get_text (n : DOMNode) :
    pyStrip n.get_text = n.get_text := by
  unfold DOMNode.get_text
  exact pyStrip_normSpaceJoin _


theorem flushEntry_inv (st : FaqState) (h : FaqInvCore st) :
    FaqInvCore (flushEntry st)
    ∧ (flushEntry st).entries.length ≤ st.entries.length + 1
    ∧ (flushEntry st).currentQ = none := by
  obtain ⟨h1, h2, h3, h4⟩ := h
  rcases hq : st.currentQ with - | q
  · unfold flushEntry
    rw [hq]
    exact ⟨⟨h1, h2, h3, fun q hq2 => nomatch hq2⟩, Nat.le_succ _, rfl⟩
  · have hqne : q ≠ "" := h4 q hq
    unfold flushEntry
    rw [hq]
    simp only
    by_cases hmem : st.fingerprints.contains
        (q, pyStrip (String.mk (joinWith ['\n', '\n'] (st.answers.map String.toList))))
    · rw [if_pos hmem]
      exact ⟨⟨h1, h2, h3, fun q hq2 => nomatch hq2⟩, Nat.le_succ _, rfl⟩
    · rw [if_neg hmem]
      have hfpb : entryFp
          { question := q,
            answer := if pyStrip (String.mk (joinWith ['\n', '\n']
                (st.answers.map String.toList))) = "" then none
              else some (pyStrip (String.mk (joinWith ['\n', '\n']
                (st.answers.map String.toList)))) } =
          (q, pyStrip (String.mk (joinWith ['\n', '\n']
            (st.answers.map String.toList)))) := by
        unfold entryFp
        by_cases hat : pyStrip (String.mk (joinWith ['\n', '\n']
            (st.answers.map String.toList))) = ""
        · simp [hat]
        · simp [hat]
      refine ⟨⟨?_, ?_, ?_, fun q hq2 => nomatch hq2⟩, by simp, rfl⟩
      · intro e he
        rcases List.mem_append.mp he with he | he
        · exact h1 e he
        · simp at he
          subst he
          exact hqne
      · rw [List.pairwise_append]
        refine ⟨h2, List.pairwise_singleton _ _, ?_⟩
        intro a ha b hb
        simp at hb
        subst hb
        intro hfp
        apply hmem
        rw [hfpb] at hfp
        rw [← hfp]
        simpa using h3 a ha
      · intro e he
        rcases List.mem_append.mp he with he | he
        · exact List.mem_cons_of_mem _ (h3 e he)
        · simp at he
          subst he
          rw [hfpb]
          exact List.mem_cons_self _ _

theorem faqStep_inv (pool : List String) (st : FaqState) (node : DOMNode)
    (h : FaqInvCore st) (hlen : st.entries.length ≤ FAQ_ENTRY_LIMIT) :
    FaqInvCore (faqStep pool st node)
    ∧ (faqStep pool st node).entries.length ≤ FAQ_ENTRY_LIMIT := by
  unfold faqStep
  by_cases hfull : st.entries.length ≥ FAQ_ENTRY_LIMIT
  · rw [if_pos hfull]
    exact ⟨h, hlen⟩
  · rw [if_neg hfull]
    by_cases htag : FAQ_QUESTION_TAGS.contains node.tag
    · rw [if_pos htag]
      simp only
      have hst1 : FaqInvCore (if st.currentQ.isSome = true then flushEntry st else st)
          ∧ (if st.currentQ.isSome = true then flushEntry st else st).entries.length ≤
            FAQ_ENTRY_LIMIT := by
        by_cases hsome : st.currentQ.isSome = true
        · rw [if_pos hsome]
          have hf := flushEntry_inv st h
          refine ⟨hf.1, ?_⟩
          have := hf.2.1
          omega
        · rw [if_neg hsome]
          exact ⟨h, hlen⟩
      by_cases hfull1 : (if st.currentQ.isSome = true then flushEntry st
          else st).entries.length ≥ FAQ_ENTRY_LIMIT
      · rw [if_pos hfull1]
        exact hst1
      · rw [if_neg hfull1]
        by_cases hqt : node.get_text = ""
        · rw [if_pos hqt]
          exact hst1
        · rw [if_neg hqt]
          obtain ⟨⟨g1, g2, g3, g4⟩, g5⟩ := hst1
          refine ⟨⟨g1, g2, g3, ?_⟩, g5⟩
          intro q hqeq
          simp at hqeq
          rw [← hqeq, pyStrip_get_text]
          exact hqt
    · rw [if_neg htag]
      rcases hq : st.currentQ with - | q
      · exact ⟨h, hlen⟩
      · simp only
        split_ifs <;>
          first
            | exact ⟨h, hlen⟩
            | exact ⟨⟨h.1, h.2.1, h.2.2.1, fun q2 hq2 => by
                have hqq : some q = some q2 := hq2
                injection hqq with hqq2
                subst hqq2
                exact h.2.2.2 _ hq⟩, hlen⟩


theorem foldl_faqStep_inv (pool : List String) (nodes : List DOMNode) :
    ∀ st, FaqInvCore st → st.entries.length ≤ FAQ_ENTRY_LIMIT →
      FaqInvCore (nodes.foldl (faqStep pool) st)
      ∧ (nodes.foldl (faqStep pool) st).entries.length ≤ FAQ_ENTRY_LIMIT := by
  induction nodes with
  | nil => intro st h hl; exact ⟨h, hl⟩
  | cons n rest ih =>
      intro st h hl
      have hs := faqStep_inv pool st n h hl
      simpa using ih (faqStep pool st n) hs.1 hs.2

theorem faqSectionEntries_ok (container : DOMNode) :
    (faqSectionEntries container).length ≤ FAQ_ENTRY_LIMIT
    ∧ (∀ e ∈ faqSectionEntries container, e.question ≠ "")
    ∧ (faqSectionEntries container).Pairwise
        (fun a b => entryFp a ≠ entryFp b) := by
  unfold faqSectionEntries
  have hinit : FaqInvCore faqInit :=
    ⟨by simp [faqInit], by simp [faqInit], by simp [faqInit], by simp [faqInit]⟩
  have hfold := foldl_faqStep_inv (questionPool container)
    (iter_dom_descendants container) faqInit hinit
    (by simp [faqInit, FAQ_ENTRY_LIMIT])
  simp only
  by_cases hc : ((iter_dom_descendants container).foldl
        (faqStep (questionPool container)) faqInit).currentQ.isSome = true
      ∧ ((iter_dom_descendants container).foldl
        (faqStep (questionPool container)) faqInit).entries.length < FAQ_ENTRY_LIMIT
  · rw [if_pos (by simp [hc.1, hc.2])]
    have hf := flushEntry_inv _ hfold.1
    have hl : (flushEntry ((iter_dom_descendants container).foldl
        (faqStep (questionPool container)) faqInit)).entries.length ≤
        FAQ_ENTRY_LIMIT := by
      have := hf.2.1
      have := hc.2
      omega
    exact ⟨hl, hf.1.1, hf.1.2.1⟩
  · rw [if_neg (by
      intro hcc
      apply hc
      constructor
      · by_contra hs
        simp [hs] at hcc
      · by_contra hs
        simp [hs] at hcc)]
    exact ⟨hfold.2, hfold.1.1, hfold.1.2.1⟩

theorem faqLoop_sections (ctxs : List (DOMNode × List DOMNode)) :
    ∀ seen : List String, ∀ s ∈ faqLoop seen ctxs,
      s.entries.length ≤ FAQ_ENTRY_LIMIT
      ∧ (∀ e ∈ s.entries, e.question ≠ "")
      ∧ s.entries.Pairwise (fun a b => entryFp a ≠ entryFp b) := by
  induction ctxs with
  | nil => intro seen s hs; simp [faqLoop] at hs
  | cons c rest ih =>
      intro seen s hs
      obtain ⟨hnode, anc⟩ := c
      simp only [faqLoop] at hs
      split at hs
      · exact ih seen s hs
      · split at hs
        · exact ih seen s hs
        · rcases List.mem_cons.mp hs with hs | hs
          · subst hs
            exact faqSectionEntries_ok _
          · exact ih _ s hs

/-- Claim C3: DOM FAQ extraction returns at most 3 sections; each section
has at most 12 entries; within a section no two entries share the same
(question, answer) pair; every question is non-empty; and re-running the
extractor on the same tree returns identical results (it is a pure
function of the tree). -/
theorem claim_C3 (builder : Option DOMNode) :
    (extract_dom_faqs builder).length ≤ 3
    ∧ (∀ s ∈ extract_dom_faqs builder,
        s.entries.length ≤ FAQ_ENTRY_LIMIT
        ∧ (∀ e ∈ s.entries, e.question ≠ "")
        ∧ s.entries.Pairwise
            (fun a b => (a.question, a.answer) ≠ (b.question, b.answer)))
    ∧ extract_dom_faqs builder = extract_dom_faqs builder := by
  refine ⟨?_, ?_, rfl⟩
  · match builder with
    | none => simp [extract_dom_faqs]
    | some root =>
        unfold extract_dom_faqs
        exact List.length_take_le _ _
  · intro s hs
    have hmem : ∃ seen ctxs, s ∈ faqLoop seen ctxs := by
      match builder with
      | none => simp [extract_dom_faqs] at hs
      | some root =>
          unfold extract_dom_faqs at hs
          exact ⟨[], iter_tag_ctx root "h2", List.mem_of_mem_take hs⟩
    obtain ⟨seen, ctxs, hmem⟩ := hmem
    have h := faqLoop_sections ctxs seen s hmem
    refine ⟨h.1, h.2.1, ?_⟩
    refine h.2.2.imp ?_
    intro a b hab
    intro heq
    apply hab
    unfold entryFp
    rw [show a.question = b.question from congrArg Prod.fst heq,
        show a.answer = b.answer from congrArg Prod.snd heq]

/-- Witness for claim C3 at a concrete document with one FAQ section of two
entries. -/
theorem claim_C3_witness :
    extract_dom_faqs (some faqWitnessTree) = [faqWitnessSection]
    ∧ faqWitnessSection.entries.length ≤ FAQ_ENTRY_LIMIT
    ∧ (∀ e ∈ faqWitnessSection.entries, e.question ≠ "")
    ∧ faqWitnessSection.entries.Pairwise
        (fun a b => (a.question, a.answer) ≠ (b.question, b.answer)) := by
  have heq : extract_dom_faqs (some faqWitnessTree) = [faqWitnessSection] := by
    rfl
  have h := (claim_C3 (some faqWitnessTree)).2.1 faqWitnessSection
    (by rw [heq]; exact List.mem_singleton_self _)
  exact ⟨heq, h.1, h.2.1, h.2.2⟩

/-! ## Theorems: review distribution numerics (claim C6) -/

theorem roundHalfEven_le_add_half (q : ℚ) :
    (roundHalfEven q : ℚ) ≤ q + 1 / 2 := by
  unfold roundHalfEven
  have hf : (⌊q⌋ : ℚ) ≤ q := Int.floor_le q
  split_ifs with h1 h2 h3
  · linarith
  · push_cast
    linarith
  · linarith
  · have h4 : q - ⌊q⌋ = 1 / 2 := le_antisymm (not_lt.mp h2) (not_lt.mp h1)
    push_cast
    linarith

theorem roundHalfEven_nonneg (q : ℚ) (h : 0 ≤ q) : 0 ≤ roundHalfEven q := by
  unfold roundHalfEven
  have hf : 0 ≤ ⌊q⌋ := Int.floor_nonneg.mpr h
  split_ifs <;> omega

theorem ratOfParts_nonneg (a b : List Char) : 0 ≤ ratOfParts a b := by
  unfold ratOfParts
  positivity

theorem matchNumberAt_nonneg (cs : List Char) (v : ℚ) (r : List Char)
    (h : matchNumberAt cs = some (v, r)) : 0 ≤ v := by
  match cs with
  | [] => simp [matchNumberAt] at h
  | c :: rest =>
      rw [matchNumberAt] at h
      by_cases hd : c.isDigit
      · simp only [hd, if_true] at h
        split at h <;> first
          | (split at h
             · simp at h
               rw [← h.1]
               exact ratOfParts_nonneg _ _
             · simp at h
               rw [← h.1]
               exact ratOfParts_nonneg _ _)
          | (simp at h
             rw [← h.1]
             exact ratOfParts_nonneg _ _)
      · simp [hd] at h

theorem searchNumber_nonneg (cs : List Char) (v : ℚ) (r : List Char)
    (h : searchNumber cs = some (v, r)) : 0 ≤ v := by
  induction cs with
  | nil => simp [searchNumber] at h
  | cons c rest ih =>
      rw [searchNumber] at h
      rcases hm : matchNumberAt (c :: rest) with - | p
      · rw [hm] at h
        exact ih h
      · rw [hm] at h
        simp at h
        subst h
        exact matchNumberAt_nonneg _ _ _ hm

theorem parse_numeric_int_nonneg (text : String) (v : ℤ)
    (h : parse_numeric_int text = some v) : 0 ≤ v := by
  unfold parse_numeric_int at h
  rcases hs : searchNumber text.toList with - | p
  · rw [hs] at h; simp at h
  · rw [hs] at h
    simp at h
    rw [← h]
    exact roundHalfEven_nonneg _ (searchNumber_nonneg _ _ _ hs)

theorem totalsUpdate_nonneg (st : TotalsState) (text lower : String)
    (h : ∀ t, st.total = some t → 0 ≤ t) :
    ∀ t, totalsUpdate st text lower = some t → 0 ≤ t := by
  intro t ht
  unfold totalsUpdate at ht
  split at ht
  · split at ht
    · rename_i n hn
      simp at ht
      omega
    · split at ht
      · rename_i v hv
        simp at ht
        subst ht
        exact parse_numeric_int_nonneg _ _ hv
      · simp at ht
  · exact h t ht

theorem totalsStep_total (st : TotalsState) (node : DOMNode) :
    (totalsStep st node).total = st.total
    ∨ (totalsStep st node).total =
        totalsUpdate st node.get_text (toLowerStr node.get_text) := by
  simp only [totalsStep]
  split
  · exact Or.inl rfl
  · split
    · split
      · exact Or.inr rfl
      · exact Or.inr rfl
    · exact Or.inr rfl

theorem totalsStep_nonneg (st : TotalsState) (node : DOMNode)
    (h : ∀ t, st.total = some t → 0 ≤ t) :
    ∀ t, (totalsStep st node).total = some t → 0 ≤ t := by
  intro t ht
  rcases totalsStep_total st node with he | he
  · rw [he] at ht
    exact h t ht
  · rw [he] at ht
    exact totalsUpdate_nonneg st _ _ h t ht


theorem distStep_spec (total : Option ℤ) (d : List (Nat × Option ℚ × Option ℤ))
    (e : DOMCtx)
    (h : ∀ row ∈ d, rowCountSpec total row) :
    ∀ row ∈ distStep total d e, rowCountSpec total row := by
  intro row hrow
  simp only [distStep] at hrow
  by_cases hl : e.1.get_text = ""
  · rw [if_pos hl] at hrow
    exact h row hrow
  · rw [if_neg hl] at hrow
    rcases hm : matchStarLabel e.1.get_text with - | star
    · rw [hm] at hrow
      exact h row hrow
    · rw [hm] at hrow
      rcases List.mem_append.mp hrow with hr | hr
      · exact h row hr
      · simp at hr
        subst hr
        unfold rowCountSpec
        rfl

theorem distFold_spec (total : Option ℤ) (es : List DOMCtx) :
    ∀ d, (∀ row ∈ d, rowCountSpec total row) →
      ∀ row ∈ es.foldl (distStep total) d, rowCountSpec total row := by
  induction es with
  | nil => intro d h row hrow; exact h row hrow
  | cons e rest ih =>
      intro d h row hrow
      exact ih (distStep total d e) (distStep_spec total d e h) row hrow

theorem distLookup_mem (d : List (Nat × Option ℚ × Option ℤ)) (k : Nat)
    (pc : Option ℚ × Option ℤ) (h : distLookup d k = some pc) :
    (k, pc.1, pc.2) ∈ d := by
  unfold distLookup at h
  rcases hf : d.reverse.find? (fun e => e.1 = k) with - | e
  · rw [hf] at h; simp at h
  · rw [hf] at h
    simp at h
    have hmem : e ∈ d.reverse := List.mem_of_find?_eq_some hf
    have hpred := List.find?_some hf
    simp at hpred
    have he : e = (k, pc.1, pc.2) := by
      obtain ⟨e1, e2, e3⟩ := e
      simp at hpred
      subst hpred
      rw [← h]
    rw [← he]
    exact List.mem_reverse.mp hmem

theorem orderedDistribution_spec (total : Option ℤ)
    (d : List (Nat × Option ℚ × Option ℤ))
    (h : ∀ row ∈ d, rowCountSpec total row) :
    ∀ e ∈ orderedDistribution d, entryCountSpec total e := by
  intro e he
  unfold orderedDistribution at he
  rcases List.mem_map.mp he with ⟨r, -, hfr⟩
  rcases hl : distLookup d r with - | pc
  · rw [hl] at hfr
    rw [← hfr]
    unfold entryCountSpec
    rfl
  · rw [hl] at hfr
    have hmem := distLookup_mem d r pc hl
    have := h (r, pc.1, pc.2) hmem
    rw [← hfr]
    unfold entryCountSpec
    unfold rowCountSpec at this
    exact this

theorem reviewSummaryOf_spec (ht : String) (container : DOMNode)
    (s : ReviewSummary) (h : reviewSummaryOf ht container = some s) :
    (∀ e ∈ s.distribution, entryCountSpec s.total_reviews e)
    ∧ (∀ t, s.total_reviews = some t → 0 ≤ t) := by
  simp only [reviewSummaryOf] at h
  split at h
  · simp at h
  · simp at h
    subst h
    constructor
    · exact orderedDistribution_spec _ _
        (distFold_spec _ _ [] (by intro row hrow; simp at hrow))
    · have hinit : ∀ t : ℤ,
          (TotalsState.mk none none none).total = some t → 0 ≤ t := by
        intro t ht2; simp at ht2
      have hfold : ∀ (es : List DOMNode) (st : TotalsState),
          (∀ t, st.total = some t → 0 ≤ t) →
          ∀ t, (es.foldl totalsStep st).total = some t → 0 ≤ t := by
        intro es
        induction es with
        | nil => intro st hst t ht2; exact hst t ht2
        | cons n rest ih =>
            intro st hst t ht2
            exact ih (totalsStep st n) (totalsStep_nonneg st n hst) t ht2
      exact hfold _ _ hinit

theorem reviewsLoop_spec (ctxs : List (DOMNode × List DOMNode))
    (s : ReviewSummary) (h : reviewsLoop ctxs = some s) :
    (∀ e ∈ s.distribution, entryCountSpec s.total_reviews e)
    ∧ (∀ t, s.total_reviews = some t → 0 ≤ t) := by
  induction ctxs with
  | nil => simp [reviewsLoop] at h
  | cons c rest ih =>
      obtain ⟨hnode, anc⟩ := c
      simp only [reviewsLoop] at h
      split at h
      · exact ih h
      · split at h
        · rename_i s2 hs2
          simp at h
          subst h
          exact reviewSummaryOf_spec _ _ _ hs2
        · exact ih h

theorem dist_sum_le (t : ℤ) (d : List DistEntry)
    (hP : ∀ e ∈ d, entryCountSpec (some t) e) :
    ((((d.filter (fun e => e.count.isSome)).map
        (fun e => e.count.getD 0)).sum : ℤ) : ℚ) ≤
      (t : ℚ) * ((d.filterMap (fun e => e.percent)).sum) / 100 +
        ((d.filter (fun e => e.count.isSome)).length : ℚ) := by
  induction d with
  | nil => simp
  | cons e rest ih =>
      have hPe := hP e (List.mem_cons_self _ _)
      unfold entryCountSpec at hPe
      have ihh := ih (fun x hx => hP x (List.mem_cons_of_mem _ hx))
      rcases hp : e.percent with - | p
      · rw [hp] at hPe
        simp only at hPe
        have hnone : e.count.isSome = false := by rw [hPe]; rfl
        simp only [List.filter_cons, hnone, List.filterMap_cons, hp]
        simpa using ihh
      · rw [hp] at hPe
        simp only at hPe
        have hsome : e.count.isSome = true := by rw [hPe]; rfl
        have hget : e.count.getD 0 = roundHalfEven ((t : ℚ) * (p / 100)) := by
          rw [hPe]; rfl
        simp only [List.filter_cons, hsome, List.filterMap_cons, hp,
          List.map_cons, List.sum_cons, List.length_cons, if_true]
        have hb := roundHalfEven_le_add_half ((t : ℚ) * (p / 100))
        rw [hget]
        push_cast
        push_cast at ihh
        linarith

/-- Claim C6 as amended: in every extracted review summary each star count
equals Python `round(total * percent / 100)` (round half to even) when both
the total and that star's percentage are known and is null otherwise; and
whenever a total is present and the extracted percentages sum to at most
100 — which the code does not enforce, see the counterexample — the
non-null counts sum to at most `total_reviews` plus the number of non-null
stars. -/
theorem claim_C6 (builder : Option DOMNode) (s : ReviewSummary)
    (h : extract_dom_reviews builder = some s) :
    (∀ e ∈ s.distribution, entryCountSpec s.total_reviews e)
    ∧ (∀ t : ℤ, s.total_reviews = some t →
        (s.distribution.filterMap (fun e => e.percent)).sum ≤ (100 : ℚ) →
        ((s.distribution.filter (fun e => e.count.isSome)).map
          (fun e => e.count.getD 0)).sum ≤
          t + ((s.distribution.filter (fun e => e.count.isSome)).length : ℤ)) := by
  have hspec : (∀ e ∈ s.distribution, entryCountSpec s.total_reviews e)
      ∧ (∀ t, s.total_reviews = some t → 0 ≤ t) := by
    match builder with
    | none => simp [extract_dom_reviews] at h
    | some root =>
        unfold extract_dom_reviews at h
        exact reviewsLoop_spec _ _ h
  refine ⟨hspec.1, ?_⟩
  intro t htot hsum
  have ht0 : 0 ≤ t := hspec.2 t htot
  have hP : ∀ e ∈ s.distribution, entryCountSpec (some t) e := by
    intro e he
    have := hspec.1 e he
    rw [htot] at this
    exact this
  have hmain := dist_sum_le t s.distribution hP
  have hbound : (t : ℚ) * ((s.distribution.filterMap
      (fun e => e.percent)).sum) / 100 ≤ (t : ℚ) := by
    have h1 : (t : ℚ) * ((s.distribution.filterMap
        (fun e => e.percent)).sum) ≤ (t : ℚ) * 100 :=
      mul_le_mul_of_nonneg_left hsum (by exact_mod_cast ht0)
    linarith
  have : ((((s.distribution.filter (fun e => e.count.isSome)).map
      (fun e => e.count.getD 0)).sum : ℤ) : ℚ) ≤
      (t : ℚ) + ((s.distribution.filter
        (fun e => e.count.isSome)).length : ℚ) := by linarith
  exact_mod_cast this


/-- Claim C6, counterexample to the claim as stated: nothing constrains the
CSS width percentages a page reports, so a star row with `width:300%` and a
total of 10 yields a lone non-null count of 30, exceeding
`total_reviews + (number of non-null stars) = 11`. -/
theorem claim_C6_counterexample :
    (extract_dom_reviews (some revCexTree)).map (fun s =>
        ((s.distribution.filter (fun e => e.count.isSome)).map
          (fun e => e.count.getD 0)).sum) = some 30
    ∧ (extract_dom_reviews (some revCexTree)).map
        (fun s => s.total_reviews) = some (some 10)
    ∧ (extract_dom_reviews (some revCexTree)).map (fun s =>
        ((s.distribution.filter (fun e => e.count.isSome)).length : ℤ)) =
        some 1
    ∧ ¬((30 : ℤ) ≤ 10 + 1) := by
  refine ⟨by with_unfolding_all rfl, by with_unfolding_all rfl,
    by with_unfolding_all rfl, by decide⟩

/-- Witness for claim C6 at a concrete review section whose percentages sum
to 87.5. -/
theorem claim_C6_witness :
    extract_dom_reviews (some revWitnessTree) = some revWitnessSummary
    ∧ (∀ e ∈ revWitnessSummary.distribution,
        entryCountSpec revWitnessSummary.total_reviews e)
    ∧ ((revWitnessSummary.distribution.filter (fun e => e.count.isSome)).map
        (fun e => e.count.getD 0)).sum ≤
        128 + ((revWitnessSummary.distribution.filter
          (fun e => e.count.isSome)).length : ℤ) := by
  have h := claim_C6 (some revWitnessTree) revWitnessSummary
    (by with_unfolding_all rfl)
  exact ⟨by with_unfolding_all rfl, h.1, h.2 128 rfl (by with_unfolding_all decide)⟩


/-! ## Theorems: FAQ reconciliation (claim C7) -/

theorem reverse_find_eq_filter_getLast {α : Type} (p : α → Bool)
    (l : List α) : l.reverse.find? p = (l.filter p).getLast? :=
  (List.filter_getLast? p l).symm

theorem fill_entry_eq (fallback : List FlightEntry) (entry : FaqEntry) :
    (if (entry.answer.getD "") ≠ "" then entry
     else
       match fallback_map_get fallback (normalize_question entry.question) with
       | some a => { entry with answer := some a }
       | none => entry) =
    fillFromLastMatch fallback entry := by
  unfold fillFromLastMatch fallback_map_get
  by_cases ha : (entry.answer.getD "") ≠ ""
  · simp [ha]
  · rw [if_neg ha, if_neg ha,
      reverse_find_eq_filter_getLast
        (fun e => normalize_question e.question = normalize_question entry.question)
        fallback]
    rcases hlast : (fallback.filter (fun e =>
        normalize_question e.question =
          normalize_question entry.question)).getLast? with - | e
    · rw [hlast]
    · rw [hlast]
      by_cases hc : (normalize_question entry.question ≠ "" &&
          e.answer ≠ "") = true
      · simp only [hc, if_true]
      · simp only [if_neg hc]

/-- Claim C7 as amended: with no fallback entries the DOM sections are
returned unchanged; with fallback entries and no DOM sections a single
"FAQs" section is synthesized from the first twelve fallback entries
(stripped); otherwise each DOM entry that already has a non-empty answer is
left unchanged, and each unanswered DOM entry receives the answer of the
LAST fallback entry whose case/whitespace-normalized question matches its
own — provided that answer is non-empty.  (Duplicate normalized questions
in the fallback list resolve to the last occurrence, so a later duplicate
with an empty answer suppresses the fill, see the counterexample.) -/
theorem claim_C7 (dom : List FaqSection) (fallback : List FlightEntry) :
    (fallback = [] → merge_faq_sections dom fallback = dom)
    ∧ (fallback ≠ [] → dom = [] →
        merge_faq_sections dom fallback =
          [FaqSection.mk "FAQs" ((fallback.take FAQ_ENTRY_LIMIT).map
            (fun e => FaqEntry.mk (pyStrip e.question)
              (some (pyStrip e.answer))))])
    ∧ (fallback ≠ [] → dom ≠ [] →
        merge_faq_sections dom fallback = dom.map (fun s =>
          { s with entries := s.entries.map (fillFromLastMatch fallback) })) := by
  refine ⟨?_, ?_, ?_⟩
  · intro h
    subst h
    rfl
  · intro hf hd
    subst hd
    match fallback, hf with
    | f :: rest, _ =>
        simp only [merge_faq_sections, List.isEmpty_cons, FAQ_ENTRY_LIMIT]
        rfl
  · intro hf hd
    match fallback, hf with
    | f :: rest, _ =>
        match dom, hd with
        | d :: drest, _ =>
            simp only [merge_faq_sections, List.isEmpty_cons]
            simp only [Bool.false_eq_true, if_false]
            apply List.map_congr_left
            intro s hs
            congr 1
            apply List.map_congr_left
            intro e he
            exact fill_entry_eq (f :: rest) e

/-- Claim C7, counterexample to the claim as stated: the DOM entry for
question "Q" has no answer and the fallback list contains a matching entry
with the non-empty answer "A", yet nothing is filled in, because a later
fallback entry with the same normalized question and an empty answer
overwrites the map slot and is then filtered out. -/
theorem claim_C7_counterexample :
    merge_faq_sections [FaqSection.mk "FAQ" [FaqEntry.mk "Q" none]]
        [FlightEntry.mk "Q" "A", FlightEntry.mk "q" ""] =
      [FaqSection.mk "FAQ" [FaqEntry.mk "Q" none]]
    ∧ normalize_question "Q" = normalize_question "q"
    ∧ ("A" : String) ≠ ""
    ∧ (FaqEntry.mk "Q" none).answer = none := by
  refine ⟨rfl, rfl, by decide, rfl⟩

/-- Witness for claim C7: a synthesized section, a fill, and a preserved
answered entry at concrete inputs. -/
theorem claim_C7_witness :
    merge_faq_sections [] [FlightEntry.mk " Q1 " " A1 "] =
      [FaqSection.mk "FAQs" [FaqEntry.mk "Q1" (some "A1")]]
    ∧ merge_faq_sections
        [FaqSection.mk "S" [FaqEntry.mk "Q1" none, FaqEntry.mk "Q2" (some "kept")]]
        [FlightEntry.mk "q1" "fill"] =
      [FaqSection.mk "S"
        [FaqEntry.mk "Q1" (some "fill"), FaqEntry.mk "Q2" (some "kept")]]
    ∧ merge_faq_sections [FaqSection.mk "S" [FaqEntry.mk "Q" (some "old")]] [] =
      [FaqSection.mk "S" [FaqEntry.mk "Q" (some "old")]] := by
  refine ⟨?_, ?_, ?_⟩
  · have h := (claim_C7 [] [FlightEntry.mk " Q1 " " A1 "]).2.1
      (by simp) rfl
    rw [h]
    rfl
  · have h := (claim_C7
      [FaqSection.mk "S" [FaqEntry.mk "Q1" none, FaqEntry.mk "Q2" (some "kept")]]
      [FlightEntry.mk "q1" "fill"]).2.2 (by simp) (by simp)
    rw [h]
    rfl
  · exact (claim_C7 [FaqSection.mk "S" [FaqEntry.mk "Q" (some "old")]] []).1 rfl

/-! ## Theorems: profile product links (claim C10) -/

theorem splitOnCh_no_delim (c : Char) (cs : List Char) :
    ∀ l ∈ splitOnCh c cs, l.contains c = false := by
  induction cs with
  | nil =>
      intro l hl
      simp only [splitOnCh, List.mem_singleton] at hl
      subst hl
      rfl
  | cons x rest ih =>
      intro l hl
      simp only [splitOnCh] at hl
      by_cases hx : x = c
      · rw [if_pos hx] at hl
        rcases List.mem_cons.mp hl with h | h
        · subst h; rfl
        · exact ih l h
      · rw [if_neg hx] at hl
        rcases hrec : splitOnCh c rest with - | ⟨w, ws⟩
        · rw [hrec] at hl
          simp only [List.mem_singleton] at hl
          subst hl
          have hni : c ∉ [x] := fun hc => hx (List.mem_singleton.mp hc).symm
          simpa using hni
        · rw [hrec] at hl
          rcases List.mem_cons.mp hl with h | h
          · subst h
            have hw : w.contains c = false := ih w (hrec ▸ List.mem_cons_self w ws)
            have hw' : c ∉ w := by simpa using hw
            have hni : c ∉ x :: w := by
              intro hc
              rcases List.mem_cons.mp hc with h | h
              · exact hx h.symm
              · exact hw' h
            simpa using hni
          · exact ih l (hrec ▸ List.mem_cons_of_mem w h)

theorem pathSegments_good (p : String) :
    ∀ s ∈ pathSegments p, s ≠ "" ∧ s.toList.contains '/' = false := by
  intro s hs
  simp only [pathSegments, List.mem_filter, List.mem_map, decide_eq_true_eq] at hs
  obtain ⟨⟨l, hl, rfl⟩, hne⟩ := hs
  exact ⟨hne, splitOnCh_no_delim '/' (stripSlash p).toList l hl⟩

theorem profileLoop_spec (root : DOMNode) (parsed : URLParts) (p0 : String)
    (anchors : List DOMNode) (results urls : List String)
    (hsub : ∀ a ∈ anchors, a ∈ iter_tag root "a")
    (hres : ∀ u ∈ results, ProfileUrlSpec root parsed p0 u)
    (hnd : results.Nodup)
    (hok : profileLoop parsed (toLowerStr p0) results anchors = Except.ok urls) :
    urls.Nodup ∧ ∀ u ∈ urls, ProfileUrlSpec root parsed p0 u := by
  induction anchors generalizing results with
  | nil =>
      simp only [profileLoop] at hok
      injection hok with h
      subst h
      exact ⟨hnd, hres⟩
  | cons anchor restA ih =>
      have hsub' : ∀ a ∈ restA, a ∈ iter_tag root "a" :=
        fun a ha => hsub a (List.mem_cons_of_mem _ ha)
      have hanchor : anchor ∈ iter_tag root "a" :=
        hsub anchor (List.mem_cons_self _ _)
      simp only [profileLoop] at hok
      split at hok
      · exact ih results hsub' hres hnd hok
      · split at hok
        · exact Except.noConfusion hok
        · rename_i absolute hjoin
          split at hok
          · exact Except.noConfusion hok
          · rename_i ph hparse
            split at hok
            · exact ih results hsub' hres hnd hok
            · split at hok
              · rename_i s0 s1 tail hpseg
                split at hok
                · exact ih results hsub' hres hnd hok
                · rename_i hlow
                  split at hok
                  · exact ih results hsub' hres hnd hok
                  · rename_i hcont
                    have hmem : (parsed.scheme ++ "://" ++ parsed.netloc ++
                        "/" ++ s0 ++ "/" ++ s1) ∉ results := by
                      simpa using hcont
                    have hg0 := pathSegments_good ph.path s0
                      (by rw [hpseg]; exact List.mem_cons_self _ _)
                    have hg1 := pathSegments_good ph.path s1
                      (by rw [hpseg]
                          exact List.mem_cons_of_mem _ (List.mem_cons_self _ _))
                    have hspec : ProfileUrlSpec root parsed p0
                        (parsed.scheme ++ "://" ++ parsed.netloc ++ "/" ++
                          s0 ++ "/" ++ s1) := by
                      refine ⟨s0, s1, rfl, hg0.1, hg1.1, hg0.2, hg1.2,
                        not_ne_iff.mp hlow, anchor, hanchor, absolute, ph,
                        tail, hjoin, hparse, hpseg⟩
                    refine ih _ hsub' ?_ ?_ hok
                    · intro u hu
                      rcases List.mem_append.mp hu with h | h
                      · exact hres u h
                      · rw [List.mem_singleton.mp h]
                        exact hspec
                    · rw [← List.concat_eq_append]
                      exact hnd.concat hmem
              · exact ih results hsub' hres hnd hok

/-- Claim C10 as amended: with no tree, or with a profile URL whose path has
no segments, the extractor returns the empty list; otherwise the returned
list has no duplicates and every returned URL is the profile's scheme and
netloc followed by exactly two nonempty slash-free path segments — the
first two segments of some anchor's resolved link, truncating deeper
paths — whose first segment equals the profile URL's first path segment
only CASE-INSENSITIVELY: the output keeps the anchor's original letter
case, so it can differ from the profile's segment (see the
counterexample). -/
theorem claim_C10 (builder : Option DOMNode) (final_url : String) :
    extract_profile_product_paths none final_url = Except.ok []
    ∧ (∀ parsed : URLParts, urlparse final_url = Except.ok parsed →
        pathSegments parsed.path = [] →
        extract_profile_product_paths builder final_url = Except.ok [])
    ∧ (∀ (root : DOMNode) (parsed : URLParts) (p0 : String)
        (rest : List String) (urls : List String),
        builder = some root →
        urlparse final_url = Except.ok parsed →
        pathSegments parsed.path = p0 :: rest →
        extract_profile_product_paths builder final_url = Except.ok urls →
        urls.Nodup ∧ ∀ u ∈ urls, ProfileUrlSpec root parsed p0 u) := by
  refine ⟨rfl, ?_, ?_⟩
  · intro parsed hp hseg
    cases builder with
    | none => rfl
    | some root => simp [extract_profile_product_paths, hp, hseg]
  · intro root parsed p0 rest urls hb hp hseg hok
    subst hb
    simp only [extract_profile_product_paths, hp, hseg] at hok
    exact profileLoop_spec root parsed p0 (iter_tag root "a") [] urls
      (fun a ha => ha) (by simp) (by simp) hok

/-- Claim C10, counterexample to the claim as stated: the profile URL's
first path segment is "alice", the anchor links to "/ALICE/p1", and the
returned URL keeps the anchor's letter case — its first path segment
"ALICE" does not equal the profile's first segment "alice" (they agree only
case-insensitively). -/
theorem claim_C10_counterexample :
    extract_profile_product_paths (some profileCexTree)
        "https://whop.com/alice" =
      Except.ok ["https://whop.com/ALICE/p1"]
    ∧ urlparse "https://whop.com/alice" = Except.ok
        { scheme := "https", netloc := "whop.com", path := "/alice",
          params := "", query := "", fragment := "" }
    ∧ pathSegments "/alice" = ["alice"]
    ∧ pathSegments "/ALICE/p1" = ["ALICE", "p1"]
    ∧ ("ALICE" : String) ≠ "alice" := by
  refine ⟨rfl, rfl, rfl, rfl, by decide⟩

/-- Witness for claim C10 at a concrete profile page: a deep same-owner
link, an off-host link, a duplicate and a different-owner link produce the
single truncated product URL, duplicate-free and satisfying the per-URL
invariant. -/
theorem claim_C10_witness :
    (["https://whop.com/alice/prod1"] : List String).Nodup
    ∧ ∀ u ∈ ["https://whop.com/alice/prod1"],
        ProfileUrlSpec profileWitnessTree
          { scheme := "https", netloc := "whop.com", path := "/alice",
            params := "", query := "", fragment := "" } "alice" u :=
  (claim_C10 (some profileWitnessTree) "https://whop.com/alice").2.2
    profileWitnessTree _ "alice" [] _ rfl rfl rfl rfl


/-! ## Theorems: fetch_listing_snapshot (claims C1 and C5) -/

theorem fetchFlat_isFlat (env : FetchEnv) (final_url html_text : String)
    (db rdb : Option DOMNode) (s : Snapshot)
    (h : fetchFlat env final_url html_text db rdb = Except.ok s) :
    isProfileSnap s = false := by
  unfold fetchFlat at h
  rcases hh : hydrationPayload env html_text final_url with e | o <;>
    simp only [hh] at h
  · exact Except.noConfusion h
  · injection h with h2
    rw [← h2]
    rfl

theorem fetchAux_false_not_profile (env : FetchEnv)
    (child : String → Except FetchErr Snapshot) (target : String)
    (s : Snapshot) (h : fetchAux env child false target = Except.ok s) :
    isProfileSnap s = false := by
  unfold fetchAux at h
  rcases hn : normalize_target target with e | ⟨url, slug⟩
  · simp only [hn] at h
    exact Except.noConfusion h
  · simp only [hn] at h
    rcases hr : env.rawGet url with msg | resp
    · simp only [hr] at h
      exact Except.noConfusion h
    · simp only [hr] at h
      rcases hp : urlparse (pickFinal (env.render url) resp.url)
          with msg | parsed
      · simp only [hp] at h
        exact Except.noConfusion h
      · simp only [hp] at h
        rw [if_neg (by simp)] at h
        exact fetchFlat_isFlat _ _ _ _ _ _ h

theorem hydrationReq_ok (env : FetchEnv) (ndu : String)
    (hdata : ∀ u st body, env.dataGet u = Except.ok (st, body) →
      st = 200 → body ≠ none) :
    ∃ o, hydrationReq env ndu = Except.ok o := by
  rcases hd : env.dataGet ndu with msg | ⟨st, body⟩
  · simp only [hydrationReq, hd]
    exact ⟨none, rfl⟩
  · simp only [hydrationReq, hd]
    by_cases h200 : st = 200
    · rcases body with _ | bj
      · exact absurd rfl (hdata _ _ _ hd h200)
      · rw [if_pos h200]
        cases bj with
        | obj kvs => exact ⟨_, rfl⟩
        | null => exact ⟨none, rfl⟩
        | bool b => exact ⟨none, rfl⟩
        | num n => exact ⟨none, rfl⟩
        | str s2 => exact ⟨none, rfl⟩
        | arr xs => exact ⟨none, rfl⟩
    · rw [if_neg h200]
      exact ⟨none, rfl⟩

theorem hydration_ok (env : FetchEnv) (html_text final_url : String)
    (p : URLParts) (hp : urlparse final_url = Except.ok p)
    (hdata : ∀ u st body, env.dataGet u = Except.ok (st, body) →
      st = 200 → body ≠ none) :
    ∃ o, hydrationPayload env html_text final_url = Except.ok o := by
  rcases hb : buildIdOf (nextDataOf env html_text) with _ | bid
  · simp only [hydrationPayload, hb]
    exact ⟨none, rfl⟩
  · simp only [hydrationPayload, hb, build_next_data_url, hp]
    by_cases hsn : p.scheme = "" ∨ p.netloc = ""
    · rw [if_pos hsn]
      exact ⟨none, rfl⟩
    · rw [if_neg hsn]
      exact hydrationReq_ok env _ hdata

theorem fetchFlat_ok (env : FetchEnv) (final_url html_text : String)
    (db rdb : Option DOMNode) (p : URLParts)
    (hp : urlparse final_url = Except.ok p)
    (hdata : ∀ u st body, env.dataGet u = Except.ok (st, body) →
      st = 200 → body ≠ none) :
    ∃ s, fetchFlat env final_url html_text db rdb = Except.ok s := by
  unfold fetchFlat
  obtain ⟨o, ho⟩ := hydration_ok env html_text final_url p hp hdata
  rw [ho]
  exact ⟨_, rfl⟩

theorem mapChildren_ok (f : String → Except FetchErr Snapshot) :
    ∀ l : List String, (∀ v ∈ l, ∃ s, f v = Except.ok s) →
      ∃ ss, mapChildren f l = Except.ok ss := by
  intro l
  induction l with
  | nil => intro _; exact ⟨[], rfl⟩
  | cons u rest ih =>
      intro hall
      obtain ⟨s, hs⟩ := hall u (by simp)
      obtain ⟨ss, hss⟩ := ih (fun v hv => hall v (by simp [hv]))
      refine ⟨s :: ss, ?_⟩
      simp only [mapChildren, hs, hss]

theorem mapChildren_spec (f : String → Except FetchErr Snapshot) :
    ∀ (l : List String) (ss : List Snapshot),
      mapChildren f l = Except.ok ss →
      ss.length = l.length ∧
      (∀ i (hi : i < l.length) (hs : i < ss.length),
        f (l.get ⟨i, hi⟩) = Except.ok (ss.get ⟨i, hs⟩)) ∧
      (∀ s ∈ ss, ∃ v ∈ l, f v = Except.ok s) := by
  intro l
  induction l with
  | nil =>
      intro ss h
      simp only [mapChildren] at h
      injection h with h2
      subst h2
      refine ⟨rfl, ?_, ?_⟩
      · intro i hi
        exact absurd hi (by simp)
      · intro s hs
        exact absurd hs (by simp)
  | cons u rest ih =>
      intro ss h
      simp only [mapChildren] at h
      rcases hu : f u with e | s0
      · rw [hu] at h
        exact Except.noConfusion h
      · rw [hu] at h
        rcases hrest : mapChildren f rest with e | ss0
        · rw [hrest] at h
          exact Except.noConfusion h
        · rw [hrest] at h
          injection h with h2
          subst h2
          obtain ⟨hlen, hpt, hmem⟩ := ih ss0 hrest
          refine ⟨by simp [hlen], ?_, ?_⟩
          · intro i hi hs
            cases i with
            | zero => exact hu
            | succ j =>
                exact hpt j (by simpa using hi) (by simpa using hs)
          · intro s hs
            rcases List.mem_cons.mp hs with rfl | hs2
            · exact ⟨u, by simp, hu⟩
            · obtain ⟨v, hv, hfv⟩ := hmem s hs2
              exact ⟨v, by simp [hv], hfv⟩

theorem fetch_nohop_ok (env : FetchEnv) (henv : EnvOk env)
    (v uu ss : String) (hn : normalize_target v = Except.ok (uu, ss)) :
    ∃ s, fetch_nohop env v = Except.ok s := by
  obtain ⟨hraw, hfinal, hprof, hdata⟩ := henv
  obtain ⟨r, hr⟩ := hraw uu
  obtain ⟨p, hp, -⟩ := hfinal uu r hr
  unfold fetch_nohop fetchAux
  simp only [hn, hr, hp]
  rw [if_neg (by simp)]
  exact fetchFlat_ok env _ _ _ _ p hp hdata

/-- Claim C1, counterexample to the claim as stated: the claim says a
failing raw HTTP GET is absorbed into a degraded snapshot, but the call
`client.get(url)` (listing_scraper.py line 1201) is not wrapped in any
`except`, so with a normalizable target and a transport that raises, the
error escapes `fetch_listing_snapshot` instead of a snapshot being
returned. -/
theorem claim_C1_counterexample :
    (∃ u s, normalize_target "https://whop.com/foo" = Except.ok (u, s)) ∧
    fetch_listing_snapshot envCex "https://whop.com/foo" true =
      Except.error (FetchErr.transport "httpx.ConnectError") := by
  constructor
  · exact ⟨"https://whop.com/foo", "foo", rfl⟩
  · rfl

/-- Claim C1 (amended): render failures and hydration-transport failures
are always absorbed (they are `Option`/caught branches of the model, so no
premise about them appears), and under an environment whose raw GETs
succeed, whose final URLs parse with an http/https scheme, whose
profile-link extraction does not raise and yields normalizable links, and
whose 200 hydration bodies decode, every normalizable target produces a
snapshot — the two validation errors of `_normalize_target` are then the
only possible failures of the entry point. -/
theorem claim_C1 (env : FetchEnv) (target url slug : String)
    (henv : EnvOk env)
    (hnorm : normalize_target target = Except.ok (url, slug)) :
    ∃ snap, fetch_listing_snapshot env target true = Except.ok snap := by
  obtain ⟨hraw, hfinal, hprof, hdata⟩ := henv
  obtain ⟨r, hr⟩ := hraw url
  obtain ⟨p, hp, -⟩ := hfinal url r hr
  unfold fetch_listing_snapshot fetchAux
  simp only [hnorm, hr, hp]
  by_cases hseg : (pathSegments p.path).length ≤ 1
  · rw [if_pos ⟨trivial, hseg⟩]
    obtain ⟨links, hlinks, hnormable⟩ := hprof url r hr
    simp only [hlinks]
    by_cases hemp : links.isEmpty = true
    · rw [if_pos hemp]
      exact fetchFlat_ok env _ _ _ _ p hp hdata
    · rw [if_neg hemp]
      have hchild : ∀ v ∈ links.take 8,
          ∃ s, fetch_nohop env v = Except.ok s := by
        intro v hv
        obtain ⟨uu, ss, hnv⟩ := hnormable v (List.mem_of_mem_take hv)
        exact fetch_nohop_ok env ⟨hraw, hfinal, hprof, hdata⟩ v uu ss hnv
      obtain ⟨snaps, hsnaps⟩ := mapChildren_ok (fetch_nohop env)
        (links.take 8) hchild
      rw [hsnaps]
      exact ⟨_, rfl⟩
  · rw [if_neg (by simp [hseg])]
    exact fetchFlat_ok env _ _ _ _ p hp hdata

/-- Closed instance of the amended claim C1 at a benign environment. -/
theorem claim_C1_witness :
    ∃ snap, fetch_listing_snapshot envOkW "https://whop.com/foo" true =
      Except.ok snap := by
  refine claim_C1 envOkW "https://whop.com/foo" "https://whop.com/foo" "foo"
    ⟨?_, ?_, ?_, ?_⟩ rfl
  · intro u
    exact ⟨_, rfl⟩
  · intro u r hr
    injection hr with h2
    subst h2
    exact ⟨_, rfl, Or.inr rfl⟩
  · intro u r hr
    injection hr with h2
    subst h2
    refine ⟨[], rfl, ?_⟩
    intro v hv
    exact absurd hv (by simp)
  · intro u st body h
    exact Except.noConfusion h

/-- Claim C5: when the hop is permitted, the final profile URL has at most
one path segment and same-owner product links exist, the entry point
returns the profile fan-out dict built from at most 8 child snapshots —
child `i` is the fetch of discovered link `i` (order preserved), the
parent performs no flat extraction (the returned value is exactly the
profile dict), no child snapshot is a profile dict, and a hop-disabled
invocation can never return a profile dict whatever its environment and
page content. -/
theorem claim_C5 (env : FetchEnv) (target url slug : String)
    (resp : RawResponse) (parsed : URLParts) (links : List String)
    (snaps : List Snapshot)
    (hnorm : normalize_target target = Except.ok (url, slug))
    (hraw : env.rawGet url = Except.ok resp)
    (hparse : urlparse (pickFinal (env.render url) resp.url) =
      Except.ok parsed)
    (hsegs : (pathSegments parsed.path).length ≤ 1)
    (hlinks : extract_profile_product_paths (env.buildTree resp.text)
      (pickFinal (env.render url) resp.url) = Except.ok links)
    (hne : links ≠ [])
    (hmap : mapChildren (fetch_nohop env) (links.take 8) =
      Except.ok snaps) :
    fetch_listing_snapshot env target true =
      Except.ok (Snapshot.profile url (pickFinal (env.render url) resp.url)
        (pathSegments parsed.path).head? links.length links snaps) ∧
    snaps.length = (links.take 8).length ∧
    snaps.length ≤ 8 ∧
    (∀ i (hi : i < (links.take 8).length) (hs : i < snaps.length),
      fetch_nohop env ((links.take 8).get ⟨i, hi⟩) =
        Except.ok (snaps.get ⟨i, hs⟩)) ∧
    (∀ s ∈ snaps, isProfileSnap s = false) ∧
    (∀ (env' : FetchEnv) (v : String) (s : Snapshot),
      fetch_nohop env' v = Except.ok s → isProfileSnap s = false) := by
  obtain ⟨hlen, hpt, hmem⟩ := mapChildren_spec (fetch_nohop env)
    (links.take 8) snaps hmap
  refine ⟨?_, hlen, ?_, hpt, ?_, ?_⟩
  · unfold fetch_listing_snapshot fetchAux
    simp only [hnorm, hraw, hparse]
    rw [if_pos ⟨trivial, hsegs⟩]
    simp only [hlinks]
    rw [if_neg (by simp [List.isEmpty_iff, hne])]
    simp only [hmap]
  · rw [hlen]
    have := List.length_take 8 links
    omega
  · intro s hs
    obtain ⟨v, hv, hfv⟩ := hmem s hs
    exact fetchAux_false_not_profile env _ v s hfv
  · intro env' v s h
    exact fetchAux_false_not_profile env' _ v s h

/-- Closed instance of claim C5: a profile page with one product link
fans out into exactly one flat child snapshot. -/
theorem claim_C5_witness :
    fetch_listing_snapshot envProf "https://whop.com/alice" true =
      Except.ok (Snapshot.profile "https://whop.com/alice"
        "https://whop.com/alice" (some "alice") 1
        ["https://whop.com/alice/prod1"]
        [Snapshot.flat "https://whop.com/alice/prod1" [] [] none]) ∧
    ∀ s ∈ [Snapshot.flat "https://whop.com/alice/prod1" [] [] none],
      isProfileSnap s = false := by
  have h := claim_C5 envProf "https://whop.com/alice" "https://whop.com/alice"
    "alice" { status := 200, url := "https://whop.com/alice", text := "profile" }
    { scheme := "https", netloc := "whop.com", path := "/alice",
      params := "", query := "", fragment := "" }
    ["https://whop.com/alice/prod1"]
    [Snapshot.flat "https://whop.com/alice/prod1" [] [] none]
    rfl rfl rfl (by decide) rfl (by decide) rfl
  exact ⟨h.1, h.2.2.2.2.1⟩
end ListingScraper
